import Mathlib

/-!
# hosts-control: a shallow embedding of the hosts-file model

Embedded sources:
* `transforms/Loads.go`     : `LoadStringToHostsFile`
* `hostsfile/hostsfile.go`  : `HostLine`, `HostsFile`, `ToHostsFileString`,
  `rebuildIndex`, `RemoveDomain`, `AddDomain`
* `iputils/iputils.go`      : `IsIPAddress` (a wrapper of Go's `net.ParseIP`,
  which is library code: it is a parameter `isIP` of every definition that
  calls it; `dottedQuad` instantiates it in concrete evaluations)

Go strings are modelled as sequences of Unicode code points (`List Char`),
that is, as well-formed UTF-8 text.  The functions of Go's `strings` package
used by the sources (`TrimSpace`, `Fields`, `Split`, `Index`, `HasPrefix`,
`TrimPrefix`, `Join`) are modelled from their documented behaviour.
-/

namespace HostsControl

/-- A Go string, as its sequence of code points. -/
abbrev Str := List Char

/-! ## Go's `unicode` and `strings` helpers -/

/-- Go `unicode.IsSpace`: the Latin-1 spaces `\t \n \v \f \r ' '`, U+0085,
U+00A0, and the other code points of category White_Space. -/
def isSpace (c : Char) : Bool :=
  let n := c.toNat
  (9 ≤ n && n ≤ 13) || n == 32 || n == 0x85 || n == 0xA0 || n == 0x1680 ||
  (0x2000 ≤ n && n ≤ 0x200A) || n == 0x2028 || n == 0x2029 || n == 0x202F ||
  n == 0x205F || n == 0x3000

/-- Go `strings.TrimSpace`: remove leading and trailing white space. -/
def TrimSpace (s : Str) : Str :=
  ((s.dropWhile isSpace).reverse.dropWhile isSpace).reverse

/-- Scanner of `strings.Fields`: `cur` is the field being read. -/
def fieldsAux : Str → Str → List Str
  | cur, [] => if cur = [] then [] else [cur]
  | cur, c :: cs =>
    if isSpace c then
      (if cur = [] then fieldsAux [] cs else cur :: fieldsAux [] cs)
    else fieldsAux (cur ++ [c]) cs

/-- Go `strings.Fields`: the maximal runs of non-space characters. -/
def Fields (s : Str) : List Str := fieldsAux [] s

/-- Scanner of `strings.Split` for a one-character separator. -/
def splitAux (sep : Char) : Str → Str → List Str
  | cur, [] => [cur]
  | cur, c :: cs =>
    if c = sep then cur :: splitAux sep [] cs else splitAux sep (cur ++ [c]) cs

/-- Go `strings.Split(s, sep)` for a one-character separator: the pieces of
`s` between the occurrences of `sep`, one more than there are occurrences. -/
def Split (s : Str) (sep : Char) : List Str := splitAux sep [] s

/-- Go `strings.Index(s, c)` for a one-character pattern: the position of the
first occurrence, or `-1`. -/
def Index (s : Str) (c : Char) : Int :=
  if c ∈ s then (s.indexOf c : Nat) else -1

/-- Go `strings.HasPrefix(s, c)` for a one-character prefix. -/
def HasPrefix (s : Str) (c : Char) : Bool :=
  match s with
  | [] => false
  | x :: _ => x == c

/-- Go `strings.TrimPrefix(s, c)` for a one-character prefix. -/
def TrimPrefix (s : Str) (c : Char) : Str :=
  if HasPrefix s c then s.drop 1 else s

/-- Go `strings.Join(xs, sep)`. -/
def Join (xs : List Str) (sep : Str) : Str :=
  match xs with
  | [] => []
  | [x] => x
  | x :: y :: rest => x ++ sep ++ Join (y :: rest) sep

/-! ## Data model (`hostsfile.go`) -/

/-- One line of the hosts file (`HostLine`). -/
structure HostLine where
  Raw : Str
  IsEntry : Bool
  IP : Str
  Domains : List Str
  Comment : Str
  IsBlank : Bool
  deriving DecidableEq

/-- The whole file (`HostsFile`).  A `*HostLine` that points into `Lines` is
modelled by the position it points at; a Go map is a lookup function. -/
structure HostsFile where
  Lines : List HostLine
  ByIP : Str → Option Nat
  ByDomain : Str → Option Nat

/-- Go `m[k] = v` on a map. -/
def mapSet (m : Str → Option Nat) (k : Str) (v : Nat) : Str → Option Nat :=
  fun k' => if k' = k then some v else m k'

/-- Go `make(map[string]*HostLine)`. -/
def mapEmpty : Str → Option Nat := fun _ => none

/-- The zero value `HostLine{Raw: rawLine}`. -/
def rawEntry (rawLine : Str) : HostLine :=
  { Raw := rawLine, IsEntry := false, IP := [], Domains := [], Comment := [],
    IsBlank := false }

/-! ## Parser (`Loads.go`) -/

/-- The record the loop body of `LoadStringToHostsFile` builds for one
`rawLine` (each `continue` returns the record appended just before it). -/
def parseLine (isIP : Str → Bool) (rawLine : Str) : HostLine :=
  let line := TrimSpace rawLine
  let entry := rawEntry rawLine
  if line = [] then
    { entry with IsBlank := true }
  else if HasPrefix line '#' then
    { entry with Comment := TrimSpace (TrimPrefix line '#') }
  else
    let hashIndex := Index line '#'
    let comment := if hashIndex ≠ -1 then TrimSpace (line.drop (hashIndex.toNat + 1)) else []
    let line := if hashIndex ≠ -1 then TrimSpace (line.take hashIndex.toNat) else line
    let fields := Fields line
    if fields.length < 2 then
      { entry with Comment := comment }
    else
      let ipStr := fields.headD []
      if !isIP ipStr then
        { entry with Comment := comment }
      else
        { entry with IP := ipStr, Domains := fields.drop 1, IsEntry := true,
                     Comment := comment }

/-- One iteration of the loop of `LoadStringToHostsFile`: append the record
and, for an entry, fill the lookup maps with a pointer to the slot just
appended. -/
def loadStep (isIP : Str → Bool) (hf : HostsFile) (rawLine : Str) : HostsFile :=
  let entry := parseLine isIP rawLine
  let lines := hf.Lines ++ [entry]
  if entry.IsEntry then
    let entryPtr := lines.length - 1
    { Lines := lines,
      ByIP := mapSet hf.ByIP entry.IP entryPtr,
      ByDomain := entry.Domains.foldl (fun m domain => mapSet m domain entryPtr) hf.ByDomain }
  else
    { hf with Lines := lines }

/-- `LoadStringToHostsFile`: the Go function returns `(hf, nil)` on every
path; the error component is kept as `Except`. -/
def LoadStringToHostsFile (isIP : Str → Bool) (content : Str) : Except String HostsFile :=
  .ok ((Split content '\n').foldl (loadStep isIP)
    { Lines := [], ByIP := mapEmpty, ByDomain := mapEmpty })

/-- The collection `LoadStringToHostsFile` returns (it never fails). -/
def load (isIP : Str → Bool) (content : Str) : HostsFile :=
  match LoadStringToHostsFile isIP content with
  | .ok hf => hf
  | .error _ => { Lines := [], ByIP := mapEmpty, ByDomain := mapEmpty }

/-! ## Serializer (`hostsfile.go`) -/

/-- What one iteration of the loop of `ToHostsFileString` writes. -/
def lineString (line : HostLine) : Str :=
  if line.IsBlank then
    ['\n']
  else if !line.IsEntry then
    if TrimSpace line.Comment ≠ [] then
      "# ".toList ++ TrimSpace line.Comment ++ ['\n']
    else if line.Raw ≠ [] then
      line.Raw ++ ['\n']
    else
      ['\n']
  else
    line.IP
      ++ (if line.Domains.length > 0 then " ".toList ++ Join line.Domains " ".toList else [])
      ++ (if TrimSpace line.Comment ≠ [] then " # ".toList ++ TrimSpace line.Comment else [])
      ++ ['\n']

/-- `ToHostsFileString`: the builder receives the text of every record in
sequence order.  The final `if i == len(hf.Lines)-1 { break }` stands after
the write of the last record and leaves the loop where it ends anyway. -/
def ToHostsFileString (hf : HostsFile) : Str :=
  hf.Lines.foldl (fun sb line => sb ++ lineString line) []

/-- `rebuildIndex`: both maps are made afresh and filled from the entry
records in sequence order; `&hf.Lines[i]` is the position `i`. -/
def rebuildIndex (hf : HostsFile) : HostsFile :=
  let r := hf.Lines.enum.foldl
    (fun (acc : (Str → Option Nat) × (Str → Option Nat)) (il : Nat × HostLine) =>
      if il.2.IsEntry then
        (mapSet acc.1 il.2.IP il.1,
         il.2.Domains.foldl (fun m d => mapSet m (TrimSpace d) il.1) acc.2)
      else acc)
    (mapEmpty, mapEmpty)
  { Lines := hf.Lines, ByIP := r.1, ByDomain := r.2 }

/-! ## `RemoveDomain` -/

/-- The inner loop of `RemoveDomain` over `l.Domains`: the domains kept so
far (`newDomains`) and the `changed` flag. -/
def keepOthers (domain : Str) (ds : List Str) (changed : Bool) : List Str × Bool :=
  ds.foldl
    (fun (acc : List Str × Bool) d =>
      if TrimSpace d ≠ domain then (acc.1 ++ [d], acc.2) else (acc.1, true))
    ([], changed)

/-- The outer loop of `RemoveDomain`, `for i := 0; i < len(hf.Lines); i++`,
on the state `(i, hf.Lines, changed)`; the first argument bounds the number
of iterations.  A record left without domains and with a non-empty IP is cut
out in place by `append(hf.Lines[:i], hf.Lines[i+1:]...)`; the `i--` of that
branch and the `i++` of the loop leave `i` where it is. -/
def removeLoop (domain : Str) : Nat → Nat → List HostLine → Bool → List HostLine × Bool
  | 0, _, lines, changed => (lines, changed)
  | fuel + 1, i, lines, changed =>
    match lines[i]? with
    | none => (lines, changed)
    | some l =>
      if !l.IsEntry then
        removeLoop domain fuel (i + 1) lines changed
      else
        let r := keepOthers domain l.Domains changed
        let lines1 := lines.set i { l with Domains := r.1 }
        if r.1.length == 0 && l.IP ≠ [] then
          removeLoop domain fuel i (lines1.take i ++ lines1.drop (i + 1)) r.2
        else
          removeLoop domain fuel (i + 1) lines1 r.2

/-- `RemoveDomain`: every iteration of the loop either moves `i` forward or
shortens the sequence, so `len(hf.Lines) + 1` bounds the iterations. -/
def RemoveDomain (hf : HostsFile) (domain : Str) : HostsFile × Bool :=
  let domain := TrimSpace domain
  let r := removeLoop domain (hf.Lines.length + 1) 0 hf.Lines false
  let hf1 : HostsFile := { hf with Lines := r.1 }
  if r.2 then (rebuildIndex hf1, true) else (hf1, false)

/-! ## `AddDomain` -/

/-- The two errors of `AddDomain`: `"domain cannot be empty"` and
`"invalid IP address: %s"`. -/
inductive AddError where
  | emptyDomain
  | invalidIP (ip : Str)
  deriving DecidableEq

/-- A `for i := range hf.Lines` search that stops at the first record
satisfying `p`: the pointer `&hf.Lines[i]` (as the position `i`) with the
record it points at, or `none` for a `nil` pointer. -/
def findLine (p : HostLine → Bool) : List HostLine → Option (Nat × HostLine)
  | [] => none
  | l :: ls => if p l then some (0, l) else (findLine p ls).map fun r => (r.1 + 1, r.2)

/-- The test of the first loop of `AddDomain`: an entry record one of whose
domains equals `domain` after trimming. -/
def listsDomain (domain : Str) (l : HostLine) : Bool :=
  l.IsEntry && l.Domains.any fun d => TrimSpace d == domain

/-- Cases 4 and 5 of `AddDomain`: append the domain to the first entry record
of `ip`, or append a new entry record; the lookup maps are rebuilt. -/
def attachDomain (hf : HostsFile) (ip domain comment : Str) : HostsFile :=
  match findLine (fun l => l.IsEntry && l.IP == ip) hf.Lines with
  | some (i, ipEntry) =>
    let l1 : HostLine := { ipEntry with Domains := ipEntry.Domains ++ [domain] }
    let l2 : HostLine :=
      if comment ≠ [] ∧ l1.Comment ≠ comment then { l1 with Comment := comment } else l1
    rebuildIndex { hf with Lines := hf.Lines.set i l2 }
  | none =>
    let newEntry : HostLine :=
      { Raw := ip ++ " ".toList ++ domain, IP := ip, Domains := [domain],
        IsEntry := true, Comment := comment, IsBlank := false }
    rebuildIndex { hf with Lines := hf.Lines ++ [newEntry] }

/-- `AddDomain`: the collection after the call, the `changed` flag and the
error (`none` for `nil`). -/
def AddDomain (isIP : Str → Bool) (hf : HostsFile) (ip domain comment : Str) :
    HostsFile × Bool × Option AddError :=
  let domain := TrimSpace domain
  if domain = [] then
    (hf, false, some AddError.emptyDomain)
  else if !isIP ip then
    (hf, false, some (AddError.invalidIP ip))
  else
    match findLine (listsDomain domain) hf.Lines with
    | some (i, foundEntry) =>
      if foundEntry.IP = ip then
        -- Case 1: domain exists under the same IP
        if comment ≠ [] ∧ foundEntry.Comment ≠ comment then
          (rebuildIndex
            { hf with Lines := hf.Lines.set i { foundEntry with Comment := comment } },
           true, none)
        else
          (hf, false, none)
      else
        -- Cases 2 and 3: domain exists under a different IP, remove first
        (attachDomain (RemoveDomain hf domain).1 ip domain comment, true, none)
    | none =>
      (attachDomain hf ip domain comment, true, none)

/-! ## A sample address predicate for concrete evaluations -/

/-- Decimal value of a digit string, `none` if some character is no digit. -/
def decimal? (s : Str) : Option Nat :=
  if s = [] then none
  else s.foldl (fun acc c => acc.bind fun n => if c.isDigit then some (10 * n + (c.toNat - 48)) else none) (some 0)

/-- Dotted-quad IPv4 syntax: four decimal numbers up to 255 without leading
zeros.  `net.ParseIP` accepts these strings (among others); this predicate
only instantiates the parameter `isIP` in concrete evaluations. -/
def dottedQuad (s : Str) : Bool :=
  let parts := Split s '.'
  parts.length == 4 &&
  parts.all fun p =>
    match decimal? p with
    | some n => n ≤ 255 && (p.length == 1 || p.head? != some '0')
    | none => false

/-! ## Predicates used in the statements -/

/-- A string without white space at either end. -/
def Trimmed (s : Str) : Prop :=
  (∀ c, s.head? = some c → isSpace c = false) ∧
  (∀ c, s.getLast? = some c → isSpace c = false)

/-- The text of a line before its first `#` (all of it when it has none),
trimmed. -/
def textBeforeHash (raw : Str) : Str :=
  TrimSpace (raw.takeWhile fun c => c != '#')

/-- The text of a line after its first `#` (nothing when it has none),
trimmed. -/
def textAfterHash (raw : Str) : Str :=
  TrimSpace ((raw.dropWhile fun c => c != '#').drop 1)

/-- The record `parseLine` builds once the inline comment is split off:
`p` is the text parsed into fields and `c` the comment. -/
def fieldsRecord (isIP : Str → Bool) (raw p c : Str) : HostLine :=
  if 2 ≤ (Fields p).length ∧ isIP ((Fields p).headD []) = true then
    { Raw := raw, IsEntry := true, IP := (Fields p).headD [], Domains := (Fields p).drop 1,
      Comment := c, IsBlank := false }
  else
    { Raw := raw, IsEntry := false, IP := [], Domains := [], Comment := c, IsBlank := false }

/-- What removing `domain` makes of one record, in the words of the removal
rule: a record that is no entry is kept as it is; an entry keeps, in order,
its domains that differ from `domain` after trimming; an entry left without
domains and with a non-empty IP is dropped. -/
def dropDomain (domain : Str) (r : HostLine) : Option HostLine :=
  if r.IsEntry then
    if r.Domains.filter (fun d => TrimSpace d != domain) = [] ∧ r.IP ≠ [] then none
    else some { r with Domains := r.Domains.filter (fun d => TrimSpace d != domain) }
  else some r

/-- What a record says apart from its raw text: its category (`IsBlank`,
`IsEntry`), IP, domains in order and comment. -/
def content (r : HostLine) : Bool × Bool × Str × List Str × Str :=
  (r.IsBlank, r.IsEntry, r.IP, r.Domains, r.Comment)

/-! ## The states of the scenarios -/

/-- Scenario 1: the collection parsed from `127.0.0.1 a.local # dev`
followed by a line terminator. -/
def scenario1 : HostsFile := load dottedQuad "127.0.0.1 a.local # dev\n".toList

/-- Scenario 2: the state after `AddDomain("127.0.0.1", "b.local", "")` on
Scenario 1. -/
def scenario2 : HostsFile :=
  (AddDomain dottedQuad scenario1 "127.0.0.1".toList "b.local".toList []).1

/-! ## `MergeByIP` -/

/-- One iteration of the loop of `MergeByIP` on the state
`(newLines, ipToLine, changed)`.  A pointer `&newLines[k]` kept in `ipToLine`
is the position `k`; `newLines` is made with the capacity of `hf.Lines`, so
no append moves the records the pointers refer to. -/
def mergeStep (st : List HostLine × (Str → Option Nat) × Bool) (line : HostLine) :
    List HostLine × (Str → Option Nat) × Bool :=
  if !line.IsEntry || line.IP == [] then
    (st.1 ++ [line], st.2.1, st.2.2)
  else
    match st.2.1 line.IP with
    | some k =>
      match st.1[k]? with
      | some existingLine =>
        let e1 : HostLine :=
          { existingLine with Domains := existingLine.Domains ++ line.Domains }
        let e2 : HostLine :=
          if e1.Comment = [] ∧ line.Comment ≠ [] then { e1 with Comment := line.Comment }
          else e1
        (st.1.set k e2, st.2.1, true)
      | none => (st.1, st.2.1, true)
    | none =>
      (st.1 ++ [line], mapSet st.2.1 line.IP ((st.1 ++ [line]).length - 1), st.2.2)

/-- `MergeByIP`: `hf.Lines` is replaced, and the lookup maps rebuilt, only
when some record was merged. -/
def MergeByIP (hf : HostsFile) : HostsFile × Bool :=
  let r := hf.Lines.foldl mergeStep ([], mapEmpty, false)
  if r.2.2 then (rebuildIndex { hf with Lines := r.1 }, true) else (hf, false)

/-! ## The merge in the words of its description -/

/-- An entry record of the address `ip`. -/
def hasIP (ip : Str) (r : HostLine) : Bool := r.IsEntry && r.IP == ip

/-- A record the merge does not look at: no entry, or an entry whose IP
field is empty (it has no address). -/
def unmerged (r : HostLine) : Bool := !r.IsEntry || r.IP == []

/-- The first non-empty comment of a list of comments, empty if there is
none. -/
def firstNonEmpty : List Str → Str
  | [] => []
  | c :: cs => if c ≠ [] then c else firstNonEmpty cs

/-- The retained record of an address: the first record `r` of the address
with the domains of the later records `rest` of the same address appended in
order and, as comment, the first non-empty comment among them all. -/
def absorb (rest : List HostLine) (r : HostLine) : HostLine :=
  { r with
    Domains := r.Domains ++ ((rest.filter (hasIP r.IP)).map fun x => x.Domains).flatten,
    Comment := firstNonEmpty (r.Comment :: (rest.filter (hasIP r.IP)).map fun x => x.Comment) }

/-- The merged sequence, read off the description, after the addresses
`seen`: a record the merge does not look at stays where it is; an entry whose
address was seen is dropped; the first entry of an address stays where it is
and absorbs the later ones. -/
def mergeFrom (seen : List Str) : List HostLine → List HostLine
  | [] => []
  | r :: rest =>
    if unmerged r then r :: mergeFrom seen rest
    else if r.IP ∈ seen then mergeFrom seen rest
    else absorb rest r :: mergeFrom (seen ++ [r.IP]) rest

/-- The merged sequence of a whole file. -/
def mergeRef (lines : List HostLine) : List HostLine := mergeFrom [] lines

/-- Whether some entry has an address seen before it. -/
def repeatsIP (seen : List Str) : List HostLine → Bool
  | [] => false
  | r :: rest =>
    if unmerged r then repeatsIP seen rest
    else if r.IP ∈ seen then true
    else repeatsIP (seen ++ [r.IP]) rest

/-- The addresses of the entries that have one, in sequence order. -/
def entryIPs (lines : List HostLine) : List Str :=
  (lines.filter fun r => !unmerged r).map fun r => r.IP

/-! ## Further scenario states -/

/-- Scenario 3: the state after `AddDomain("10.0.0.1", "a.local", "")` on
Scenario 2. -/
def scenario3 : HostsFile :=
  (AddDomain dottedQuad scenario2 "10.0.0.1".toList "a.local".toList []).1

/-! ## The loop of `MergeByIP`, between two iterations -/

/-- The retained record `e` after the loop of `MergeByIP` has merged the
duplicate `x` into it. -/
def adopt (e x : HostLine) : HostLine :=
  { e with Domains := e.Domains ++ x.Domains,
           Comment := if e.Comment = [] ∧ x.Comment ≠ [] then x.Comment else e.Comment }

/-- A record retained so far, once the records `rest` are read too. -/
def settle (rest : List HostLine) (r : HostLine) : HostLine :=
  if unmerged r then r else absorb rest r

/-- What the loop of `MergeByIP` reads of a retained record: whether the
merge looks at it, and its address. -/
def mergeKey (r : HostLine) : Bool × Str := (unmerged r, r.IP)

/-- What the loop of `MergeByIP` keeps true of `newLines` and `ipToLine`:
an address maps to the position of the one retained entry that has it, and
an address without a pointer has no retained entry. -/
def MergeInv (nl : List HostLine) (m : Str → Option Nat) : Prop :=
  ∀ ip : Str,
    (∀ k, m ip = some k →
      (nl.map mergeKey)[k]? = some (false, ip) ∧
        ∀ j, (nl.map mergeKey)[j]? = some (false, ip) → j = k) ∧
    (m ip = none → (false, ip) ∉ nl.map mergeKey)

/-! ## Reachable collections and their invariants -/

/-- The collections reachable from the parser by `AddDomain`, `RemoveDomain`
and `MergeByIP` calls (with any arguments; a failed `AddDomain` leaves the
collection as it was). -/
inductive Reachable (isIP : Str → Bool) : HostsFile → Prop
  | parsed (t : Str) : Reachable isIP (load isIP t)
  | added (hf : HostsFile) (ip domain comment : Str) :
      Reachable isIP hf → Reachable isIP (AddDomain isIP hf ip domain comment).1
  | removed (hf : HostsFile) (domain : Str) :
      Reachable isIP hf → Reachable isIP (RemoveDomain hf domain).1
  | merged (hf : HostsFile) :
      Reachable isIP hf → Reachable isIP (MergeByIP hf).1

/-- What holds of every entry record of a reachable collection: it is not
blank, its IP passes the address predicate, it lists a domain when its IP
field is non-empty, and its domains carry no white space at their ends. -/
def EntryOK (isIP : Str → Bool) (r : HostLine) : Prop :=
  r.IsEntry = true →
    r.IsBlank = false ∧ isIP r.IP = true ∧ (r.IP ≠ [] → r.Domains ≠ []) ∧
    ∀ d ∈ r.Domains, TrimSpace d = d

/-- The last position of a record satisfying `p`, if there is one. -/
def lastPos (p : HostLine → Bool) : List HostLine → Option Nat
  | [] => none
  | l :: ls =>
    match lastPos p ls with
    | some k => some (k + 1)
    | none => if p l then some 0 else none

/-- The body of the loop of `rebuildIndex`, for the record `il.2` at the
position `il.1`. -/
def indexStep (acc : (Str → Option Nat) × (Str → Option Nat)) (il : Nat × HostLine) :
    (Str → Option Nat) × (Str → Option Nat) :=
  if il.2.IsEntry then
    (mapSet acc.1 il.2.IP il.1,
     il.2.Domains.foldl (fun m d => mapSet m (TrimSpace d) il.1) acc.2)
  else acc

/-- The lookup maps agree with the record sequence: an address, or a domain,
maps to the last position of an entry record that has it. -/
def Indexed (hf : HostsFile) : Prop :=
  (∀ ip : Str, hf.ByIP ip = lastPos (hasIP ip) hf.Lines) ∧
  (∀ d : Str, hf.ByDomain d = lastPos (listsDomain d) hf.Lines)

/-! ## Domain exclusivity -/

/-- Two records do not list a common domain string as entries. -/
def shareNoDomain (a b : HostLine) : Prop :=
  a.IsEntry = true → b.IsEntry = true → ∀ d ∈ a.Domains, d ∉ b.Domains

/-- No domain string appears in the domains of two distinct entry records of
the sequence. -/
def Exclusive (L : List HostLine) : Prop := L.Pairwise shareNoDomain

/-! ## Records the serializer writes so that they parse back -/

/-- A string that parses as one field: non-empty, without white space and
without `#`. -/
def fieldLike (s : Str) : Prop :=
  s ≠ [] ∧ (∀ c ∈ s, isSpace c = false) ∧ '#' ∉ s

/-- A record whose serialized line parses back to its content: a record that
is no entry as the parser made it of a line, or an entry whose IP and domains
are field-like and whose comment is trimmed and on one line. -/
def Printable (isIP : Str → Bool) (r : HostLine) : Prop :=
  (r.IsEntry = false → ∃ raw : Str, '\n' ∉ raw ∧ r = parseLine isIP raw) ∧
  (r.IsEntry = true →
    r.IsBlank = false ∧ fieldLike r.IP ∧ isIP r.IP = true ∧ r.Domains ≠ [] ∧
    (∀ d ∈ r.Domains, fieldLike d) ∧ Trimmed r.Comment ∧ '\n' ∉ r.Comment)



/-! ## Lemmas on the string helpers -/

theorem splitAux_length (sep : Char) (s : Str) :
    ∀ cur, (splitAux sep cur s).length = s.count sep + 1 := by
  induction s with
  | nil => intro cur; simp [splitAux]
  | cons c cs ih =>
    intro cur
    by_cases h : c = sep
    · subst h; simp [splitAux, ih]
    · have h' : (c == sep) = false := by simpa using h
      simp [splitAux, h, ih, List.count_cons, h']

theorem Split_length (s : Str) (sep : Char) :
    (Split s sep).length = s.count sep + 1 :=
  splitAux_length sep s []

/-! ## Lemmas on the parser -/

theorem parseLine_Raw (isIP : Str → Bool) (raw : Str) :
    (parseLine isIP raw).Raw = raw := by
  unfold parseLine rawEntry
  simp only []
  split_ifs <;> rfl

theorem loadStep_Lines (isIP : Str → Bool) (hf : HostsFile) (raw : Str) :
    (loadStep isIP hf raw).Lines = hf.Lines ++ [parseLine isIP raw] := by
  unfold loadStep
  simp only []
  split_ifs <;> rfl

theorem foldl_loadStep_Lines (isIP : Str → Bool) (ls : List Str) :
    ∀ hf : HostsFile,
      (ls.foldl (loadStep isIP) hf).Lines = hf.Lines ++ ls.map (parseLine isIP) := by
  induction ls with
  | nil => intro hf; simp
  | cons l ls ih => intro hf; simp [ih, loadStep_Lines]

theorem load_Lines (isIP : Str → Bool) (t : Str) :
    (load isIP t).Lines = (Split t '\n').map (parseLine isIP) := by
  simp [load, LoadStringToHostsFile, foldl_loadStep_Lines]

/-! ## Lemmas on `TrimSpace` -/

theorem TrimSpace_eq (s : Str) :
    TrimSpace s = (s.dropWhile isSpace).rdropWhile isSpace := rfl

theorem TrimSpace_spaces_append (w s : Str) (hw : ∀ c ∈ w, isSpace c = true) :
    TrimSpace (w ++ s) = TrimSpace s := by
  rw [TrimSpace_eq, TrimSpace_eq, List.dropWhile_append_of_pos hw]

theorem TrimSpace_concat_space (s : Str) (c : Char) (hc : isSpace c = true) :
    TrimSpace (s ++ [c]) = TrimSpace s := by
  rw [TrimSpace_eq, TrimSpace_eq, List.dropWhile_append]
  split_ifs with h
  · have h' : s.dropWhile isSpace = [] := by simpa using h
    simp [h', hc]
  · rw [List.rdropWhile_concat_pos _ _ _ hc]

theorem TrimSpace_append_spaces (s w : Str) (hw : ∀ c ∈ w, isSpace c = true) :
    TrimSpace (s ++ w) = TrimSpace s := by
  induction w using List.reverseRecOn with
  | nil => simp
  | append_singleton w c ih =>
    rw [← List.append_assoc, TrimSpace_concat_space _ _ (hw c (by simp))]
    exact ih (fun x hx => hw x (by simp [hx]))

theorem TrimSpace_all_spaces (w : Str) (hw : ∀ c ∈ w, isSpace c = true) :
    TrimSpace w = [] := by
  have := TrimSpace_spaces_append w [] hw
  simpa using this

theorem TrimSpace_of_Trimmed (s : Str) (h : Trimmed s) : TrimSpace s = s := by
  obtain ⟨h1, h2⟩ := h
  rw [TrimSpace_eq]
  have e1 : s.dropWhile isSpace = s := by
    cases s with
    | nil => rfl
    | cons a t =>
      have := h1 a rfl
      simp [List.dropWhile_cons, this]
  rw [e1, List.rdropWhile_eq_self_iff]
  intro hl
  have := h2 _ (List.getLast?_eq_getLast s hl)
  simp [this]

theorem Trimmed_TrimSpace (s : Str) : Trimmed (TrimSpace s) := by
  constructor
  · intro c hc
    rw [TrimSpace_eq] at hc
    have hp : (s.dropWhile isSpace).rdropWhile isSpace <+: s.dropWhile isSpace :=
      List.rdropWhile_prefix _ _
    obtain ⟨t, ht⟩ := hp
    cases hr : (s.dropWhile isSpace).rdropWhile isSpace with
    | nil => rw [hr] at hc; simp at hc
    | cons a r =>
      rw [hr] at hc ht
      have hca : a = c := by simpa using hc
      subst hca
      have hd : (s.dropWhile isSpace).head? = some a := by rw [← ht]; rfl
      have := List.head?_dropWhile_not isSpace s
      rw [hd] at this
      simpa using this
  · intro c hc
    rw [TrimSpace_eq] at hc
    by_cases hl : (s.dropWhile isSpace).rdropWhile isSpace = []
    · rw [hl] at hc; simp at hc
    · rw [List.getLast?_eq_getLast _ hl] at hc
      have := List.rdropWhile_last_not isSpace (s.dropWhile isSpace) hl
      have hc' : ((s.dropWhile isSpace).rdropWhile isSpace).getLast hl = c := by
        simpa using hc
      rw [hc'] at this
      simpa using this

theorem TrimSpace_idem (s : Str) : TrimSpace (TrimSpace s) = TrimSpace s :=
  TrimSpace_of_Trimmed _ (Trimmed_TrimSpace s)

theorem TrimSpace_decomp (s : Str) :
    ∃ w1 w2 : Str, (∀ c ∈ w1, isSpace c = true) ∧ (∀ c ∈ w2, isSpace c = true) ∧
      s = w1 ++ TrimSpace s ++ w2 := by
  refine ⟨s.takeWhile isSpace, (s.dropWhile isSpace).rtakeWhile isSpace, ?_, ?_, ?_⟩
  · intro c hc; exact List.mem_takeWhile_imp hc
  · intro c hc
    rw [List.rtakeWhile, List.mem_reverse] at hc
    exact List.mem_takeWhile_imp hc
  · have e : (s.dropWhile isSpace).rdropWhile isSpace ++ (s.dropWhile isSpace).rtakeWhile isSpace
        = s.dropWhile isSpace := by
      rw [List.rdropWhile, List.rtakeWhile, ← List.reverse_append,
        List.takeWhile_append_dropWhile, List.reverse_reverse]
    rw [TrimSpace_eq, List.append_assoc, e, List.takeWhile_append_dropWhile]

theorem TrimSpace_subset (s : Str) : ∀ c ∈ TrimSpace s, c ∈ s := by
  obtain ⟨w1, w2, _, _, h⟩ := TrimSpace_decomp s
  intro c hc
  rw [h]; simp [hc]

theorem TrimSpace_eq_nil_iff (s : Str) : TrimSpace s = [] ↔ ∀ c ∈ s, isSpace c = true := by
  constructor
  · intro h
    obtain ⟨w1, w2, h1, h2, e⟩ := TrimSpace_decomp s
    rw [h] at e
    intro c hc
    rw [e] at hc
    simp at hc
    rcases hc with hc | hc
    · exact h1 c hc
    · exact h2 c hc
  · exact TrimSpace_all_spaces s

/-! ## Lemmas on `parseLine` -/

theorem hash_not_space : isSpace '#' = false := by decide

theorem not_mem_of_spaces (w : Str) (hw : ∀ c ∈ w, isSpace c = true) : '#' ∉ w := by
  intro h
  have := hw _ h
  rw [hash_not_space] at this
  exact Bool.noConfusion this

theorem split_at_hash (s : Str) (h : '#' ∈ s) :
    ∃ a b : Str, s = a ++ '#' :: b ∧ '#' ∉ a := by
  induction s with
  | nil => simp at h
  | cons x xs ih =>
    by_cases hx : x = '#'
    · exact ⟨[], xs, by simp [hx], by simp⟩
    · have hxs : '#' ∈ xs := by
        rcases List.mem_cons.mp h with h | h
        · exact absurd h.symm hx
        · exact h
      obtain ⟨a, b, e, ha⟩ := ih hxs
      refine ⟨x :: a, b, by simp [e], ?_⟩
      intro hm
      rcases List.mem_cons.mp hm with hm | hm
      · exact hx hm.symm
      · exact ha hm

theorem Index_of_not_mem (s : Str) (h : '#' ∉ s) : Index s '#' = -1 := by
  simp [Index, h]

theorem Index_of_split (a b : Str) (ha : '#' ∉ a) :
    Index (a ++ '#' :: b) '#' = (a.length : Int) := by
  have hm : '#' ∈ a ++ '#' :: b := by simp
  simp [Index, List.indexOf_append_of_not_mem ha]

theorem takeWhile_hash_split (a b : Str) (ha : '#' ∉ a) :
    (a ++ '#' :: b).takeWhile (fun c => c != '#') = a := by
  have h : ∀ c ∈ a, (fun c => c != '#') c = true := by
    intro c hc
    have : c ≠ '#' := fun e => ha (e ▸ hc)
    simpa using this
  rw [List.takeWhile_append_of_pos h]
  simp

theorem dropWhile_hash_split (a b : Str) (ha : '#' ∉ a) :
    (a ++ '#' :: b).dropWhile (fun c => c != '#') = '#' :: b := by
  have h : ∀ c ∈ a, (fun c => c != '#') c = true := by
    intro c hc
    have : c ≠ '#' := fun e => ha (e ▸ hc)
    simpa using this
  rw [List.dropWhile_append_of_pos h]
  simp

theorem takeWhile_hash_of_not_mem (s : Str) (h : '#' ∉ s) :
    s.takeWhile (fun c => c != '#') = s := by
  rw [List.takeWhile_eq_self_iff]
  intro c hc
  have : c ≠ '#' := fun e => h (e ▸ hc)
  simpa using this

theorem dropWhile_hash_of_not_mem (s : Str) (h : '#' ∉ s) :
    s.dropWhile (fun c => c != '#') = [] := by
  rw [List.dropWhile_eq_nil_iff]
  intro c hc
  have : c ≠ '#' := fun e => h (e ▸ hc)
  simpa using this

theorem parseLine_of_blank (isIP : Str → Bool) (raw : Str) (h : TrimSpace raw = []) :
    parseLine isIP raw = { rawEntry raw with IsBlank := true } := by
  simp [parseLine, h]

theorem parseLine_of_comment (isIP : Str → Bool) (raw : Str)
    (h : HasPrefix (TrimSpace raw) '#' = true) :
    parseLine isIP raw =
      { rawEntry raw with Comment := TrimSpace (TrimPrefix (TrimSpace raw) '#') } := by
  have hne : TrimSpace raw ≠ [] := by
    intro e; rw [e] at h; simp [HasPrefix] at h
  simp [parseLine, h, hne]

theorem parseLine_of_fields (isIP : Str → Bool) (raw : Str)
    (hne : TrimSpace raw ≠ []) (hc : HasPrefix (TrimSpace raw) '#' = false) :
    parseLine isIP raw = fieldsRecord isIP raw (textBeforeHash raw) (textAfterHash raw) := by
  obtain ⟨w1, w2, hw1, hw2, e⟩ := TrimSpace_decomp raw
  have h1 := not_mem_of_spaces w1 hw1
  have h2 := not_mem_of_spaces w2 hw2
  by_cases hm : '#' ∈ TrimSpace raw
  · obtain ⟨a, b, hs, ha⟩ := split_at_hash _ hm
    have hraw : raw = (w1 ++ a) ++ '#' :: (b ++ w2) := by
      rw [e, hs]; simp
    have hwa : '#' ∉ w1 ++ a := by simp [h1, ha]
    have hp : textBeforeHash raw = TrimSpace a := by
      unfold textBeforeHash
      rw [hraw, takeWhile_hash_split _ _ hwa, TrimSpace_spaces_append _ _ hw1]
    have hcm : textAfterHash raw = TrimSpace b := by
      unfold textAfterHash
      rw [hraw, dropWhile_hash_split _ _ hwa]
      simp only [List.drop_succ_cons, List.drop_zero]
      rw [TrimSpace_append_spaces _ _ hw2]
    have hidx : Index (TrimSpace raw) '#' = (a.length : Int) := by
      rw [hs]; exact Index_of_split a b ha
    have hidx' : Index (TrimSpace raw) '#' ≠ -1 := by rw [hidx]; omega
    have htake : (TrimSpace raw).take a.length = a := by rw [hs]; simp
    have hdrop : (TrimSpace raw).drop (a.length + 1) = b := by
      rw [hs]; simp
    rw [hp, hcm]
    unfold parseLine fieldsRecord rawEntry
    simp only [hne, hc, hidx, if_false, Bool.false_eq_true, Int.toNat_ofNat, htake, hdrop]
    have hx : ((a.length : Int) ≠ -1) := by omega
    simp only [hx, ne_eq, not_false_eq_true, if_true]
    by_cases hl : (Fields (TrimSpace a)).length < 2
    · have hl' : ¬ 2 ≤ (Fields (TrimSpace a)).length := by omega
      simp [hl, hl']
    · have hl' : 2 ≤ (Fields (TrimSpace a)).length := by omega
      cases hi : isIP ((Fields (TrimSpace a)).headD []) <;> simp [hl, hl', hi]
  · have hraw : '#' ∉ raw := by
      rw [e]; simp [h1, h2, hm]
    have hp : textBeforeHash raw = TrimSpace raw := by
      unfold textBeforeHash
      rw [takeWhile_hash_of_not_mem _ hraw]
    have hcm : textAfterHash raw = [] := by
      unfold textAfterHash
      rw [dropWhile_hash_of_not_mem _ hraw]; rfl
    have hidx := Index_of_not_mem _ hm
    rw [hp, hcm]
    unfold parseLine fieldsRecord rawEntry
    simp only [hne, hc, hidx, if_false, Bool.false_eq_true, ne_eq, not_true_eq_false]
    by_cases hl : (Fields (TrimSpace raw)).length < 2
    · have hl' : ¬ 2 ≤ (Fields (TrimSpace raw)).length := by omega
      simp [hl, hl']
    · have hl' : 2 ≤ (Fields (TrimSpace raw)).length := by omega
      cases hi : isIP ((Fields (TrimSpace raw)).headD []) <;> simp [hl, hl', hi]

theorem head_TrimSpace (raw : Str) :
    (TrimSpace raw).head? = (raw.dropWhile isSpace).head? := by
  obtain ⟨w1, w2, hw1, hw2, e⟩ := TrimSpace_decomp raw
  have ht := (Trimmed_TrimSpace raw).1
  generalize TrimSpace raw = T at e ht
  subst e
  rw [List.append_assoc, List.dropWhile_append_of_pos hw1]
  cases T with
  | nil =>
    have : w2.dropWhile isSpace = [] := List.dropWhile_eq_nil_iff.mpr hw2
    simp [this]
  | cons a t =>
    have := ht a rfl
    simp [List.dropWhile_cons, this]

theorem HasPrefix_eq_false_iff (s : Str) (c : Char) :
    HasPrefix s c = false ↔ s.head? ≠ some c := by
  cases s with
  | nil => simp [HasPrefix]
  | cons x xs => simp [HasPrefix]

/-! ## Lemmas on the serializer -/

theorem foldl_lineString (lines : List HostLine) :
    ∀ acc : Str, lines.foldl (fun sb line => sb ++ lineString line) acc
      = acc ++ (lines.map lineString).flatten := by
  induction lines with
  | nil => intro acc; simp
  | cons l ls ih => intro acc; simp [ih, List.append_assoc]

theorem ToHostsFileString_eq (hf : HostsFile) :
    ToHostsFileString hf = (hf.Lines.map lineString).flatten := by
  simp [ToHostsFileString, foldl_lineString]

theorem lineString_of_unparsed (r : HostLine) (hb : r.IsBlank = false)
    (he : r.IsEntry = false) (hc : r.Comment = []) (hr : r.Raw ≠ []) :
    lineString r = r.Raw ++ ['\n'] := by
  have : TrimSpace ([] : Str) = [] := rfl
  simp [lineString, hb, he, hc, hr, this]

theorem lineString_of_commented (r : HostLine) (hb : r.IsBlank = false)
    (he : r.IsEntry = false) (hc : TrimSpace r.Comment ≠ []) :
    lineString r = "# ".toList ++ TrimSpace r.Comment ++ ['\n'] := by
  simp [lineString, hb, he, hc]

/-! ## Lemmas on the searches of `AddDomain` -/

theorem findLine_eq_some_iff (p : HostLine → Bool) (lines : List HostLine) :
    ∀ (i : Nat) (l : HostLine), findLine p lines = some (i, l) ↔
      lines[i]? = some l ∧ p l = true ∧
        ∀ j, j < i → ∀ r, lines[j]? = some r → p r = false := by
  induction lines with
  | nil => intro i l; simp [findLine]
  | cons x xs ih =>
    intro i l
    by_cases hx : p x = true
    · simp only [findLine, hx, if_true, Option.some.injEq, Prod.mk.injEq]
      constructor
      · rintro ⟨rfl, rfl⟩
        exact ⟨by simp, hx, fun j hj => absurd hj (Nat.not_lt_zero j)⟩
      · rintro ⟨h1, _, h3⟩
        cases i with
        | zero => simp at h1; exact ⟨rfl, h1⟩
        | succ k =>
          have := h3 0 (Nat.succ_pos k) x (by simp)
          rw [hx] at this; exact Bool.noConfusion this
    · have hx' : p x = false := by simpa using hx
      simp only [findLine, hx', Bool.false_eq_true, if_false, Option.map_eq_some',
        Prod.mk.injEq, Prod.exists]
      constructor
      · rintro ⟨k, r, hk, rfl, rfl⟩
        obtain ⟨h1, h2, h3⟩ := (ih k r).mp hk
        refine ⟨by simpa using h1, h2, ?_⟩
        intro j hj r' hr'
        cases j with
        | zero => simp at hr'; rw [← hr']; exact hx'
        | succ m => exact h3 m (by omega) r' (by simpa using hr')
      · rintro ⟨h1, h2, h3⟩
        cases i with
        | zero =>
          simp at h1; rw [h1] at hx'; rw [hx'] at h2; exact Bool.noConfusion h2
        | succ k =>
          refine ⟨k, l, (ih k l).mpr ⟨by simpa using h1, h2, ?_⟩, rfl, rfl⟩
          intro j hj r' hr'
          exact h3 (j + 1) (by omega) r' (by simpa using hr')

theorem findLine_eq_none_iff (p : HostLine → Bool) (lines : List HostLine) :
    findLine p lines = none ↔ ∀ r ∈ lines, p r = false := by
  induction lines with
  | nil => simp [findLine]
  | cons x xs ih =>
    by_cases hx : p x = true
    · simp [findLine, hx]
    · have hx' : p x = false := by simpa using hx
      simp [findLine, hx', ih]

theorem rebuildIndex_Lines (hf : HostsFile) : (rebuildIndex hf).Lines = hf.Lines := rfl

theorem attachDomain_of_found (hf : HostsFile) (ip domain comment : Str) (i : Nat)
    (l : HostLine) (h : findLine (fun l => l.IsEntry && l.IP == ip) hf.Lines = some (i, l)) :
    (attachDomain hf ip domain comment).Lines =
      hf.Lines.set i { l with Domains := l.Domains ++ [domain],
                              Comment := if comment ≠ [] ∧ l.Comment ≠ comment then comment
                                         else l.Comment } := by
  unfold attachDomain
  rw [h]
  simp only [rebuildIndex_Lines]
  split_ifs <;> rfl

theorem attachDomain_of_not_found (hf : HostsFile) (ip domain comment : Str)
    (h : findLine (fun l => l.IsEntry && l.IP == ip) hf.Lines = none) :
    (attachDomain hf ip domain comment).Lines =
      hf.Lines ++ [{ Raw := ip ++ " ".toList ++ domain, IsEntry := true, IP := ip,
                     Domains := [domain], Comment := comment, IsBlank := false }] := by
  unfold attachDomain
  rw [h]
  rfl

/-! ## Lemmas on `RemoveDomain` -/

theorem keepOthers_foldl (domain : Str) (ds : List Str) :
    ∀ (acc : List Str) (changed : Bool),
      ds.foldl
        (fun (acc : List Str × Bool) d =>
          if TrimSpace d ≠ domain then (acc.1 ++ [d], acc.2) else (acc.1, true))
        (acc, changed)
      = (acc ++ ds.filter (fun d => TrimSpace d != domain),
         changed || ds.any (fun d => TrimSpace d == domain)) := by
  induction ds with
  | nil => intro acc changed; simp
  | cons d ds ih =>
    intro acc changed
    simp only [List.foldl_cons]
    by_cases h : TrimSpace d = domain
    · rw [if_neg (by simpa using h), ih]
      simp [h]
    · have hb : (TrimSpace d == domain) = false := by
        rw [beq_eq_false_iff_ne]; exact h
      have hn : (TrimSpace d != domain) = true := by simp [bne, hb]
      rw [if_pos h, ih]
      simp [hb, List.filter_cons, hn]

theorem keepOthers_eq (domain : Str) (ds : List Str) (changed : Bool) :
    keepOthers domain ds changed
      = (ds.filter (fun d => TrimSpace d != domain),
         changed || ds.any (fun d => TrimSpace d == domain)) := by
  unfold keepOthers
  rw [keepOthers_foldl]
  simp

/-- The loop of `RemoveDomain`, started at position `pre.length` with enough
iterations allowed, leaves the records before that position alone and
filters the others. -/
theorem removeLoop_eq (domain : Str) :
    ∀ (fuel : Nat) (pre suf : List HostLine) (changed : Bool), suf.length ≤ fuel →
      removeLoop domain fuel pre.length (pre ++ suf) changed
        = (pre ++ suf.filterMap (dropDomain domain),
           changed || suf.any (listsDomain domain)) := by
  intro fuel
  induction fuel with
  | zero =>
    intro pre suf changed h
    have : suf = [] := List.length_eq_zero.mp (Nat.le_zero.mp h)
    subst this
    simp [removeLoop]
  | succ n ih =>
    intro pre suf changed h
    cases suf with
    | nil => simp [removeLoop]
    | cons l t =>
      have hlen : t.length ≤ n := by simpa using h
      have hget : (pre ++ l :: t)[pre.length]? = some l := by
        rw [List.getElem?_append_right (Nat.le_refl _)]; simp
      have hset : ∀ x : HostLine, (pre ++ l :: t).set pre.length x = pre ++ x :: t := by
        intro x; simp
      unfold removeLoop
      simp only [hget]
      by_cases he : l.IsEntry = true
      · rw [if_neg (by simp [he])]
        simp only [keepOthers_eq, hset]
        by_cases hdel : (l.Domains.filter (fun d => TrimSpace d != domain)).length = 0
            ∧ l.IP ≠ []
        · have hcond : ((l.Domains.filter (fun d => TrimSpace d != domain)).length == 0
              && decide (l.IP ≠ [])) = true := by simp [hdel.1, hdel.2]
          have htd : List.take pre.length (pre ++ { l with
                Domains := l.Domains.filter (fun d => TrimSpace d != domain) } :: t)
              ++ List.drop (pre.length + 1) (pre ++ { l with
                Domains := l.Domains.filter (fun d => TrimSpace d != domain) } :: t)
              = pre ++ t := by simp
          rw [if_pos hcond, htd, ih pre t _ hlen]
          have hnil : l.Domains.filter (fun d => TrimSpace d != domain) = [] :=
            List.length_eq_zero.mp hdel.1
          simp [dropDomain, he, hnil, hdel.2, listsDomain, Bool.or_assoc]
        · have hcond : ((l.Domains.filter (fun d => TrimSpace d != domain)).length == 0
              && decide (l.IP ≠ [])) = false := by
            by_cases h0 : (l.Domains.filter (fun d => TrimSpace d != domain)).length = 0
            · have : ¬ l.IP ≠ [] := fun hh => hdel ⟨h0, hh⟩
              simp [this]
            · simp [h0]
          have hpre : pre ++ { l with
                Domains := l.Domains.filter (fun d => TrimSpace d != domain) } :: t
              = (pre ++ [{ l with
                Domains := l.Domains.filter (fun d => TrimSpace d != domain) }]) ++ t := by
            simp
          have hl1 : pre.length + 1 = (pre ++ [{ l with
              Domains := l.Domains.filter (fun d => TrimSpace d != domain) }]).length := by
            simp
          rw [hcond]
          simp only [Bool.false_eq_true, if_false]
          rw [hpre, hl1, ih _ t _ hlen]
          have hdd : dropDomain domain l = some { l with
              Domains := l.Domains.filter (fun d => TrimSpace d != domain) } := by
            unfold dropDomain
            rw [if_pos he, if_neg]
            intro hh
            exact hdel ⟨by rw [hh.1]; rfl, hh.2⟩
          simp [hdd, listsDomain, he, Bool.or_assoc]
      · have he' : l.IsEntry = false := by simpa using he
        have hpre : pre ++ l :: t = (pre ++ [l]) ++ t := by simp
        have hl1 : pre.length + 1 = (pre ++ [l]).length := by simp
        rw [if_pos (by simp [he']), hpre, hl1, ih _ t _ hlen]
        simp [dropDomain, he', listsDomain]

theorem RemoveDomain_Lines (hf : HostsFile) (domain : Str) :
    (RemoveDomain hf domain).1.Lines
      = hf.Lines.filterMap (dropDomain (TrimSpace domain)) := by
  have h := removeLoop_eq (TrimSpace domain) (hf.Lines.length + 1) [] hf.Lines false
    (Nat.le_succ _)
  simp only [List.length_nil, List.nil_append] at h
  unfold RemoveDomain
  simp only [h]
  split_ifs <;> rfl

theorem RemoveDomain_changed (hf : HostsFile) (domain : Str) :
    (RemoveDomain hf domain).2 = hf.Lines.any (listsDomain (TrimSpace domain)) := by
  have h := removeLoop_eq (TrimSpace domain) (hf.Lines.length + 1) [] hf.Lines false
    (Nat.le_succ _)
  simp only [List.length_nil, List.nil_append] at h
  unfold RemoveDomain
  simp only [h, Bool.false_or]
  split_ifs with hc
  · simp [hc]
  · simpa using hc

theorem dropDomain_not_lists (domain : Str) (r r' : HostLine)
    (h : dropDomain domain r = some r') : listsDomain domain r' = false := by
  unfold dropDomain at h
  by_cases he : r.IsEntry = true
  · rw [if_pos he] at h
    split_ifs at h with h1
    have : r' = { r with Domains := r.Domains.filter (fun d => TrimSpace d != domain) } := by
      simpa using h.symm
    subst this
    simp only [listsDomain, he, Bool.true_and]
    rw [Bool.eq_false_iff]
    intro hany
    rw [List.any_eq_true] at hany
    obtain ⟨d, hd, hd2⟩ := hany
    rw [List.mem_filter] at hd
    have h3 : TrimSpace d = domain := by simpa using hd2
    have h4 := hd.2
    simp [h3] at h4
  · rw [if_neg he] at h
    have : r' = r := by simpa using h.symm
    subst this
    have he' : r'.IsEntry = false := by simpa using he
    simp [listsDomain, he']

theorem filterMap_dropDomain_not_lists (domain : Str) (lines : List HostLine) :
    ∀ r ∈ lines.filterMap (dropDomain domain), listsDomain domain r = false := by
  intro r hr
  rw [List.mem_filterMap] at hr
  obtain ⟨r0, _, h⟩ := hr
  exact dropDomain_not_lists domain r0 r h

/-! ## Lemmas on cases 4 and 5 of `AddDomain` -/

theorem attachDomain_congr (hf1 hf2 : HostsFile) (ip domain comment : Str)
    (h : hf1.Lines = hf2.Lines) :
    (attachDomain hf1 ip domain comment).Lines = (attachDomain hf2 ip domain comment).Lines := by
  unfold attachDomain
  rw [h]
  cases findLine (fun l => l.IsEntry && l.IP == ip) hf2.Lines with
  | none => simp only [rebuildIndex_Lines, h]
  | some r =>
    obtain ⟨i, l⟩ := r
    simp only [rebuildIndex_Lines, h]

theorem listsDomain_append_self (domain : Str) (l : HostLine) (comment : Str)
    (he : l.IsEntry = true) (ht : TrimSpace domain = domain) :
    listsDomain domain { l with Domains := l.Domains ++ [domain], Comment := comment } = true := by
  simp [listsDomain, he, ht]

theorem attachDomain_exists (hf : HostsFile) (ip domain comment : Str)
    (ht : TrimSpace domain = domain) :
    ∃ r ∈ (attachDomain hf ip domain comment).Lines,
      listsDomain domain r = true ∧ r.IP = ip := by
  cases hfl : findLine (fun l => l.IsEntry && l.IP == ip) hf.Lines with
  | none =>
    rw [attachDomain_of_not_found hf ip domain comment hfl]
    refine ⟨{ Raw := ip ++ " ".toList ++ domain, IsEntry := true, IP := ip,
              Domains := [domain], Comment := comment, IsBlank := false }, ?_, ?_, rfl⟩
    · simp
    · simp [listsDomain, ht]
  | some r =>
    obtain ⟨i, l⟩ := r
    rw [attachDomain_of_found hf ip domain comment i l hfl]
    obtain ⟨hat, hp, _⟩ := (findLine_eq_some_iff _ _ i l).mp hfl
    have hp' : l.IsEntry = true ∧ l.IP = ip := by simpa using hp
    have hi : i < hf.Lines.length := by
      by_contra hge
      rw [List.getElem?_eq_none (by omega)] at hat
      cases hat
    refine ⟨{ l with Domains := l.Domains ++ [domain],
                     Comment := if comment ≠ [] ∧ l.Comment ≠ comment then comment
                                else l.Comment },
      List.mem_iff_getElem?.mpr ⟨i, ?_⟩,
      listsDomain_append_self domain l _ hp'.1 ht, hp'.2⟩
    rw [List.getElem?_set_self hi]

theorem attachDomain_lists_only (hf : HostsFile) (ip domain comment : Str)
    (hno : ∀ r ∈ hf.Lines, listsDomain domain r = false) :
    ∀ r ∈ (attachDomain hf ip domain comment).Lines,
      listsDomain domain r = true → r.IP = ip := by
  intro r hr hl
  cases hfl : findLine (fun l => l.IsEntry && l.IP == ip) hf.Lines with
  | none =>
    rw [attachDomain_of_not_found hf ip domain comment hfl] at hr
    rcases List.mem_append.mp hr with h | h
    · rw [hno r h] at hl; exact Bool.noConfusion hl
    · have : r = _ := List.mem_singleton.mp h
      rw [this]
  | some x =>
    obtain ⟨i, l⟩ := x
    rw [attachDomain_of_found hf ip domain comment i l hfl] at hr
    obtain ⟨_, hp, _⟩ := (findLine_eq_some_iff _ _ i l).mp hfl
    have hp' : l.IsEntry = true ∧ l.IP = ip := by simpa using hp
    rcases List.mem_or_eq_of_mem_set hr with h | h
    · rw [hno r h] at hl; exact Bool.noConfusion hl
    · rw [h]; exact hp'.2

theorem RemoveDomain_trimmed_Lines (hf : HostsFile) (domain : Str) :
    (RemoveDomain hf (TrimSpace domain)).1.Lines = (RemoveDomain hf domain).1.Lines := by
  rw [RemoveDomain_Lines, RemoveDomain_Lines, TrimSpace_idem]

theorem AddDomain_of_other_IP (isIP : Str → Bool) (hf : HostsFile) (ip domain comment : Str)
    (i : Nat) (l : HostLine) (hd : TrimSpace domain ≠ []) (hip : isIP ip = true)
    (hfl : findLine (listsDomain (TrimSpace domain)) hf.Lines = some (i, l))
    (hdiff : l.IP ≠ ip) :
    AddDomain isIP hf ip domain comment
      = (attachDomain (RemoveDomain hf (TrimSpace domain)).1 ip (TrimSpace domain) comment,
         true, none) := by
  unfold AddDomain
  simp [hd, hip, hfl, hdiff]

theorem AddDomain_of_absent (isIP : Str → Bool) (hf : HostsFile) (ip domain comment : Str)
    (hd : TrimSpace domain ≠ []) (hip : isIP ip = true)
    (hfl : findLine (listsDomain (TrimSpace domain)) hf.Lines = none) :
    AddDomain isIP hf ip domain comment
      = (attachDomain hf ip (TrimSpace domain) comment, true, none) := by
  unfold AddDomain
  simp [hd, hip, hfl]

theorem AddDomain_of_same_IP (isIP : Str → Bool) (hf : HostsFile) (ip domain comment : Str)
    (i : Nat) (l : HostLine) (hd : TrimSpace domain ≠ []) (hip : isIP ip = true)
    (hfl : findLine (listsDomain (TrimSpace domain)) hf.Lines = some (i, l))
    (hsame : l.IP = ip) :
    AddDomain isIP hf ip domain comment
      = if comment ≠ [] ∧ l.Comment ≠ comment then
          (rebuildIndex { hf with Lines := hf.Lines.set i { l with Comment := comment } },
           true, none)
        else (hf, false, none) := by
  unfold AddDomain
  simp only [hd, hip, hfl, hsame, if_false, Bool.not_true, Bool.false_eq_true, if_true]

theorem AddDomain_ok_inputs (isIP : Str → Bool) (hf : HostsFile) (ip domain comment : Str)
    (hok : (AddDomain isIP hf ip domain comment).2.2 = none) :
    TrimSpace domain ≠ [] ∧ isIP ip = true := by
  unfold AddDomain at hok
  by_cases hd : TrimSpace domain = []
  · simp [hd] at hok
  · by_cases hip : isIP ip = true
    · exact ⟨hd, hip⟩
    · have hip' : isIP ip = false := by simpa using hip
      simp [hd, hip'] at hok

/-! ## Lemmas on `Fields`, `Join` and `Split` -/

theorem fieldsAux_cons_space (cur : Str) (c : Char) (cs : Str) (h : isSpace c = true) :
    fieldsAux cur (c :: cs)
      = if cur = [] then fieldsAux [] cs else cur :: fieldsAux [] cs := by
  rw [fieldsAux, if_pos h]

theorem fieldsAux_cons_char (cur : Str) (c : Char) (cs : Str) (h : isSpace c = false) :
    fieldsAux cur (c :: cs) = fieldsAux (cur ++ [c]) cs := by
  rw [fieldsAux, if_neg (by simp [h])]

theorem splitAux_cons_sep (sep : Char) (cur cs : Str) :
    splitAux sep cur (sep :: cs) = cur :: splitAux sep [] cs := by
  rw [splitAux, if_pos rfl]

theorem splitAux_cons_char (sep : Char) (cur : Str) (c : Char) (cs : Str) (h : c ≠ sep) :
    splitAux sep cur (c :: cs) = splitAux sep (cur ++ [c]) cs := by
  rw [splitAux, if_neg h]

/-- A field: a non-empty string without white space. -/
theorem fieldsAux_mem (s : Str) :
    ∀ cur : Str, (∀ c ∈ cur, isSpace c = false) →
      ∀ f ∈ fieldsAux cur s, f ≠ [] ∧ ∀ c ∈ f, isSpace c = false ∧ (c ∈ cur ∨ c ∈ s) := by
  induction s with
  | nil =>
    intro cur hcur f hf
    unfold fieldsAux at hf
    split_ifs at hf with h
    · simp at hf
    · have : f = cur := by simpa using hf
      subst this
      exact ⟨h, fun c hc => ⟨hcur c hc, Or.inl hc⟩⟩
  | cons x xs ih =>
    intro cur hcur f hf
    unfold fieldsAux at hf
    by_cases hx : isSpace x = true
    · rw [if_pos hx] at hf
      have hnil : ∀ c ∈ ([] : Str), isSpace c = false := fun c hc => by simp at hc
      split_ifs at hf with h
      · obtain ⟨h1, h2⟩ := ih [] hnil f hf
        refine ⟨h1, fun c hc => ⟨(h2 c hc).1, ?_⟩⟩
        rcases (h2 c hc).2 with h3 | h3
        · simp at h3
        · exact Or.inr (List.mem_cons_of_mem _ h3)
      · rcases List.mem_cons.mp hf with h0 | h0
        · subst h0
          exact ⟨h, fun c hc => ⟨hcur c hc, Or.inl hc⟩⟩
        · obtain ⟨h1, h2⟩ := ih [] hnil f h0
          refine ⟨h1, fun c hc => ⟨(h2 c hc).1, ?_⟩⟩
          rcases (h2 c hc).2 with h3 | h3
          · simp at h3
          · exact Or.inr (List.mem_cons_of_mem _ h3)
    · rw [if_neg hx] at hf
      have hx' : isSpace x = false := by simpa using hx
      have hcur' : ∀ c ∈ cur ++ [x], isSpace c = false := by
        intro c hc
        rcases List.mem_append.mp hc with h | h
        · exact hcur c h
        · have : c = x := by simpa using h
          rw [this]; exact hx'
      obtain ⟨h1, h2⟩ := ih (cur ++ [x]) hcur' f hf
      refine ⟨h1, fun c hc => ⟨(h2 c hc).1, ?_⟩⟩
      rcases (h2 c hc).2 with h3 | h3
      · rcases List.mem_append.mp h3 with h4 | h4
        · exact Or.inl h4
        · have : c = x := by simpa using h4
          rw [this]; exact Or.inr (List.mem_cons_self _ _)
      · exact Or.inr (List.mem_cons_of_mem _ h3)

theorem Fields_mem (s f : Str) (hf : f ∈ Fields s) :
    f ≠ [] ∧ (∀ c ∈ f, isSpace c = false) ∧ ∀ c ∈ f, c ∈ s := by
  obtain ⟨h1, h2⟩ := fieldsAux_mem s [] (fun c hc => by simp at hc) f hf
  refine ⟨h1, fun c hc => (h2 c hc).1, fun c hc => ?_⟩
  rcases (h2 c hc).2 with h | h
  · simp at h
  · exact h

theorem fieldsAux_run (w : Str) (hw : ∀ c ∈ w, isSpace c = false) :
    ∀ cur rest : Str, fieldsAux cur (w ++ rest) = fieldsAux (cur ++ w) rest := by
  induction w with
  | nil => intro cur rest; simp
  | cons x xs ih =>
    intro cur rest
    have hx : isSpace x = false := hw x (List.mem_cons_self _ _)
    have := ih (fun c hc => hw c (List.mem_cons_of_mem _ hc)) (cur ++ [x]) rest
    rw [List.cons_append, fieldsAux_cons_char _ _ _ hx, this]
    simp

theorem Join_cons_cons (x y : Str) (rest : List Str) (sep : Str) :
    Join (x :: y :: rest) sep = x ++ sep ++ Join (y :: rest) sep := by
  simp [Join]

theorem Join_cons_of_ne_nil (x : Str) (fs : List Str) (sep : Str) (h : fs ≠ []) :
    Join (x :: fs) sep = x ++ sep ++ Join fs sep := by
  cases fs with
  | nil => exact absurd rfl h
  | cons y rest => exact Join_cons_cons x y rest sep

theorem Fields_Join (fs : List Str)
    (h : ∀ f ∈ fs, f ≠ [] ∧ ∀ c ∈ f, isSpace c = false) :
    Fields (Join fs [' ']) = fs := by
  induction fs with
  | nil => simp [Join, Fields, fieldsAux]
  | cons x rest ih =>
    have hx := h x (List.mem_cons_self _ _)
    have hrest : ∀ f ∈ rest, f ≠ [] ∧ ∀ c ∈ f, isSpace c = false :=
      fun f hf => h f (List.mem_cons_of_mem _ hf)
    cases rest with
    | nil =>
      have := fieldsAux_run x hx.2 [] []
      simp only [List.append_nil, List.nil_append] at this
      simp [Join, Fields, this, fieldsAux, hx.1]
    | cons y more =>
      have hsp : isSpace ' ' = true := by decide
      have := fieldsAux_run x hx.2 [] ([' '] ++ Join (y :: more) [' '])
      have ih' := ih hrest
      unfold Fields at ih'
      rw [Join_cons_cons, Fields, List.append_assoc, this, List.nil_append,
        List.singleton_append, fieldsAux_cons_space _ _ _ hsp, if_neg hx.1, ih']

theorem mem_Join (fs : List Str) (sep : Str) (c : Char) (hc : c ∈ Join fs sep) :
    c ∈ sep ∨ ∃ f ∈ fs, c ∈ f := by
  induction fs with
  | nil => simp [Join] at hc
  | cons x rest ih =>
    cases rest with
    | nil => exact Or.inr ⟨x, by simp, by simpa [Join] using hc⟩
    | cons y more =>
      rw [Join_cons_cons] at hc
      rcases List.mem_append.mp hc with h | h
      · rcases List.mem_append.mp h with h | h
        · exact Or.inr ⟨x, by simp, h⟩
        · exact Or.inl h
      · rcases ih h with h | ⟨f, hf, hcf⟩
        · exact Or.inl h
        · exact Or.inr ⟨f, List.mem_cons_of_mem _ hf, hcf⟩

theorem Trimmed_of_no_space (f : Str) (h : ∀ c ∈ f, isSpace c = false) : Trimmed f :=
  ⟨fun c hc => h c (List.mem_of_mem_head? hc), fun c hc => h c (List.mem_of_mem_getLast? hc)⟩

theorem Trimmed_Join (fs : List Str)
    (h : ∀ f ∈ fs, f ≠ [] ∧ ∀ c ∈ f, isSpace c = false) :
    Trimmed (Join fs [' ']) ∧ (fs ≠ [] → Join fs [' '] ≠ []) := by
  induction fs with
  | nil => exact ⟨⟨fun c hc => by simp [Join] at hc, fun c hc => by simp [Join] at hc⟩,
      fun h => absurd rfl h⟩
  | cons x rest ih =>
    have hx := h x (List.mem_cons_self _ _)
    have hrest : ∀ f ∈ rest, f ≠ [] ∧ ∀ c ∈ f, isSpace c = false :=
      fun f hf => h f (List.mem_cons_of_mem _ hf)
    cases rest with
    | nil =>
      have : Join [x] [' '] = x := by simp [Join]
      rw [this]
      exact ⟨Trimmed_of_no_space x hx.2, fun _ => hx.1⟩
    | cons y more =>
      obtain ⟨⟨_, ih2⟩, ih3⟩ := ih hrest
      have hne := ih3 (List.cons_ne_nil _ _)
      rw [Join_cons_cons]
      refine ⟨⟨?_, ?_⟩, ?_⟩
      · intro c hc
        cases x with
        | nil => exact absurd rfl hx.1
        | cons a t =>
          have : a = c := by simpa using hc
          rw [← this]; exact hx.2 a (List.mem_cons_self _ _)
      · intro c hc
        rw [List.getLast?_append_of_ne_nil _ hne] at hc
        exact ih2 c hc
      · simp [hx.1]

theorem splitAux_line (sep : Char) (w : Str) (hw : sep ∉ w) :
    ∀ cur rest : Str,
      splitAux sep cur (w ++ sep :: rest) = (cur ++ w) :: splitAux sep [] rest := by
  induction w with
  | nil => intro cur rest; simp [splitAux_cons_sep]
  | cons x xs ih =>
    intro cur rest
    have hx : x ≠ sep := fun e => hw (by simp [e])
    have hxs : sep ∉ xs := fun e => hw (List.mem_cons_of_mem _ e)
    rw [List.cons_append, splitAux_cons_char _ _ _ _ hx, ih hxs]
    simp

theorem Split_lines (sep : Char) (bodies : List Str) (h : ∀ b ∈ bodies, sep ∉ b) :
    Split ((bodies.map fun b => b ++ [sep]).flatten) sep = bodies ++ [[]] := by
  unfold Split
  induction bodies with
  | nil => simp [splitAux]
  | cons b bs ih =>
    have hb := h b (List.mem_cons_self _ _)
    have := splitAux_line sep b hb [] ((bs.map fun b => b ++ [sep]).flatten)
    simp only [List.map_cons, List.flatten_cons, List.append_assoc, List.singleton_append,
      List.nil_append, List.cons_append] at this ⊢
    rw [this, ih (fun b hb => h b (List.mem_cons_of_mem _ hb))]

theorem splitAux_mem (sep : Char) (s : Str) :
    ∀ cur : Str, sep ∉ cur → ∀ x ∈ splitAux sep cur s, sep ∉ x := by
  induction s with
  | nil =>
    intro cur hcur x hx
    have : x = cur := by simpa [splitAux] using hx
    rw [this]; exact hcur
  | cons c cs ih =>
    intro cur hcur x hx
    unfold splitAux at hx
    split_ifs at hx with h
    · rcases List.mem_cons.mp hx with h0 | h0
      · rw [h0]; exact hcur
      · exact ih [] (by simp) x h0
    · refine ih (cur ++ [c]) ?_ x hx
      intro hm
      rcases List.mem_append.mp hm with h1 | h1
      · exact hcur h1
      · have : sep = c := by simpa using h1
        exact h this.symm

theorem Split_mem (s : Str) (sep : Char) : ∀ x ∈ Split s sep, sep ∉ x :=
  splitAux_mem sep s [] (by simp)

/-! ## Re-parsing what the serializer writes -/

theorem newline_is_space : isSpace '\n' = true := by decide

theorem parseLine_comment_text (isIP : Str → Bool) (c : Str) (hc : Trimmed c)
    (hne : c ≠ []) :
    parseLine isIP ("# ".toList ++ c) = { rawEntry ("# ".toList ++ c) with Comment := c } := by
  have hstr : "# ".toList = ['#', ' '] := rfl
  rw [hstr]
  have htr : Trimmed (['#', ' '] ++ c) := by
    constructor
    · intro x hx
      have : x = '#' := by simpa using hx.symm
      rw [this]; exact hash_not_space
    · intro x hx
      rw [List.getLast?_append_of_ne_nil _ hne] at hx
      exact hc.2 x hx
  have ht : TrimSpace (['#', ' '] ++ c) = ['#', ' '] ++ c := TrimSpace_of_Trimmed _ htr
  have hp : HasPrefix (TrimSpace (['#', ' '] ++ c)) '#' = true := by
    rw [ht]; rfl
  rw [parseLine_of_comment isIP _ hp, ht]
  have h1 : TrimPrefix (['#', ' '] ++ c) '#' = [' '] ++ c := by
    simp [TrimPrefix, HasPrefix]
  have h2 : TrimSpace ([' '] ++ c) = c := by
    rw [TrimSpace_spaces_append [' '] c (by decide)]
    exact TrimSpace_of_Trimmed c hc
  rw [h1, h2]

theorem parseLine_entry_text (isIP : Str → Bool) (fs : List Str) (c : Str) (hfs : fs ≠ [])
    (h : ∀ f ∈ fs, f ≠ [] ∧ (∀ x ∈ f, isSpace x = false) ∧ '#' ∉ f) (hc : Trimmed c) :
    parseLine isIP (Join fs [' '] ++ (if c ≠ [] then " # ".toList ++ c else []))
      = fieldsRecord isIP (Join fs [' '] ++ (if c ≠ [] then " # ".toList ++ c else []))
          (Join fs [' ']) c := by
  have hstr : " # ".toList = [' ', '#', ' '] := rfl
  have h' : ∀ f ∈ fs, f ≠ [] ∧ ∀ x ∈ f, isSpace x = false :=
    fun f hf => ⟨(h f hf).1, (h f hf).2.1⟩
  obtain ⟨hJt, hJne⟩ := Trimmed_Join fs h'
  have hJne := hJne hfs
  have hJh : '#' ∉ Join fs [' '] := by
    intro hm
    rcases mem_Join fs [' '] '#' hm with h1 | ⟨f, hf, h1⟩
    · simp at h1
    · exact (h f hf).2.2 h1
  generalize hJ : Join fs [' '] = J at hJt hJne hJh ⊢
  cases J with
  | nil => exact absurd rfl hJne
  | cons a t =>
    have ha : isSpace a = false := hJt.1 a rfl
    have hah : a ≠ '#' := fun e => hJh (by simp [e])
    generalize hT : (if c ≠ [] then " # ".toList ++ c else []) = T
    have hnt : TrimSpace (a :: t ++ T) ≠ [] := by
      intro e
      have := (TrimSpace_eq_nil_iff _).mp e a (by simp)
      rw [ha] at this; exact Bool.noConfusion this
    have hpf : HasPrefix (TrimSpace (a :: t ++ T)) '#' = false := by
      rw [HasPrefix_eq_false_iff, head_TrimSpace]
      simp only [List.cons_append, List.dropWhile_cons, ha, Bool.false_eq_true, if_false,
        List.head?_cons]
      intro e
      exact hah (Option.some.inj e)
    rw [parseLine_of_fields isIP _ hnt hpf]
    have hb : textBeforeHash (a :: t ++ T) = a :: t := by
      unfold textBeforeHash
      by_cases hce : c = []
      · have : T = [] := by rw [← hT]; simp [hce]
        rw [this, List.append_nil, takeWhile_hash_of_not_mem _ hJh]
        exact TrimSpace_of_Trimmed _ hJt
      · have : T = [' ', '#', ' '] ++ c := by rw [← hT, hstr]; simp [hce]
        have e : a :: t ++ T = ((a :: t) ++ [' ']) ++ '#' :: ([' '] ++ c) := by
          rw [this]; simp
        have hwa : '#' ∉ (a :: t) ++ [' '] := by
          intro hm
          rcases List.mem_append.mp hm with h1 | h1
          · exact hJh h1
          · simp at h1
        rw [e, takeWhile_hash_split _ _ hwa, TrimSpace_append_spaces _ _ (by decide)]
        exact TrimSpace_of_Trimmed _ hJt
    have ha2 : textAfterHash (a :: t ++ T) = c := by
      unfold textAfterHash
      by_cases hce : c = []
      · have : T = [] := by rw [← hT]; simp [hce]
        rw [this, List.append_nil, dropWhile_hash_of_not_mem _ hJh, hce]
        rfl
      · have : T = [' ', '#', ' '] ++ c := by rw [← hT, hstr]; simp [hce]
        have e : a :: t ++ T = ((a :: t) ++ [' ']) ++ '#' :: ([' '] ++ c) := by
          rw [this]; simp
        have hwa : '#' ∉ (a :: t) ++ [' '] := by
          intro hm
          rcases List.mem_append.mp hm with h1 | h1
          · exact hJh h1
          · simp at h1
        rw [e, dropWhile_hash_split _ _ hwa]
        simp only [List.drop_succ_cons, List.drop_zero]
        rw [TrimSpace_spaces_append [' '] c (by decide)]
        exact TrimSpace_of_Trimmed c hc
    rw [hb, ha2]

theorem textAfterHash_subset (raw : Str) : ∀ x ∈ textAfterHash raw, x ∈ raw := by
  intro x hx
  unfold textAfterHash at hx
  exact List.dropWhile_subset _ (List.mem_of_mem_drop (TrimSpace_subset _ x hx))

theorem textBeforeHash_mem (raw : Str) :
    ∀ x ∈ textBeforeHash raw, x ≠ '#' ∧ x ∈ raw := by
  intro x hx
  unfold textBeforeHash at hx
  have h1 := TrimSpace_subset _ x hx
  have h2 := List.mem_takeWhile_imp h1
  exact ⟨by simpa using h2, List.takeWhile_subset _ h1⟩

/-- A record that is no entry and carries a trimmed comment taken from its
raw text is written as a line that parses to the same content. -/
theorem reparse_of_not_entry (isIP : Str → Bool) (raw c : Str)
    (hraw : TrimSpace raw ≠ []) (hnl : '\n' ∉ raw) (hc : Trimmed c)
    (hcs : ∀ x ∈ c, x ∈ raw)
    (hparse : parseLine isIP raw = { rawEntry raw with Comment := c }) :
    ∃ body : Str, lineString (parseLine isIP raw) = body ++ ['\n'] ∧ '\n' ∉ body ∧
      content (parseLine isIP body) = content (parseLine isIP raw) := by
  have hrne : raw ≠ [] := by
    intro e; rw [e] at hraw; exact hraw rfl
  by_cases hce : c = []
  · refine ⟨raw, ?_, hnl, rfl⟩
    rw [hparse]
    exact lineString_of_unparsed _ rfl rfl hce hrne
  · refine ⟨"# ".toList ++ c, ?_, ?_, ?_⟩
    · rw [hparse]
      have ht : TrimSpace c = c := TrimSpace_of_Trimmed c hc
      have := lineString_of_commented { rawEntry raw with Comment := c } rfl rfl
        (by show TrimSpace c ≠ []; rw [ht]; exact hce)
      rw [this]
      show "# ".toList ++ TrimSpace c ++ ['\n'] = _
      rw [ht]
    · intro hm
      rcases List.mem_append.mp hm with h | h
      · revert h; decide
      · exact hnl (hcs _ h)
    · rw [parseLine_comment_text isIP c hc hce, hparse]
      rfl

theorem lineString_reparse (isIP : Str → Bool) (raw : Str) (hnl : '\n' ∉ raw) :
    ∃ body : Str, lineString (parseLine isIP raw) = body ++ ['\n'] ∧ '\n' ∉ body ∧
      content (parseLine isIP body) = content (parseLine isIP raw) := by
  by_cases hb : TrimSpace raw = []
  · refine ⟨[], ?_, by simp, ?_⟩
    · rw [parseLine_of_blank isIP raw hb]; rfl
    · rw [parseLine_of_blank isIP raw hb, parseLine_of_blank isIP [] rfl]; rfl
  · by_cases hp : HasPrefix (TrimSpace raw) '#' = true
    · refine reparse_of_not_entry isIP raw _ hb hnl (Trimmed_TrimSpace _) ?_
        (parseLine_of_comment isIP raw hp)
      intro x hx
      have h1 := TrimSpace_subset _ x hx
      have h2 : x ∈ TrimSpace raw := by
        unfold TrimPrefix at h1
        rw [if_pos hp] at h1
        exact List.mem_of_mem_drop h1
      exact TrimSpace_subset _ x h2
    · have hp' : HasPrefix (TrimSpace raw) '#' = false := by simpa using hp
      have hrec := parseLine_of_fields isIP raw hb hp'
      by_cases hcond : 2 ≤ (Fields (textBeforeHash raw)).length ∧
          isIP ((Fields (textBeforeHash raw)).headD []) = true
      · -- an entry
        have hct : Trimmed (textAfterHash raw) := Trimmed_TrimSpace _
        have hctt : TrimSpace (textAfterHash raw) = textAfterHash raw :=
          TrimSpace_of_Trimmed _ hct
        have hfield : ∀ f ∈ Fields (textBeforeHash raw),
            f ≠ [] ∧ (∀ x ∈ f, isSpace x = false) ∧ '#' ∉ f := by
          intro f hf
          obtain ⟨h1, h2, h3⟩ := Fields_mem _ f hf
          exact ⟨h1, h2, fun hm => (textBeforeHash_mem raw _ (h3 _ hm)).1 rfl⟩
        have hfs : Fields (textBeforeHash raw) ≠ [] := by
          intro e; rw [e] at hcond; simp at hcond
        have hFJ : Fields (Join (Fields (textBeforeHash raw)) [' '])
            = Fields (textBeforeHash raw) :=
          Fields_Join _ (fun f hf => ⟨(hfield f hf).1, (hfield f hf).2.1⟩)
        refine ⟨Join (Fields (textBeforeHash raw)) [' '] ++
          (if textAfterHash raw ≠ [] then " # ".toList ++ textAfterHash raw else []),
          ?_, ?_, ?_⟩
        · rw [hrec]
          unfold fieldsRecord
          rw [if_pos hcond]
          cases hF : Fields (textBeforeHash raw) with
          | nil => exact absurd hF hfs
          | cons f0 rest =>
            cases rest with
            | nil => rw [hF] at hcond; simp at hcond
            | cons f1 more =>
              have hsp : " ".toList = [' '] := rfl
              simp only [lineString, hctt, List.headD_cons, List.drop_succ_cons, List.drop_zero,
                List.length_cons, Join_cons_cons, hsp]
              simp
        · intro hm
          rcases List.mem_append.mp hm with h | h
          · rcases mem_Join _ _ _ h with h1 | ⟨f, hf, h1⟩
            · simp at h1
            · have := (hfield f hf).2.1 _ h1
              rw [newline_is_space] at this
              exact Bool.noConfusion this
          · split_ifs at h
            · rcases List.mem_append.mp h with h1 | h1
              · revert h1; decide
              · exact hnl (textAfterHash_subset raw _ h1)
            · simp at h
        · rw [parseLine_entry_text isIP _ _ hfs hfield hct, hrec]
          unfold fieldsRecord
          rw [hFJ, if_pos hcond, if_pos hcond]
          rfl
      · -- no entry
        have hrec' : parseLine isIP raw = { rawEntry raw with Comment := textAfterHash raw } := by
          rw [hrec]; unfold fieldsRecord; rw [if_neg hcond]; rfl
        exact reparse_of_not_entry isIP raw _ hb hnl (Trimmed_TrimSpace _)
          (textAfterHash_subset raw) hrec'

/-- Bodies of the lines the serializer writes for a parsed sequence. -/
theorem lineStrings_reparse (isIP : Str → Bool) (raws : List Str)
    (hnl : ∀ raw ∈ raws, '\n' ∉ raw) :
    ∃ bodies : List Str,
      ((raws.map (parseLine isIP)).map lineString).flatten
        = (bodies.map fun b => b ++ ['\n']).flatten ∧
      (∀ b ∈ bodies, '\n' ∉ b) ∧
      (bodies.map (parseLine isIP)).map content
        = (raws.map (parseLine isIP)).map content := by
  induction raws with
  | nil => exact ⟨[], rfl, by simp, rfl⟩
  | cons raw rest ih =>
    obtain ⟨bodies, h1, h2, h3⟩ := ih (fun r hr => hnl r (List.mem_cons_of_mem _ hr))
    obtain ⟨body, hb1, hb2, hb3⟩ := lineString_reparse isIP raw (hnl raw (List.mem_cons_self _ _))
    refine ⟨body :: bodies, ?_, ?_, ?_⟩
    · simp only [List.map_cons, List.flatten_cons, hb1, h1]
    · intro b hb
      rcases List.mem_cons.mp hb with h | h
      · rw [h]; exact hb2
      · exact h2 b h
    · simp only [List.map_cons, hb3, h3]

/-! ## Lemmas on repeated removal -/

theorem dropDomain_of_not_lists (domain : Str) (r : HostLine)
    (h : listsDomain domain r = false) (hne : r.IsEntry = true → r.IP ≠ [] → r.Domains ≠ []) :
    dropDomain domain r = some r := by
  unfold dropDomain
  by_cases he : r.IsEntry = true
  · rw [if_pos he]
    have hall : ∀ d ∈ r.Domains, (TrimSpace d != domain) = true := by
      intro d hd
      have h1 : r.Domains.any (fun d => TrimSpace d == domain) = false := by
        simpa [listsDomain, he] using h
      rw [List.any_eq_false] at h1
      have := h1 d hd
      simpa [bne] using this
    have hf : r.Domains.filter (fun d => TrimSpace d != domain) = r.Domains :=
      List.filter_eq_self.mpr hall
    rw [hf, if_neg]
    intro hh
    exact hne he hh.2 hh.1
  · rw [if_neg he]

theorem dropDomain_twice (domain : Str) (r r' : HostLine)
    (h : dropDomain domain r = some r') : dropDomain domain r' = some r' := by
  apply dropDomain_of_not_lists domain r' (dropDomain_not_lists domain r r' h)
  intro he hip hd
  unfold dropDomain at h
  by_cases hre : r.IsEntry = true
  · rw [if_pos hre] at h
    split_ifs at h with h1
    have e : r' = { r with Domains := r.Domains.filter (fun d => TrimSpace d != domain) } := by
      simpa using h.symm
    rw [e] at hip hd
    exact h1 ⟨hd, hip⟩
  · rw [if_neg hre] at h
    have e : r' = r := by simpa using h.symm
    rw [e] at he
    exact hre he

theorem filterMap_dropDomain_twice (domain : Str) (lines : List HostLine) :
    (lines.filterMap (dropDomain domain)).filterMap (dropDomain domain)
      = lines.filterMap (dropDomain domain) := by
  induction lines with
  | nil => rfl
  | cons r rest ih =>
    cases h : dropDomain domain r with
    | none => simp [List.filterMap_cons, h, ih]
    | some r' =>
      simp [List.filterMap_cons, h, ih, dropDomain_twice domain r r' h]

theorem filterMap_dropDomain_of_not_lists (domain : Str) (lines : List HostLine)
    (h : ∀ r ∈ lines, listsDomain domain r = false)
    (hne : ∀ r ∈ lines, r.IsEntry = true → r.IP ≠ [] → r.Domains ≠ []) :
    lines.filterMap (dropDomain domain) = lines := by
  induction lines with
  | nil => rfl
  | cons r rest ih =>
    have h1 := dropDomain_of_not_lists domain r (h r (List.mem_cons_self _ _))
      (hne r (List.mem_cons_self _ _))
    simp only [List.filterMap_cons, h1]
    rw [ih (fun x hx => h x (List.mem_cons_of_mem _ hx))
      (fun x hx => hne x (List.mem_cons_of_mem _ hx))]

theorem RemoveDomain_of_unchanged (hf : HostsFile) (domain : Str)
    (h : (RemoveDomain hf domain).2 = false) :
    (RemoveDomain hf domain).1 = { hf with Lines := (RemoveDomain hf domain).1.Lines } := by
  unfold RemoveDomain at h ⊢
  simp only [] at h ⊢
  by_cases hc : (removeLoop (TrimSpace domain) (hf.Lines.length + 1) 0 hf.Lines false).2 = true
  · rw [if_pos hc] at h
    exact Bool.noConfusion h
  · rw [if_neg hc]

/-! ## Lemmas on `MergeByIP` -/

theorem mergeStep_unmerged (nl : List HostLine) (m : Str → Option Nat) (ch : Bool)
    (x : HostLine) (hx : unmerged x = true) :
    mergeStep (nl, m, ch) x = (nl ++ [x], m, ch) := by
  unfold unmerged at hx
  unfold mergeStep
  rw [if_pos hx]

theorem mergeStep_found (nl : List HostLine) (m : Str → Option Nat) (ch : Bool)
    (x e : HostLine) (k : Nat) (hx : unmerged x = false) (hm : m x.IP = some k)
    (he : nl[k]? = some e) :
    mergeStep (nl, m, ch) x = (nl.set k (adopt e x), m, true) := by
  unfold unmerged at hx
  unfold mergeStep adopt
  rw [if_neg (by rw [hx]; exact Bool.false_ne_true)]
  simp only [hm, he]
  split_ifs <;> rfl

theorem mergeStep_new (nl : List HostLine) (m : Str → Option Nat) (ch : Bool)
    (x : HostLine) (hx : unmerged x = false) (hm : m x.IP = none) :
    mergeStep (nl, m, ch) x = (nl ++ [x], mapSet m x.IP nl.length, ch) := by
  unfold unmerged at hx
  unfold mergeStep
  rw [if_neg (by rw [hx]; exact Bool.false_ne_true)]
  simp only [hm]
  simp

theorem mem_entryIPs (ip : Str) (L : List HostLine) :
    ip ∈ entryIPs L ↔ ∃ r ∈ L, unmerged r = false ∧ r.IP = ip := by
  simp only [entryIPs, List.mem_map, List.mem_filter]
  constructor
  · rintro ⟨a, ⟨h1, h2⟩, h3⟩
    exact ⟨a, h1, by simpa using h2, h3⟩
  · rintro ⟨a, h1, h2, h3⟩
    exact ⟨a, ⟨h1, by simpa using h2⟩, h3⟩

theorem entryIPs_append (L1 L2 : List HostLine) :
    entryIPs (L1 ++ L2) = entryIPs L1 ++ entryIPs L2 := by
  simp [entryIPs]

theorem entryIPs_singleton_unmerged (x : HostLine) (hx : unmerged x = true) :
    entryIPs [x] = [] := by
  simp [entryIPs, hx]

theorem entryIPs_singleton_merged (x : HostLine) (hx : unmerged x = false) :
    entryIPs [x] = [x.IP] := by
  simp [entryIPs, hx]

theorem unmerged_IP_ne_nil (r : HostLine) (h : unmerged r = false) :
    r.IsEntry = true ∧ r.IP ≠ [] := by
  unfold unmerged at h
  simpa using h

theorem hasIP_of_unmerged (x r : HostLine) (hx : unmerged x = true)
    (hr : unmerged r = false) : hasIP r.IP x = false := by
  obtain ⟨_, hne⟩ := unmerged_IP_ne_nil r hr
  unfold unmerged at hx
  unfold hasIP
  by_cases he : x.IsEntry = true
  · have : x.IP = [] := by simpa [he] using hx
    have hne' : ¬ ([] : Str) = r.IP := fun e => hne e.symm
    simp [he, this, hne', hne]
  · simp [he]

theorem settle_nil (r : HostLine) : settle [] r = r := by
  unfold settle absorb
  split_ifs with h
  · rfl
  · simp only [List.filter_nil, List.map_nil, List.flatten_nil, List.append_nil, firstNonEmpty]
    by_cases hc : r.Comment = []
    · rw [if_neg (by simp [hc])]
      cases r
      simp_all
    · rw [if_pos hc]

theorem settle_cons_skip (x : HostLine) (xs : List HostLine) (r : HostLine)
    (h : unmerged r = false → hasIP r.IP x = false) :
    settle (x :: xs) r = settle xs r := by
  unfold settle
  by_cases hr : unmerged r = true
  · rw [if_pos hr, if_pos hr]
  · have hr' : unmerged r = false := by simpa using hr
    rw [if_neg hr, if_neg hr]
    unfold absorb
    rw [List.filter_cons_of_neg (by simp [h hr'])]

theorem firstNonEmpty_adopt (a b : Str) (t : List Str) :
    firstNonEmpty ((if a = [] ∧ b ≠ [] then b else a) :: t) = firstNonEmpty (a :: b :: t) := by
  by_cases ha : a = []
  · by_cases hb : b = []
    · simp [firstNonEmpty, ha, hb]
    · simp [firstNonEmpty, ha, hb]
  · simp [firstNonEmpty, ha]

theorem settle_adopt (x e : HostLine) (xs : List HostLine) (he : unmerged e = false)
    (hx : hasIP e.IP x = true) :
    settle xs (adopt e x) = settle (x :: xs) e := by
  have hu : unmerged (adopt e x) = false := he
  unfold settle
  rw [if_neg (by rw [hu]; exact Bool.false_ne_true),
    if_neg (by rw [he]; exact Bool.false_ne_true)]
  unfold absorb adopt
  simp only [List.filter_cons_of_pos hx, List.map_cons, List.flatten_cons, List.append_assoc,
    firstNonEmpty_adopt]

theorem mem_entryIPs_iff_key (ip : Str) (L : List HostLine) :
    ip ∈ entryIPs L ↔ (false, ip) ∈ L.map mergeKey := by
  rw [mem_entryIPs, List.mem_map]
  constructor
  · rintro ⟨r, hr, h1, h2⟩
    exact ⟨r, hr, by simp [mergeKey, h1, h2]⟩
  · rintro ⟨r, hr, h⟩
    have : unmerged r = false ∧ r.IP = ip := by
      simpa [mergeKey, Prod.ext_iff] using h
    exact ⟨r, hr, this.1, this.2⟩

theorem MergeInv_nil : MergeInv [] mapEmpty := by
  intro ip
  exact ⟨fun k hk => by simp [mapEmpty] at hk, fun _ => by simp⟩

theorem MergeInv_append_unmerged (nl : List HostLine) (m : Str → Option Nat) (x : HostLine)
    (h : MergeInv nl m) (hx : unmerged x = true) : MergeInv (nl ++ [x]) m := by
  intro ip
  obtain ⟨h1, h2⟩ := h ip
  have hmap : (nl ++ [x]).map mergeKey = nl.map mergeKey ++ [(true, x.IP)] := by
    simp [mergeKey, hx]
  rw [hmap]
  constructor
  · intro k hk
    obtain ⟨h3, h4⟩ := h1 k hk
    have hklt : k < (nl.map mergeKey).length := by
      by_contra hge
      rw [List.getElem?_eq_none (by omega)] at h3
      cases h3
    refine ⟨by rw [List.getElem?_append_left hklt]; exact h3, ?_⟩
    intro j hj
    by_cases hjlt : j < (nl.map mergeKey).length
    · rw [List.getElem?_append_left hjlt] at hj
      exact h4 j hj
    · rw [List.getElem?_append_right (by omega)] at hj
      by_cases hj0 : j - (nl.map mergeKey).length = 0
      · rw [hj0] at hj
        simp at hj
      · rw [List.getElem?_eq_none (by simp only [List.length_singleton, List.length_cons, List.length_nil]; omega)] at hj
        cases hj
  · intro hn hmem
    rcases List.mem_append.mp hmem with h5 | h5
    · exact h2 hn h5
    · simp at h5

theorem MergeInv_append_new (nl : List HostLine) (m : Str → Option Nat) (x : HostLine)
    (h : MergeInv nl m) (hx : unmerged x = false) (hm : m x.IP = none) :
    MergeInv (nl ++ [x]) (mapSet m x.IP nl.length) := by
  have hnot : (false, x.IP) ∉ nl.map mergeKey := (h x.IP).2 hm
  have hmap : (nl ++ [x]).map mergeKey = nl.map mergeKey ++ [(false, x.IP)] := by
    simp [mergeKey, hx]
  have hlen : (nl.map mergeKey).length = nl.length := List.length_map _ _
  intro ip
  obtain ⟨h1, h2⟩ := h ip
  rw [hmap]
  by_cases hip : ip = x.IP
  · subst hip
    constructor
    · intro k hk
      have hk' : k = nl.length := by
        simp [mapSet] at hk; exact hk.symm
      subst hk'
      refine ⟨by rw [List.getElem?_append_right (by omega)]; simp [hlen], ?_⟩
      intro j hj
      by_cases hjlt : j < (nl.map mergeKey).length
      · rw [List.getElem?_append_left hjlt] at hj
        exact absurd (List.getElem?_mem hj) hnot
      · rw [List.getElem?_append_right (by omega)] at hj
        by_cases hj0 : j - (nl.map mergeKey).length = 0
        · omega
        · rw [List.getElem?_eq_none (by simp only [List.length_singleton, List.length_cons, List.length_nil]; omega)] at hj
          cases hj
    · intro hn
      simp [mapSet] at hn
  · have hms : mapSet m x.IP nl.length ip = m ip := by
      simp [mapSet, hip]
    rw [hms]
    constructor
    · intro k hk
      obtain ⟨h3, h4⟩ := h1 k hk
      have hklt : k < (nl.map mergeKey).length := by
        by_contra hge
        rw [List.getElem?_eq_none (by omega)] at h3
        cases h3
      refine ⟨by rw [List.getElem?_append_left hklt]; exact h3, ?_⟩
      intro j hj
      by_cases hjlt : j < (nl.map mergeKey).length
      · rw [List.getElem?_append_left hjlt] at hj
        exact h4 j hj
      · rw [List.getElem?_append_right (by omega)] at hj
        by_cases hj0 : j - (nl.map mergeKey).length = 0
        · rw [hj0] at hj
          simp at hj
          exact absurd hj.symm hip
        · rw [List.getElem?_eq_none (by simp only [List.length_singleton, List.length_cons, List.length_nil]; omega)] at hj
          cases hj
    · intro hn hmem
      rcases List.mem_append.mp hmem with h5 | h5
      · exact h2 hn h5
      · simp at h5
        exact hip h5

theorem map_mergeKey_set (nl : List HostLine) (k : Nat) (e e2 : HostLine)
    (he : nl[k]? = some e) (hk : mergeKey e2 = mergeKey e) :
    (nl.set k e2).map mergeKey = nl.map mergeKey := by
  apply List.ext_getElem?
  intro n
  rw [List.map_set, List.getElem?_set]
  split_ifs with h1 h2
  · subst h1
    simp [he, hk]
  · subst h1
    have : ¬ k < nl.length := by simpa using h2
    simp [List.getElem?_eq_none (Nat.le_of_not_lt this)]
  · rfl

theorem MergeInv_set (nl : List HostLine) (m : Str → Option Nat) (k : Nat) (e e2 : HostLine)
    (h : MergeInv nl m) (he : nl[k]? = some e) (hk : mergeKey e2 = mergeKey e) :
    MergeInv (nl.set k e2) m := by
  unfold MergeInv
  rw [map_mergeKey_set nl k e e2 he hk]
  exact h

theorem entryIPs_eq_of_keys (L1 L2 : List HostLine)
    (h : L1.map mergeKey = L2.map mergeKey) : entryIPs L1 = entryIPs L2 := by
  induction L1 generalizing L2 with
  | nil =>
    cases L2 with
    | nil => rfl
    | cons y ys => simp at h
  | cons x xs ih =>
    cases L2 with
    | nil => simp at h
    | cons y ys =>
      simp only [List.map_cons, List.cons.injEq] at h
      have hk : unmerged x = unmerged y ∧ x.IP = y.IP := by
        simpa [mergeKey, Prod.ext_iff] using h.1
      have := ih ys h.2
      unfold entryIPs at this ⊢
      by_cases hx : unmerged x = true
      · have hy : unmerged y = true := by rw [← hk.1]; exact hx
        simp [List.filter_cons, hx, hy, this]
      · have hx' : unmerged x = false := by simpa using hx
        have hy : unmerged y = false := by rw [← hk.1]; exact hx'
        simp [List.filter_cons, hx', hy, this, hk.2]

theorem hasIP_iff (ip : Str) (x : HostLine) :
    hasIP ip x = true ↔ x.IsEntry = true ∧ x.IP = ip := by
  simp [hasIP]

theorem hasIP_self (x : HostLine) (hx : unmerged x = false) : hasIP x.IP x = true := by
  rw [hasIP_iff]
  exact ⟨(unmerged_IP_ne_nil x hx).1, rfl⟩

theorem mergeFrom_cons_unmerged (seen : List Str) (x : HostLine) (xs : List HostLine)
    (hx : unmerged x = true) : mergeFrom seen (x :: xs) = x :: mergeFrom seen xs := by
  rw [mergeFrom, if_pos hx]

theorem mergeFrom_cons_seen (seen : List Str) (x : HostLine) (xs : List HostLine)
    (hx : unmerged x = false) (hs : x.IP ∈ seen) :
    mergeFrom seen (x :: xs) = mergeFrom seen xs := by
  rw [mergeFrom, if_neg (by rw [hx]; exact Bool.false_ne_true), if_pos hs]

theorem mergeFrom_cons_first (seen : List Str) (x : HostLine) (xs : List HostLine)
    (hx : unmerged x = false) (hs : x.IP ∉ seen) :
    mergeFrom seen (x :: xs) = absorb xs x :: mergeFrom (seen ++ [x.IP]) xs := by
  rw [mergeFrom, if_neg (by rw [hx]; exact Bool.false_ne_true), if_neg hs]

theorem repeatsIP_cons_unmerged (seen : List Str) (x : HostLine) (xs : List HostLine)
    (hx : unmerged x = true) : repeatsIP seen (x :: xs) = repeatsIP seen xs := by
  rw [repeatsIP, if_pos hx]

theorem repeatsIP_cons_seen (seen : List Str) (x : HostLine) (xs : List HostLine)
    (hx : unmerged x = false) (hs : x.IP ∈ seen) :
    repeatsIP seen (x :: xs) = true := by
  rw [repeatsIP, if_neg (by rw [hx]; exact Bool.false_ne_true), if_pos hs]

theorem repeatsIP_cons_first (seen : List Str) (x : HostLine) (xs : List HostLine)
    (hx : unmerged x = false) (hs : x.IP ∉ seen) :
    repeatsIP seen (x :: xs) = repeatsIP (seen ++ [x.IP]) xs := by
  rw [repeatsIP, if_neg (by rw [hx]; exact Bool.false_ne_true), if_neg hs]

/-- The loop of `MergeByIP`, continued from a state that satisfies its
invariant over the records `rest`, ends with the retained records settled
and followed by the merged `rest`. -/
theorem foldl_mergeStep (rest : List HostLine) :
    ∀ (nl : List HostLine) (m : Str → Option Nat) (ch : Bool), MergeInv nl m →
      (rest.foldl mergeStep (nl, m, ch)).1
        = nl.map (settle rest) ++ mergeFrom (entryIPs nl) rest ∧
      (rest.foldl mergeStep (nl, m, ch)).2.2 = (ch || repeatsIP (entryIPs nl) rest) := by
  induction rest with
  | nil =>
    intro nl m ch _
    have : nl.map (settle []) = nl := by
      rw [List.map_congr_left (fun r _ => settle_nil r), List.map_id']
    simp [this, mergeFrom, repeatsIP]
  | cons x xs ih =>
    intro nl m ch hinv
    rw [List.foldl_cons]
    by_cases hx : unmerged x = true
    · rw [mergeStep_unmerged nl m ch x hx]
      obtain ⟨h1, h2⟩ := ih (nl ++ [x]) m ch (MergeInv_append_unmerged nl m x hinv hx)
      have hips : entryIPs (nl ++ [x]) = entryIPs nl := by
        rw [entryIPs_append, entryIPs_singleton_unmerged x hx, List.append_nil]
      have hmap : nl.map (settle (x :: xs)) = nl.map (settle xs) :=
        List.map_congr_left fun r _ =>
          settle_cons_skip x xs r (fun hr => hasIP_of_unmerged x r hx hr)
      have hsx : settle xs x = x := by unfold settle; rw [if_pos hx]
      rw [h1, h2, hips, hmap, mergeFrom_cons_unmerged _ _ _ hx,
        repeatsIP_cons_unmerged _ _ _ hx]
      simp [hsx]
    · have hx' : unmerged x = false := by simpa using hx
      cases hm : m x.IP with
      | some k =>
        obtain ⟨hk1, hk2⟩ := (hinv x.IP).1 k hm
        rw [List.getElem?_map] at hk1
        cases hek : nl[k]? with
        | none => rw [hek] at hk1; cases hk1
        | some e =>
          rw [hek] at hk1
          have hkey : mergeKey e = (false, x.IP) := by simpa using hk1
          have heu : unmerged e = false ∧ e.IP = x.IP := by
            simpa [mergeKey, Prod.ext_iff] using hkey
          rw [mergeStep_found nl m ch x e k hx' hm hek]
          have hkey2 : mergeKey (adopt e x) = mergeKey e := rfl
          obtain ⟨h1, h2⟩ := ih _ m true (MergeInv_set nl m k e _ hinv hek hkey2)
          have hips := entryIPs_eq_of_keys _ _ (map_mergeKey_set nl k e _ hek hkey2)
          have hseen : x.IP ∈ entryIPs nl :=
            (mem_entryIPs x.IP nl).mpr ⟨e, List.getElem?_mem hek, heu.1, heu.2⟩
          have hhas : hasIP e.IP x = true := by
            rw [hasIP_iff]; exact ⟨(unmerged_IP_ne_nil x hx').1, heu.2.symm⟩
          have hmap : (nl.set k (adopt e x)).map (settle xs) = nl.map (settle (x :: xs)) := by
            apply List.ext_getElem?
            intro n
            rw [List.getElem?_map, List.getElem?_map, List.getElem?_set]
            by_cases hkn : k = n
            · subst hkn
              have hklt : k < nl.length := by
                by_contra hge
                rw [List.getElem?_eq_none (by omega)] at hek
                cases hek
              rw [if_pos rfl, if_pos hklt, hek]
              simp only [Option.map_some']
              rw [settle_adopt x e xs heu.1 hhas]
            · rw [if_neg hkn]
              cases hn : nl[n]? with
              | none => rfl
              | some r =>
                simp only [Option.map_some']
                rw [settle_cons_skip x xs r]
                intro hr
                rw [Bool.eq_false_iff]
                intro hh
                have hxr := (hasIP_iff _ _).mp hh
                have : (nl.map mergeKey)[n]? = some (false, x.IP) := by
                  rw [List.getElem?_map, hn]
                  simp [mergeKey, hr, hxr.2]
                exact hkn (hk2 n this).symm
          rw [h1, h2, hips, hmap, mergeFrom_cons_seen _ _ _ hx' hseen,
            repeatsIP_cons_seen _ _ _ hx' hseen]
          simp
      | none =>
        rw [mergeStep_new nl m ch x hx' hm]
        obtain ⟨h1, h2⟩ := ih _ _ ch (MergeInv_append_new nl m x hinv hx' hm)
        have hnot : x.IP ∉ entryIPs nl := by
          rw [mem_entryIPs_iff_key]; exact (hinv x.IP).2 hm
        have hips : entryIPs (nl ++ [x]) = entryIPs nl ++ [x.IP] := by
          rw [entryIPs_append, entryIPs_singleton_merged x hx']
        have hmap : nl.map (settle (x :: xs)) = nl.map (settle xs) := by
          apply List.map_congr_left
          intro r hr
          apply settle_cons_skip
          intro hru
          rw [Bool.eq_false_iff]
          intro hh
          have hxr := (hasIP_iff _ _).mp hh
          exact hnot ((mem_entryIPs x.IP nl).mpr ⟨r, hr, hru, hxr.2.symm⟩)
        have hsx : settle xs x = absorb xs x := by
          unfold settle; rw [if_neg hx]
        rw [h1, h2, hips, hmap, mergeFrom_cons_first _ _ _ hx' hnot,
          repeatsIP_cons_first _ _ _ hx' hnot]
        simp [hsx]

theorem repeatsIP_false_not_seen (L : List HostLine) :
    ∀ seen : List Str, repeatsIP seen L = false →
      ∀ y ∈ L, unmerged y = false → y.IP ∉ seen := by
  induction L with
  | nil => intro seen _ y hy; simp at hy
  | cons x xs ih =>
    intro seen h y hy hyu
    by_cases hx : unmerged x = true
    · rw [repeatsIP_cons_unmerged _ _ _ hx] at h
      rcases List.mem_cons.mp hy with e | hmem
      · rw [e, hx] at hyu; exact Bool.noConfusion hyu
      · exact ih seen h y hmem hyu
    · have hx' : unmerged x = false := by simpa using hx
      by_cases hs : x.IP ∈ seen
      · rw [repeatsIP_cons_seen _ _ _ hx' hs] at h
        exact Bool.noConfusion h
      · rw [repeatsIP_cons_first _ _ _ hx' hs] at h
        rcases List.mem_cons.mp hy with e | hmem
        · rw [e]; exact hs
        · have := ih _ h y hmem hyu
          intro hin
          exact this (List.mem_append_left _ hin)

theorem absorb_of_no_later (rest : List HostLine) (x : HostLine)
    (h : rest.filter (hasIP x.IP) = []) : absorb rest x = x := by
  unfold absorb
  rw [h]
  simp only [List.map_nil, List.flatten_nil, List.append_nil, firstNonEmpty]
  by_cases hc : x.Comment = []
  · rw [if_neg (by simp [hc])]
    cases x
    simp_all
  · rw [if_pos hc]

theorem mergeFrom_of_no_repeat (L : List HostLine) :
    ∀ seen : List Str, repeatsIP seen L = false → mergeFrom seen L = L := by
  induction L with
  | nil => intro seen _; rfl
  | cons x xs ih =>
    intro seen h
    by_cases hx : unmerged x = true
    · rw [repeatsIP_cons_unmerged _ _ _ hx] at h
      rw [mergeFrom_cons_unmerged _ _ _ hx, ih seen h]
    · have hx' : unmerged x = false := by simpa using hx
      by_cases hs : x.IP ∈ seen
      · rw [repeatsIP_cons_seen _ _ _ hx' hs] at h
        exact Bool.noConfusion h
      · rw [repeatsIP_cons_first _ _ _ hx' hs] at h
        rw [mergeFrom_cons_first _ _ _ hx' hs, ih _ h]
        have hnone : xs.filter (hasIP x.IP) = [] := by
          rw [List.filter_eq_nil_iff]
          intro y hy hh
          have hyi := (hasIP_iff _ _).mp hh
          have hyu : unmerged y = false := by
            have := unmerged_IP_ne_nil x hx'
            unfold unmerged
            simp [hyi.1, hyi.2, this.2]
          have := repeatsIP_false_not_seen xs _ h y hy hyu
          exact this (by rw [hyi.2]; simp)
        rw [absorb_of_no_later xs x hnone]

theorem foldl_mergeStep_start (lines : List HostLine) :
    (lines.foldl mergeStep ([], mapEmpty, false)).1 = mergeRef lines ∧
    (lines.foldl mergeStep ([], mapEmpty, false)).2.2 = repeatsIP [] lines := by
  obtain ⟨h1, h2⟩ := foldl_mergeStep lines [] mapEmpty false MergeInv_nil
  have he : entryIPs [] = [] := rfl
  rw [he] at h1 h2
  exact ⟨by simpa [mergeRef] using h1, by simpa using h2⟩

theorem MergeByIP_changed (hf : HostsFile) : (MergeByIP hf).2 = repeatsIP [] hf.Lines := by
  unfold MergeByIP
  simp only [(foldl_mergeStep_start hf.Lines).2]
  split_ifs with h
  · exact h.symm
  · simpa using h

theorem MergeByIP_Lines (hf : HostsFile) : (MergeByIP hf).1.Lines = mergeRef hf.Lines := by
  unfold MergeByIP
  simp only [(foldl_mergeStep_start hf.Lines).2, (foldl_mergeStep_start hf.Lines).1]
  split_ifs with h
  · rfl
  · have h' : repeatsIP [] hf.Lines = false := by simpa using h
    exact (mergeFrom_of_no_repeat hf.Lines [] h').symm

theorem MergeByIP_of_unchanged (hf : HostsFile) (h : (MergeByIP hf).2 = false) :
    (MergeByIP hf).1 = hf := by
  unfold MergeByIP at h ⊢
  simp only [] at h ⊢
  by_cases hc : (hf.Lines.foldl mergeStep ([], mapEmpty, false)).2.2 = true
  · rw [if_pos hc] at h
    exact Bool.noConfusion h
  · rw [if_neg hc]

theorem MergeByIP_of_changed (hf : HostsFile) (h : (MergeByIP hf).2 = true) :
    (MergeByIP hf).1 = rebuildIndex { hf with Lines := mergeRef hf.Lines } := by
  have hl := (foldl_mergeStep_start hf.Lines).1
  unfold MergeByIP at h ⊢
  simp only [] at h ⊢
  by_cases hc : (hf.Lines.foldl mergeStep ([], mapEmpty, false)).2.2 = true
  · rw [if_pos hc, hl]
  · rw [if_neg hc] at h
    exact Bool.noConfusion h

theorem unmerged_absorb (rest : List HostLine) (x : HostLine) :
    unmerged (absorb rest x) = unmerged x := rfl

theorem mem_mergeFrom (L : List HostLine) :
    ∀ (seen : List Str) (r : HostLine), r ∈ mergeFrom seen L → unmerged r = false →
      ∃ (pre : List HostLine) (x : HostLine) (rest : List HostLine),
        L = pre ++ x :: rest ∧ r = absorb rest x ∧ unmerged x = false ∧ x.IP ∉ seen ∧
        ∀ y ∈ pre, unmerged y = false → y.IP ≠ x.IP := by
  induction L with
  | nil => intro seen r hr _; simp [mergeFrom] at hr
  | cons x0 xs ih =>
    intro seen r hr hru
    by_cases hx : unmerged x0 = true
    · rw [mergeFrom_cons_unmerged _ _ _ hx] at hr
      rcases List.mem_cons.mp hr with e | hmem
      · rw [e, hx] at hru; exact Bool.noConfusion hru
      · obtain ⟨pre, x, rest, h1, h2, h3, h4, h5⟩ := ih seen r hmem hru
        refine ⟨x0 :: pre, x, rest, by rw [h1]; rfl, h2, h3, h4, ?_⟩
        intro y hy hyu
        rcases List.mem_cons.mp hy with e | hm
        · rw [e, hx] at hyu; exact Bool.noConfusion hyu
        · exact h5 y hm hyu
    · have hx' : unmerged x0 = false := by simpa using hx
      by_cases hs : x0.IP ∈ seen
      · rw [mergeFrom_cons_seen _ _ _ hx' hs] at hr
        obtain ⟨pre, x, rest, h1, h2, h3, h4, h5⟩ := ih seen r hr hru
        refine ⟨x0 :: pre, x, rest, by rw [h1]; rfl, h2, h3, h4, ?_⟩
        intro y hy hyu
        rcases List.mem_cons.mp hy with e | hm
        · rw [e]; intro heq; exact h4 (heq ▸ hs)
        · exact h5 y hm hyu
      · rw [mergeFrom_cons_first _ _ _ hx' hs] at hr
        rcases List.mem_cons.mp hr with e | hmem
        · exact ⟨[], x0, xs, rfl, e, hx', hs, fun y hy => by simp at hy⟩
        · obtain ⟨pre, x, rest, h1, h2, h3, h4, h5⟩ := ih _ r hmem hru
          have h4a : x.IP ∉ seen := fun hin => h4 (List.mem_append_left _ hin)
          have h4b : x.IP ≠ x0.IP := fun heq => h4 (by rw [heq]; simp)
          refine ⟨x0 :: pre, x, rest, by rw [h1]; rfl, h2, h3, h4a, ?_⟩
          intro y hy hyu
          rcases List.mem_cons.mp hy with e | hm
          · rw [e]; exact fun heq => h4b heq.symm
          · exact h5 y hm hyu

/-- A retained entry of the merged sequence carries the domains of all the
entries of its address, in sequence order, and the first non-empty comment
among them. -/
theorem mergeRef_retained (L : List HostLine) (r : HostLine) (hr : r ∈ mergeRef L)
    (he : r.IsEntry = true) (hip : r.IP ≠ []) :
    r.Domains = ((L.filter (hasIP r.IP)).map fun x => x.Domains).flatten ∧
    r.Comment = firstNonEmpty ((L.filter (hasIP r.IP)).map fun x => x.Comment) := by
  have hru : unmerged r = false := by
    unfold unmerged; simp [he, hip]
  obtain ⟨pre, x, rest, h1, h2, h3, _, h5⟩ := mem_mergeFrom L [] r hr hru
  have hrip : r.IP = x.IP := by rw [h2]; rfl
  have hpre : pre.filter (hasIP x.IP) = [] := by
    rw [List.filter_eq_nil_iff]
    intro y hy hh
    have hyi := (hasIP_iff _ _).mp hh
    have hyu : unmerged y = false := by
      have := unmerged_IP_ne_nil x h3
      unfold unmerged
      simp [hyi.1, hyi.2, this.2]
    exact h5 y hy hyu hyi.2
  have hfil : L.filter (hasIP x.IP) = x :: rest.filter (hasIP x.IP) := by
    rw [h1, List.filter_append, hpre, List.nil_append,
      List.filter_cons_of_pos (hasIP_self x h3)]
  rw [hrip, hfil, h2]
  exact ⟨by simp [absorb], by simp [absorb]⟩

theorem filter_not_entry_mergeFrom (L : List HostLine) :
    ∀ seen : List Str,
      (mergeFrom seen L).filter (fun r => !r.IsEntry) = L.filter (fun r => !r.IsEntry) := by
  induction L with
  | nil => intro seen; rfl
  | cons x xs ih =>
    intro seen
    by_cases hx : unmerged x = true
    · rw [mergeFrom_cons_unmerged _ _ _ hx]
      simp only [List.filter_cons, ih seen]
    · have hx' : unmerged x = false := by simpa using hx
      have he := (unmerged_IP_ne_nil x hx').1
      by_cases hs : x.IP ∈ seen
      · rw [mergeFrom_cons_seen _ _ _ hx' hs, ih seen]
        simp [List.filter_cons, he]
      · rw [mergeFrom_cons_first _ _ _ hx' hs]
        have hae : (absorb xs x).IsEntry = true := he
        simp [List.filter_cons, he, hae, ih]

theorem entryIPs_cons_unmerged (x : HostLine) (xs : List HostLine) (hx : unmerged x = true) :
    entryIPs (x :: xs) = entryIPs xs := by
  simp [entryIPs, List.filter_cons, hx]

theorem entryIPs_cons_merged (x : HostLine) (xs : List HostLine) (hx : unmerged x = false) :
    entryIPs (x :: xs) = x.IP :: entryIPs xs := by
  simp [entryIPs, List.filter_cons, hx]

theorem entryIPs_mergeFrom (L : List HostLine) :
    ∀ seen : List Str,
      (entryIPs (mergeFrom seen L)).Nodup ∧
      (∀ ip ∈ entryIPs (mergeFrom seen L), ip ∉ seen) ∧
      (∀ ip ∈ entryIPs L, ip ∈ seen ∨ ip ∈ entryIPs (mergeFrom seen L)) := by
  induction L with
  | nil => intro seen; simp [mergeFrom, entryIPs]
  | cons x xs ih =>
    intro seen
    by_cases hx : unmerged x = true
    · rw [mergeFrom_cons_unmerged _ _ _ hx, entryIPs_cons_unmerged _ _ hx,
        entryIPs_cons_unmerged _ _ hx]
      exact ih seen
    · have hx' : unmerged x = false := by simpa using hx
      by_cases hs : x.IP ∈ seen
      · rw [mergeFrom_cons_seen _ _ _ hx' hs, entryIPs_cons_merged _ _ hx']
        obtain ⟨h1, h2, h3⟩ := ih seen
        refine ⟨h1, h2, ?_⟩
        intro ip hip
        rcases List.mem_cons.mp hip with e | hm
        · rw [e]; exact Or.inl hs
        · exact h3 ip hm
      · rw [mergeFrom_cons_first _ _ _ hx' hs, entryIPs_cons_merged _ _ hx',
          entryIPs_cons_merged _ _ (by rw [unmerged_absorb]; exact hx')]
        obtain ⟨h1, h2, h3⟩ := ih (seen ++ [x.IP])
        have hIP : (absorb xs x).IP = x.IP := rfl
        rw [hIP]
        refine ⟨?_, ?_, ?_⟩
        · rw [List.nodup_cons]
          exact ⟨fun hin => h2 _ hin (by simp), h1⟩
        · intro ip hip
          rcases List.mem_cons.mp hip with e | hm
          · rw [e]; exact hs
          · exact fun hin => h2 ip hm (List.mem_append_left _ hin)
        · intro ip hip
          rcases List.mem_cons.mp hip with e | hm
          · rw [e]; exact Or.inr (List.mem_cons_self _ _)
          · rcases h3 ip hm with h | h
            · rcases List.mem_append.mp h with h' | h'
              · exact Or.inl h'
              · have : ip = x.IP := by simpa using h'
                rw [this]; exact Or.inr (List.mem_cons_self _ _)
            · exact Or.inr (List.mem_cons_of_mem _ h)

theorem repeatsIP_of_nodup (L : List HostLine) :
    ∀ seen : List Str, (entryIPs L).Nodup → (∀ ip ∈ entryIPs L, ip ∉ seen) →
      repeatsIP seen L = false := by
  induction L with
  | nil => intro seen _ _; rfl
  | cons x xs ih =>
    intro seen hn hd
    by_cases hx : unmerged x = true
    · rw [repeatsIP_cons_unmerged _ _ _ hx]
      rw [entryIPs_cons_unmerged _ _ hx] at hn hd
      exact ih seen hn hd
    · have hx' : unmerged x = false := by simpa using hx
      rw [entryIPs_cons_merged _ _ hx'] at hn hd
      have hs : x.IP ∉ seen := hd x.IP (List.mem_cons_self _ _)
      rw [repeatsIP_cons_first _ _ _ hx' hs]
      rw [List.nodup_cons] at hn
      apply ih _ hn.2
      intro ip hip hin
      rcases List.mem_append.mp hin with h | h
      · exact hd ip (List.mem_cons_of_mem _ hip) h
      · have : ip = x.IP := by simpa using h
        rw [this] at hip; exact hn.1 hip

/-! ## Invariants of the reachable collections -/

theorem parseLine_entry_cases (isIP : Str → Bool) (raw : Str)
    (he : (parseLine isIP raw).IsEntry = true) :
    2 ≤ (Fields (textBeforeHash raw)).length ∧
    isIP ((Fields (textBeforeHash raw)).headD []) = true ∧
    parseLine isIP raw =
      { Raw := raw, IsEntry := true, IP := (Fields (textBeforeHash raw)).headD [],
        Domains := (Fields (textBeforeHash raw)).drop 1, Comment := textAfterHash raw,
        IsBlank := false } := by
  by_cases hb : TrimSpace raw = []
  · rw [parseLine_of_blank isIP raw hb] at he
    exact Bool.noConfusion he
  · by_cases hp : HasPrefix (TrimSpace raw) '#' = true
    · rw [parseLine_of_comment isIP raw hp] at he
      exact Bool.noConfusion he
    · have hp' : HasPrefix (TrimSpace raw) '#' = false := by simpa using hp
      have hrec := parseLine_of_fields isIP raw hb hp'
      rw [hrec] at he ⊢
      unfold fieldsRecord at he ⊢
      by_cases hcond : 2 ≤ (Fields (textBeforeHash raw)).length ∧
          isIP ((Fields (textBeforeHash raw)).headD []) = true
      · rw [if_pos hcond]
        exact ⟨hcond.1, hcond.2, rfl⟩
      · rw [if_neg hcond] at he
        exact Bool.noConfusion he

theorem Fields_headD_mem (s : Str) (h : 1 ≤ (Fields s).length) :
    (Fields s).headD [] ∈ Fields s := by
  cases hF : Fields s with
  | nil => rw [hF] at h; simp at h
  | cons a t => simp

theorem parseLine_EntryOK (isIP : Str → Bool) (raw : Str) :
    EntryOK isIP (parseLine isIP raw) := by
  intro he
  obtain ⟨h1, h2, h3⟩ := parseLine_entry_cases isIP raw he
  rw [h3]
  refine ⟨rfl, h2, ?_, ?_⟩
  · intro _ hd
    have : ((Fields (textBeforeHash raw)).drop 1).length = 0 := by
      rw [show (Fields (textBeforeHash raw)).drop 1 = [] from hd]; rfl
    rw [List.length_drop] at this
    omega
  · intro d hd
    have hm : d ∈ Fields (textBeforeHash raw) := List.mem_of_mem_drop hd
    exact TrimSpace_of_Trimmed d (Trimmed_of_no_space d (Fields_mem _ d hm).2.1)

theorem parseLine_entry_IP_ne_nil (isIP : Str → Bool) (raw : Str)
    (he : (parseLine isIP raw).IsEntry = true) : (parseLine isIP raw).IP ≠ [] := by
  obtain ⟨h1, _, h3⟩ := parseLine_entry_cases isIP raw he
  rw [h3]
  exact (Fields_mem _ _ (Fields_headD_mem _ (by omega))).1

theorem dropDomain_EntryOK (isIP : Str → Bool) (domain : Str) (r r' : HostLine)
    (hr : EntryOK isIP r) (h : dropDomain domain r = some r') : EntryOK isIP r' := by
  unfold dropDomain at h
  by_cases hre : r.IsEntry = true
  · rw [if_pos hre] at h
    by_cases h1 : r.Domains.filter (fun d => TrimSpace d != domain) = [] ∧ r.IP ≠ []
    · rw [if_pos h1] at h; cases h
    · rw [if_neg h1] at h
      have e : r' = { r with Domains := r.Domains.filter (fun d => TrimSpace d != domain) } := by
        simpa using h.symm
      obtain ⟨h2, h3, _, h5⟩ := hr hre
      intro _
      rw [e]
      refine ⟨h2, h3, ?_, ?_⟩
      · intro hip hd
        exact h1 ⟨hd, hip⟩
      · intro d hd
        exact h5 d (List.mem_of_mem_filter hd)
  · rw [if_neg hre] at h
    have e : r' = r := by simpa using h.symm
    rw [e]; exact hr

theorem RemoveDomain_EntryOK (isIP : Str → Bool) (hf : HostsFile) (domain : Str)
    (h : ∀ r ∈ hf.Lines, EntryOK isIP r) :
    ∀ r ∈ (RemoveDomain hf domain).1.Lines, EntryOK isIP r := by
  intro r hr
  rw [RemoveDomain_Lines, List.mem_filterMap] at hr
  obtain ⟨r0, hr0, hd⟩ := hr
  exact dropDomain_EntryOK isIP _ r0 r (h r0 hr0) hd

theorem attachDomain_EntryOK (isIP : Str → Bool) (hf : HostsFile) (ip domain comment : Str)
    (h : ∀ r ∈ hf.Lines, EntryOK isIP r) (hip : isIP ip = true)
    (ht : TrimSpace domain = domain) :
    ∀ r ∈ (attachDomain hf ip domain comment).Lines, EntryOK isIP r := by
  intro r hr
  cases hfl : findLine (fun l => l.IsEntry && l.IP == ip) hf.Lines with
  | none =>
    rw [attachDomain_of_not_found hf ip domain comment hfl] at hr
    rcases List.mem_append.mp hr with h1 | h1
    · exact h r h1
    · have e : r = _ := List.mem_singleton.mp h1
      rw [e]
      intro _
      refine ⟨rfl, hip, fun _ => by simp, ?_⟩
      intro d hd
      have : d = domain := by simpa using hd
      rw [this]; exact ht
  | some x =>
    obtain ⟨i, l⟩ := x
    rw [attachDomain_of_found hf ip domain comment i l hfl] at hr
    obtain ⟨hat, hp, _⟩ := (findLine_eq_some_iff _ _ i l).mp hfl
    have hp' : l.IsEntry = true ∧ l.IP = ip := by simpa using hp
    rcases List.mem_or_eq_of_mem_set hr with h1 | h1
    · exact h r h1
    · obtain ⟨h2, h3, _, h5⟩ := h l (List.getElem?_mem hat) hp'.1
      rw [h1]
      intro _
      refine ⟨h2, h3, fun _ => by simp, ?_⟩
      intro d hd
      rcases List.mem_append.mp hd with h6 | h6
      · exact h5 d h6
      · have : d = domain := by simpa using h6
        rw [this]; exact ht

theorem AddDomain_cases (isIP : Str → Bool) (hf : HostsFile) (ip domain comment : Str) :
    (AddDomain isIP hf ip domain comment).1 = hf ∨
    (∃ (i : Nat) (l : HostLine), hf.Lines[i]? = some l ∧
      listsDomain (TrimSpace domain) l = true ∧ l.IP = ip ∧
      (comment ≠ [] ∧ l.Comment ≠ comment) ∧
      AddDomain isIP hf ip domain comment =
        (rebuildIndex { hf with Lines := hf.Lines.set i { l with Comment := comment } },
         true, none)) ∨
    (isIP ip = true ∧ TrimSpace domain ≠ [] ∧
      ∃ hf1 : HostsFile, (hf1 = hf ∨ hf1 = (RemoveDomain hf (TrimSpace domain)).1) ∧
        (∀ r ∈ hf1.Lines, listsDomain (TrimSpace domain) r = false) ∧
        AddDomain isIP hf ip domain comment
          = (attachDomain hf1 ip (TrimSpace domain) comment, true, none)) := by
  by_cases hd : TrimSpace domain = []
  · left; unfold AddDomain; simp [hd]
  · by_cases hip : isIP ip = true
    · cases hfl : findLine (listsDomain (TrimSpace domain)) hf.Lines with
      | none =>
        right; right
        exact ⟨hip, hd, hf, Or.inl rfl, (findLine_eq_none_iff _ _).mp hfl,
          AddDomain_of_absent isIP hf ip domain comment hd hip hfl⟩
      | some x =>
        obtain ⟨i, l⟩ := x
        obtain ⟨hat, hl, _⟩ := (findLine_eq_some_iff _ _ i l).mp hfl
        by_cases hsame : l.IP = ip
        · have := AddDomain_of_same_IP isIP hf ip domain comment i l hd hip hfl hsame
          by_cases hc : comment ≠ [] ∧ l.Comment ≠ comment
          · rw [if_pos hc] at this
            right; left
            exact ⟨i, l, hat, hl, hsame, hc, this⟩
          · rw [if_neg hc] at this
            left; rw [this]
        · right; right
          refine ⟨hip, hd, _, Or.inr rfl, ?_,
            AddDomain_of_other_IP isIP hf ip domain comment i l hd hip hfl hsame⟩
          rw [RemoveDomain_Lines, TrimSpace_idem]
          exact filterMap_dropDomain_not_lists _ _
    · have hip' : isIP ip = false := by simpa using hip
      left; unfold AddDomain; simp [hd, hip']

theorem AddDomain_EntryOK (isIP : Str → Bool) (hf : HostsFile) (ip domain comment : Str)
    (h : ∀ r ∈ hf.Lines, EntryOK isIP r) :
    ∀ r ∈ (AddDomain isIP hf ip domain comment).1.Lines, EntryOK isIP r := by
  rcases AddDomain_cases isIP hf ip domain comment with h1 | ⟨i, l, hat, _, _, _, h1⟩ |
    ⟨hip, _, hf1, hf1c, _, h1⟩
  · rw [h1]; exact h
  · rw [h1]
    intro r hr
    simp only [rebuildIndex_Lines] at hr
    rcases List.mem_or_eq_of_mem_set hr with h2 | h2
    · exact h r h2
    · rw [h2]
      exact h l (List.getElem?_mem hat)
  · rw [h1]
    apply attachDomain_EntryOK isIP hf1 ip _ comment _ hip (TrimSpace_idem domain)
    rcases hf1c with e | e
    · rw [e]; exact h
    · rw [e]; exact RemoveDomain_EntryOK isIP hf _ h

theorem mem_mergeFrom_unmerged (L : List HostLine) :
    ∀ (seen : List Str) (r : HostLine), r ∈ mergeFrom seen L → unmerged r = true → r ∈ L := by
  induction L with
  | nil => intro seen r hr _; simp [mergeFrom] at hr
  | cons x xs ih =>
    intro seen r hr hru
    by_cases hx : unmerged x = true
    · rw [mergeFrom_cons_unmerged _ _ _ hx] at hr
      rcases List.mem_cons.mp hr with e | hm
      · rw [e]; exact List.mem_cons_self _ _
      · exact List.mem_cons_of_mem _ (ih seen r hm hru)
    · have hx' : unmerged x = false := by simpa using hx
      by_cases hs : x.IP ∈ seen
      · rw [mergeFrom_cons_seen _ _ _ hx' hs] at hr
        exact List.mem_cons_of_mem _ (ih seen r hr hru)
      · rw [mergeFrom_cons_first _ _ _ hx' hs] at hr
        rcases List.mem_cons.mp hr with e | hm
        · rw [e, unmerged_absorb, hx'] at hru
          exact Bool.noConfusion hru
        · exact List.mem_cons_of_mem _ (ih _ r hm hru)

theorem mergeRef_EntryOK (isIP : Str → Bool) (L : List HostLine)
    (h : ∀ r ∈ L, EntryOK isIP r) : ∀ r ∈ mergeRef L, EntryOK isIP r := by
  intro r hr
  by_cases hru : unmerged r = true
  · exact h r (mem_mergeFrom_unmerged L [] r hr hru)
  · have hru' : unmerged r = false := by simpa using hru
    obtain ⟨pre, x, rest, h1, h2, h3, _, _⟩ := mem_mergeFrom L [] r hr hru'
    have hxL : x ∈ L := by rw [h1]; simp
    obtain ⟨hxe, hxip⟩ := unmerged_IP_ne_nil x h3
    obtain ⟨h4, h5, h6, h7⟩ := h x hxL hxe
    intro _
    rw [h2]
    refine ⟨h4, h5, ?_, ?_⟩
    · intro _ hd
      have : x.Domains = [] := by
        have hd' : x.Domains ++
            ((rest.filter (hasIP x.IP)).map fun y => y.Domains).flatten = [] := hd
        exact (List.append_eq_nil.mp hd').1
      exact h6 hxip this
    · intro d hd
      have hd' : d ∈ x.Domains ++
          ((rest.filter (hasIP x.IP)).map fun y => y.Domains).flatten := hd
      rcases List.mem_append.mp hd' with h8 | h8
      · exact h7 d h8
      · rw [List.mem_flatten] at h8
        obtain ⟨ds, hds, hdd⟩ := h8
        rw [List.mem_map] at hds
        obtain ⟨y, hy, hyd⟩ := hds
        rw [List.mem_filter] at hy
        have hyL : y ∈ L := by rw [h1]; simp [hy.1]
        have hye := ((hasIP_iff _ _).mp hy.2).1
        rw [← hyd] at hdd
        exact (h y hyL hye).2.2.2 d hdd

theorem Reachable_EntryOK (isIP : Str → Bool) (hf : HostsFile) (h : Reachable isIP hf) :
    ∀ r ∈ hf.Lines, EntryOK isIP r := by
  induction h with
  | parsed t =>
    intro r hr
    rw [load_Lines, List.mem_map] at hr
    obtain ⟨raw, _, e⟩ := hr
    rw [← e]; exact parseLine_EntryOK isIP raw
  | added hf ip domain comment _ ih => exact AddDomain_EntryOK isIP hf ip domain comment ih
  | removed hf domain _ ih => exact RemoveDomain_EntryOK isIP hf domain ih
  | merged hf _ ih =>
    rw [MergeByIP_Lines]
    exact mergeRef_EntryOK isIP hf.Lines ih

/-! ## The `changed` flag -/

theorem filterMap_eq_self (f : HostLine → Option HostLine) (L : List HostLine)
    (h : L.filterMap f = L) : ∀ r ∈ L, f r = some r := by
  induction L with
  | nil => intro r hr; simp at hr
  | cons x xs ih =>
    intro r hr
    cases hfx : f x with
    | none =>
      simp only [List.filterMap_cons, hfx] at h
      have h1 : (xs.filterMap f).length ≤ xs.length := List.length_filterMap_le f xs
      rw [h] at h1
      simp at h1
    | some y =>
      simp only [List.filterMap_cons, hfx, List.cons.injEq] at h
      rcases List.mem_cons.mp hr with e | hm
      · rw [e, hfx, h.1]
      · exact ih h.2 r hm

theorem RemoveDomain_changed_iff (hf : HostsFile) (domain : Str)
    (hne : ∀ r ∈ hf.Lines, r.IsEntry = true → r.IP ≠ [] → r.Domains ≠ []) :
    (RemoveDomain hf domain).2 = true ↔ (RemoveDomain hf domain).1.Lines ≠ hf.Lines := by
  rw [RemoveDomain_changed, RemoveDomain_Lines]
  constructor
  · intro h heq
    rw [List.any_eq_true] at h
    obtain ⟨r, hr, hl⟩ := h
    have h1 := filterMap_eq_self _ _ heq r hr
    have h2 := dropDomain_not_lists _ r r h1
    rw [hl] at h2
    exact Bool.noConfusion h2
  · intro h
    by_contra hn
    have hn' : hf.Lines.any (listsDomain (TrimSpace domain)) = false := by simpa using hn
    rw [List.any_eq_false] at hn'
    apply h
    apply filterMap_dropDomain_of_not_lists _ _ _ hne
    intro r hr
    have := hn' r hr
    simpa using this

theorem length_mergeFrom (L : List HostLine) :
    ∀ seen : List Str, (mergeFrom seen L).length ≤ L.length ∧
      (repeatsIP seen L = true → (mergeFrom seen L).length < L.length) := by
  induction L with
  | nil => intro seen; simp [mergeFrom, repeatsIP]
  | cons x xs ih =>
    intro seen
    by_cases hx : unmerged x = true
    · rw [mergeFrom_cons_unmerged _ _ _ hx, repeatsIP_cons_unmerged _ _ _ hx]
      obtain ⟨h1, h2⟩ := ih seen
      simp only [List.length_cons]
      exact ⟨by omega, fun h => by have := h2 h; omega⟩
    · have hx' : unmerged x = false := by simpa using hx
      by_cases hs : x.IP ∈ seen
      · rw [mergeFrom_cons_seen _ _ _ hx' hs]
        obtain ⟨h1, _⟩ := ih seen
        simp only [List.length_cons]
        exact ⟨by omega, fun _ => by omega⟩
      · rw [mergeFrom_cons_first _ _ _ hx' hs, repeatsIP_cons_first _ _ _ hx' hs]
        obtain ⟨h1, h2⟩ := ih (seen ++ [x.IP])
        simp only [List.length_cons]
        exact ⟨by omega, fun h => by have := h2 h; omega⟩

theorem MergeByIP_changed_iff (hf : HostsFile) :
    (MergeByIP hf).2 = true ↔ (MergeByIP hf).1.Lines ≠ hf.Lines := by
  constructor
  · intro h heq
    rw [MergeByIP_Lines] at heq
    rw [MergeByIP_changed] at h
    have := (length_mergeFrom hf.Lines []).2 h
    have e : (mergeFrom [] hf.Lines).length = hf.Lines.length := by
      have := congrArg List.length heq
      simpa [mergeRef] using this
    omega
  · intro h
    by_contra hn
    have hn' : (MergeByIP hf).2 = false := by simpa using hn
    exact h (by rw [MergeByIP_of_unchanged hf hn'])

theorem AddDomain_changed_iff (isIP : Str → Bool) (hf : HostsFile)
    (ip domain comment : Str) :
    (AddDomain isIP hf ip domain comment).2.1 = true ↔
      (AddDomain isIP hf ip domain comment).1.Lines ≠ hf.Lines := by
  by_cases hd : TrimSpace domain = []
  · have : AddDomain isIP hf ip domain comment = (hf, false, some AddError.emptyDomain) := by
      unfold AddDomain; simp [hd]
    rw [this]; simp
  · by_cases hip : isIP ip = true
    · cases hfl : findLine (listsDomain (TrimSpace domain)) hf.Lines with
      | none =>
        rw [AddDomain_of_absent isIP hf ip domain comment hd hip hfl]
        simp only [true_iff]
        intro heq
        obtain ⟨r, hr, hl, _⟩ :=
          attachDomain_exists hf ip (TrimSpace domain) comment (TrimSpace_idem domain)
        rw [heq] at hr
        have := (findLine_eq_none_iff _ _).mp hfl r hr
        rw [hl] at this
        exact Bool.noConfusion this
      | some x =>
        obtain ⟨i, l⟩ := x
        obtain ⟨hat, hl, _⟩ := (findLine_eq_some_iff _ _ i l).mp hfl
        by_cases hsame : l.IP = ip
        · rw [AddDomain_of_same_IP isIP hf ip domain comment i l hd hip hfl hsame]
          by_cases hc : comment ≠ [] ∧ l.Comment ≠ comment
          · rw [if_pos hc]
            simp only [rebuildIndex_Lines, true_iff]
            intro heq
            have hi : i < hf.Lines.length := by
              by_contra hge
              rw [List.getElem?_eq_none (by omega)] at hat
              cases hat
            have h1 : (hf.Lines.set i { l with Comment := comment })[i]?
                = some { l with Comment := comment } := List.getElem?_set_self hi
            rw [heq, hat] at h1
            have h2 : l.Comment = comment := by
              have := congrArg (fun o => o.map fun r => r.Comment) h1
              simpa using this
            exact hc.2 h2
          · rw [if_neg hc]; simp
        · rw [AddDomain_of_other_IP isIP hf ip domain comment i l hd hip hfl hsame]
          simp only [true_iff]
          intro heq
          have hnone : ∀ r ∈ (RemoveDomain hf (TrimSpace domain)).1.Lines,
              listsDomain (TrimSpace domain) r = false := by
            rw [RemoveDomain_Lines, TrimSpace_idem]
            exact filterMap_dropDomain_not_lists _ _
          have := attachDomain_lists_only _ ip (TrimSpace domain) comment hnone l
            (by rw [heq]; exact List.getElem?_mem hat) hl
          exact hsame this
    · have hip' : isIP ip = false := by simpa using hip
      have : AddDomain isIP hf ip domain comment
          = (hf, false, some (AddError.invalidIP ip)) := by
        unfold AddDomain; simp [hd, hip']
      rw [this]; simp

theorem ToHostsFileString_congr (hf1 hf2 : HostsFile) (h : hf1.Lines = hf2.Lines) :
    ToHostsFileString hf1 = ToHostsFileString hf2 := by
  rw [ToHostsFileString_eq, ToHostsFileString_eq, h]

/-! ## Lemmas on the lookup maps -/

theorem rebuildIndex_eq (hf : HostsFile) :
    rebuildIndex hf =
      { Lines := hf.Lines,
        ByIP := (hf.Lines.enum.foldl indexStep (mapEmpty, mapEmpty)).1,
        ByDomain := (hf.Lines.enum.foldl indexStep (mapEmpty, mapEmpty)).2 } := rfl

theorem foldl_mapSet_trim (ds : List Str) (n : Nat) (key : Str) :
    ∀ m0 : Str → Option Nat,
      (ds.foldl (fun m d => mapSet m (TrimSpace d) n) m0) key
        = if ds.any (fun d => TrimSpace d == key) then some n else m0 key := by
  induction ds with
  | nil => intro m0; simp
  | cons d ds ih =>
    intro m0
    rw [List.foldl_cons, ih]
    by_cases h1 : ds.any (fun d => TrimSpace d == key) = true
    · simp [h1]
    · by_cases h2 : TrimSpace d = key
      · simp [h1, h2, mapSet]
      · have h3 : ¬ key = TrimSpace d := fun e => h2 e.symm
        simp [h1, h2, h3, mapSet]

theorem foldl_mapSet_plain (ds : List Str) (n : Nat) (key : Str) :
    ∀ m0 : Str → Option Nat,
      (ds.foldl (fun m d => mapSet m d n) m0) key
        = if ds.any (fun d => d == key) then some n else m0 key := by
  induction ds with
  | nil => intro m0; simp
  | cons d ds ih =>
    intro m0
    rw [List.foldl_cons, ih]
    by_cases h1 : ds.any (fun d => d == key) = true
    · simp [h1]
    · by_cases h2 : d = key
      · simp [h1, h2, mapSet]
      · have h3 : ¬ key = d := fun e => h2 e.symm
        simp [h1, h2, h3, mapSet]

theorem indexStep_ByIP (acc : (Str → Option Nat) × (Str → Option Nat)) (n : Nat)
    (l : HostLine) (ip : Str) :
    (indexStep acc (n, l)).1 ip = if hasIP ip l then some n else acc.1 ip := by
  unfold indexStep hasIP
  by_cases he : l.IsEntry = true
  · by_cases hip : l.IP = ip
    · simp [he, hip, mapSet]
    · have h3 : ¬ ip = l.IP := fun e => hip e.symm
      simp [he, hip, h3, mapSet]
  · simp [he]

theorem indexStep_ByDomain (acc : (Str → Option Nat) × (Str → Option Nat)) (n : Nat)
    (l : HostLine) (key : Str) :
    (indexStep acc (n, l)).2 key = if listsDomain key l then some n else acc.2 key := by
  unfold indexStep listsDomain
  by_cases he : l.IsEntry = true
  · simp only [he, if_true, Bool.true_and]
    exact foldl_mapSet_trim _ _ _ _
  · simp [he]

theorem lastPos_cons (p : HostLine → Bool) (l : HostLine) (ls : List HostLine) :
    lastPos p (l :: ls) =
      match lastPos p ls with
      | some k => some (k + 1)
      | none => if p l then some 0 else none := rfl

theorem foldl_indexStep (L : List HostLine) :
    ∀ (n : Nat) (acc : (Str → Option Nat) × (Str → Option Nat)),
      (∀ ip, ((L.enumFrom n).foldl indexStep acc).1 ip =
        match lastPos (hasIP ip) L with
        | some k => some (n + k)
        | none => acc.1 ip) ∧
      (∀ key, ((L.enumFrom n).foldl indexStep acc).2 key =
        match lastPos (listsDomain key) L with
        | some k => some (n + k)
        | none => acc.2 key) := by
  induction L with
  | nil => intro n acc; simp [lastPos]
  | cons l ls ih =>
    intro n acc
    obtain ⟨h1, h2⟩ := ih (n + 1) (indexStep acc (n, l))
    simp only [List.enumFrom_cons, List.foldl_cons]
    constructor
    · intro ip
      rw [h1 ip, lastPos_cons]
      cases lastPos (hasIP ip) ls with
      | some k => simp only []; congr 1; omega
      | none =>
        simp only [indexStep_ByIP]
        split_ifs <;> rfl
    · intro key
      rw [h2 key, lastPos_cons]
      cases lastPos (listsDomain key) ls with
      | some k => simp only []; congr 1; omega
      | none =>
        simp only [indexStep_ByDomain]
        split_ifs <;> rfl

theorem Indexed_rebuildIndex (hf : HostsFile) : Indexed (rebuildIndex hf) := by
  obtain ⟨h1, h2⟩ := foldl_indexStep hf.Lines 0 (mapEmpty, mapEmpty)
  rw [rebuildIndex_eq]
  constructor
  · intro ip
    have := h1 ip
    simp only [List.enum] at this ⊢
    rw [this]
    cases lastPos (hasIP ip) hf.Lines with
    | some k => simp
    | none => rfl
  · intro key
    have := h2 key
    simp only [List.enum] at this ⊢
    rw [this]
    cases lastPos (listsDomain key) hf.Lines with
    | some k => simp
    | none => rfl

theorem Indexed_iff_rebuild (hf : HostsFile) :
    Indexed hf ↔
      hf.ByIP = (rebuildIndex hf).ByIP ∧ hf.ByDomain = (rebuildIndex hf).ByDomain := by
  obtain ⟨h1, h2⟩ := Indexed_rebuildIndex hf
  simp only [rebuildIndex_Lines] at h1 h2
  constructor
  · rintro ⟨h3, h4⟩
    exact ⟨funext fun ip => by rw [h3, h1], funext fun d => by rw [h4, h2]⟩
  · rintro ⟨h3, h4⟩
    exact ⟨fun ip => by rw [h3, h1], fun d => by rw [h4, h2]⟩

theorem lastPos_append_singleton (p : HostLine → Bool) (L : List HostLine) (e : HostLine) :
    lastPos p (L ++ [e]) = if p e then some L.length else lastPos p L := by
  induction L with
  | nil => simp [lastPos]
  | cons l ls ih =>
    rw [List.cons_append, lastPos_cons, ih, lastPos_cons]
    by_cases hp : p e = true
    · simp [hp]
    · simp only [hp, Bool.false_eq_true, if_false]

theorem lastPos_congr (p q : HostLine → Bool) (L : List HostLine)
    (h : ∀ r ∈ L, p r = q r) : lastPos p L = lastPos q L := by
  induction L with
  | nil => rfl
  | cons l ls ih =>
    rw [lastPos_cons, lastPos_cons, ih (fun r hr => h r (List.mem_cons_of_mem _ hr)),
      h l (List.mem_cons_self _ _)]

theorem lastPos_eq_none_iff (p : HostLine → Bool) (L : List HostLine) :
    lastPos p L = none ↔ ∀ r ∈ L, p r = false := by
  induction L with
  | nil => simp [lastPos]
  | cons l ls ih =>
    rw [lastPos_cons]
    cases h : lastPos p ls with
    | some k =>
      simp only [false_iff, reduceCtorEq]
      intro hall
      have := ih.mpr (fun r hr => hall r (List.mem_cons_of_mem _ hr))
      rw [h] at this
      cases this
    | none =>
      have hls := ih.mp h
      by_cases hp : p l = true
      · simp only [hp, if_true, false_iff, reduceCtorEq]
        intro hall
        have := hall l (List.mem_cons_self _ _)
        rw [hp] at this
        exact Bool.noConfusion this
      · have hp' : p l = false := by simpa using hp
        simp only [hp', Bool.false_eq_true, if_false, true_iff]
        intro r hr
        rcases List.mem_cons.mp hr with e | hm
        · rw [e]; exact hp'
        · exact hls r hm

theorem lastPos_eq_some (p : HostLine → Bool) (L : List HostLine) :
    ∀ i : Nat, lastPos p L = some i →
      ∃ r, L[i]? = some r ∧ p r = true ∧
        ∀ j r', i < j → L[j]? = some r' → p r' = false := by
  induction L with
  | nil => intro i h; simp [lastPos] at h
  | cons l ls ih =>
    intro i h
    rw [lastPos_cons] at h
    cases hl : lastPos p ls with
    | some k =>
      rw [hl] at h
      have hi : i = k + 1 := by simpa using h.symm
      obtain ⟨r, h1, h2, h3⟩ := ih k hl
      refine ⟨r, by rw [hi]; simpa using h1, h2, ?_⟩
      intro j r' hj hr'
      cases j with
      | zero => omega
      | succ j' => exact h3 j' r' (by omega) (by simpa using hr')
    | none =>
      rw [hl] at h
      by_cases hp : p l = true
      · rw [if_pos hp] at h
        have hi : i = 0 := by simpa using h.symm
        refine ⟨l, by rw [hi]; simp, hp, ?_⟩
        intro j r' hj hr'
        cases j with
        | zero => omega
        | succ j' =>
          exact (lastPos_eq_none_iff p ls).mp hl r' (List.getElem?_mem (by simpa using hr'))
      · rw [if_neg hp] at h
        cases h

theorem hasIP_of_not_entry (ip : Str) (r : HostLine) (h : r.IsEntry = false) :
    hasIP ip r = false := by simp [hasIP, h]

theorem listsDomain_of_not_entry (d : Str) (r : HostLine) (h : r.IsEntry = false) :
    listsDomain d r = false := by simp [listsDomain, h]

theorem Indexed_loadStep (isIP : Str → Bool) (hf : HostsFile) (raw : Str)
    (h : Indexed hf) : Indexed (loadStep isIP hf raw) := by
  obtain ⟨h1, h2⟩ := h
  unfold loadStep
  simp only []
  by_cases he : (parseLine isIP raw).IsEntry = true
  · rw [if_pos he]
    have hlen : (hf.Lines ++ [parseLine isIP raw]).length - 1 = hf.Lines.length := by simp
    have htrim := (parseLine_EntryOK isIP raw he).2.2.2
    constructor
    · intro ip
      show mapSet hf.ByIP (parseLine isIP raw).IP _ ip = _
      rw [lastPos_append_singleton, hlen, ← h1 ip]
      unfold hasIP mapSet
      by_cases hip : (parseLine isIP raw).IP = ip
      · simp [he, hip]
      · have h3 : ¬ ip = (parseLine isIP raw).IP := fun e => hip e.symm
        simp [he, hip, h3]
    · intro d
      show ((parseLine isIP raw).Domains.foldl _ hf.ByDomain) d = _
      rw [lastPos_append_singleton, hlen, foldl_mapSet_plain, ← h2 d]
      have hany : (parseLine isIP raw).Domains.any (fun x => x == d)
          = listsDomain d (parseLine isIP raw) := by
        unfold listsDomain
        rw [he, Bool.true_and]
        apply Bool.eq_iff_iff.mpr
        rw [List.any_eq_true, List.any_eq_true]
        constructor
        · rintro ⟨x, hx, hxd⟩
          exact ⟨x, hx, by rw [htrim x hx]; exact hxd⟩
        · rintro ⟨x, hx, hxd⟩
          exact ⟨x, hx, by rw [htrim x hx] at hxd; exact hxd⟩
      rw [hany]
  · have he' : (parseLine isIP raw).IsEntry = false := by simpa using he
    rw [if_neg he]
    constructor
    · intro ip
      show hf.ByIP ip = _
      rw [lastPos_append_singleton, hasIP_of_not_entry ip _ he', h1 ip]
      simp
    · intro d
      show hf.ByDomain d = _
      rw [lastPos_append_singleton, listsDomain_of_not_entry d _ he', h2 d]
      simp

theorem Indexed_foldl_loadStep (isIP : Str → Bool) (raws : List Str) :
    ∀ hf : HostsFile, Indexed hf → Indexed (raws.foldl (loadStep isIP) hf) := by
  induction raws with
  | nil => intro hf h; exact h
  | cons raw rest ih =>
    intro hf h
    exact ih _ (Indexed_loadStep isIP hf raw h)

theorem Indexed_load (isIP : Str → Bool) (t : Str) : Indexed (load isIP t) := by
  have h0 : Indexed { Lines := [], ByIP := mapEmpty, ByDomain := mapEmpty } :=
    ⟨fun _ => rfl, fun _ => rfl⟩
  exact Indexed_foldl_loadStep isIP (Split t '\n') _ h0

theorem attachDomain_eq_rebuild (hf : HostsFile) (ip domain comment : Str) :
    ∃ X : HostsFile, attachDomain hf ip domain comment = rebuildIndex X := by
  unfold attachDomain
  cases findLine (fun l => l.IsEntry && l.IP == ip) hf.Lines with
  | none => exact ⟨_, rfl⟩
  | some x =>
    obtain ⟨i, l⟩ := x
    exact ⟨_, rfl⟩

theorem RemoveDomain_eq_rebuild (hf : HostsFile) (domain : Str)
    (h : (RemoveDomain hf domain).2 = true) :
    ∃ X : HostsFile, (RemoveDomain hf domain).1 = rebuildIndex X := by
  unfold RemoveDomain at h ⊢
  simp only [] at h ⊢
  by_cases hc : (removeLoop (TrimSpace domain) (hf.Lines.length + 1) 0 hf.Lines false).2 = true
  · rw [if_pos hc]
    exact ⟨_, rfl⟩
  · rw [if_neg hc] at h
    exact Bool.noConfusion h

theorem Reachable_Indexed (isIP : Str → Bool) (hf : HostsFile) (h : Reachable isIP hf) :
    Indexed hf := by
  induction h with
  | parsed t => exact Indexed_load isIP t
  | added hf ip domain comment _ ih =>
    rcases AddDomain_cases isIP hf ip domain comment with h1 | ⟨i, l, _, _, _, _, h1⟩ |
      ⟨_, _, hf1, _, _, h1⟩
    · rw [h1]; exact ih
    · rw [h1]; exact Indexed_rebuildIndex _
    · rw [h1]
      obtain ⟨X, hX⟩ := attachDomain_eq_rebuild hf1 ip (TrimSpace domain) comment
      simp only [hX]
      exact Indexed_rebuildIndex X
  | removed hf domain hr ih =>
    by_cases hc : (RemoveDomain hf domain).2 = true
    · obtain ⟨X, hX⟩ := RemoveDomain_eq_rebuild hf domain hc
      rw [hX]; exact Indexed_rebuildIndex X
    · have hc' : (RemoveDomain hf domain).2 = false := by simpa using hc
      have hne : ∀ r ∈ hf.Lines, r.IsEntry = true → r.IP ≠ [] → r.Domains ≠ [] :=
        fun r hr' he => (Reachable_EntryOK isIP hf hr r hr' he).2.2.1
      have hl : (RemoveDomain hf domain).1.Lines = hf.Lines := by
        by_contra hdiff
        exact hc ((RemoveDomain_changed_iff hf domain hne).mpr hdiff)
      rw [RemoveDomain_of_unchanged hf domain hc', hl]
      exact ih
  | merged hf _ ih =>
    by_cases hc : (MergeByIP hf).2 = true
    · rw [MergeByIP_of_changed hf hc]; exact Indexed_rebuildIndex _
    · have hc' : (MergeByIP hf).2 = false := by simpa using hc
      rw [MergeByIP_of_unchanged hf hc']; exact ih

/-! ## Lemmas on domain exclusivity -/

theorem shareNoDomain_symm (a b : HostLine) (h : shareNoDomain a b) : shareNoDomain b a := by
  intro hb ha d hdb hda
  exact h ha hb d hda hdb

theorem shareNoDomain_of_sub_left (a a2 b : HostLine) (h : shareNoDomain a b)
    (he : a2.IsEntry = true → a.IsEntry = true) (hd : ∀ d ∈ a2.Domains, d ∈ a.Domains) :
    shareNoDomain a2 b := by
  intro ha2 hb d hda hdb
  exact h (he ha2) hb d (hd d hda) hdb

theorem shareNoDomain_of_sub_right (a b b2 : HostLine) (h : shareNoDomain a b)
    (he : b2.IsEntry = true → b.IsEntry = true) (hd : ∀ d ∈ b2.Domains, d ∈ b.Domains) :
    shareNoDomain a b2 := by
  intro ha hb2 d hda hdb
  exact h ha (he hb2) d hda (hd d hdb)

theorem dropDomain_sub (domain : Str) (a b : HostLine) (h : dropDomain domain a = some b) :
    (b.IsEntry = true → a.IsEntry = true) ∧ ∀ d ∈ b.Domains, d ∈ a.Domains := by
  unfold dropDomain at h
  by_cases he : a.IsEntry = true
  · rw [if_pos he] at h
    by_cases h1 : a.Domains.filter (fun d => TrimSpace d != domain) = [] ∧ a.IP ≠ []
    · rw [if_pos h1] at h; cases h
    · rw [if_neg h1] at h
      have e : b = { a with Domains := a.Domains.filter (fun d => TrimSpace d != domain) } := by
        simpa using h.symm
      rw [e]
      exact ⟨fun _ => he, fun d hd => List.mem_of_mem_filter hd⟩
  · rw [if_neg he] at h
    have e : b = a := by simpa using h.symm
    rw [e]
    exact ⟨fun x => x, fun d hd => hd⟩

theorem Exclusive_filterMap_dropDomain (domain : Str) (L : List HostLine)
    (h : Exclusive L) : Exclusive (L.filterMap (dropDomain domain)) := by
  unfold Exclusive at h ⊢
  apply List.Pairwise.filterMap (dropDomain domain) _ h
  intro a a' hR b hb b' hb'
  have h1 := dropDomain_sub domain a b (by simpa using hb)
  have h2 := dropDomain_sub domain a' b' (by simpa using hb')
  exact shareNoDomain_of_sub_right _ _ _
    (shareNoDomain_of_sub_left _ _ _ hR h1.1 h1.2) h2.1 h2.2

theorem Pairwise_set (R : HostLine → HostLine → Prop) (L : List HostLine) :
    ∀ (i : Nat) (l l2 : HostLine), L.Pairwise R → L[i]? = some l →
      (∀ a ∈ L, R a l → R a l2) → (∀ b ∈ L, R l b → R l2 b) →
      (L.set i l2).Pairwise R := by
  induction L with
  | nil => intro i l l2 _ h; simp at h
  | cons x xs ih =>
    intro i l l2 hp hat h1 h2
    rw [List.pairwise_cons] at hp
    cases i with
    | zero =>
      have e : x = l := by simpa using hat
      subst e
      rw [List.set_cons_zero, List.pairwise_cons]
      exact ⟨fun b hb => h2 b (List.mem_cons_of_mem _ hb) (hp.1 b hb), hp.2⟩
    | succ k =>
      have hat' : xs[k]? = some l := by simpa using hat
      rw [List.set_cons_succ, List.pairwise_cons]
      refine ⟨?_, ih k l l2 hp.2 hat' (fun a ha => h1 a (List.mem_cons_of_mem _ ha))
        (fun b hb => h2 b (List.mem_cons_of_mem _ hb))⟩
      intro b hb
      rcases List.mem_or_eq_of_mem_set hb with h3 | h3
      · exact hp.1 b h3
      · rw [h3]
        exact h1 x (List.mem_cons_self _ _) (hp.1 l (List.getElem?_mem hat'))

theorem not_mem_of_not_lists (domain : Str) (r : HostLine) (ht : TrimSpace domain = domain)
    (h : listsDomain domain r = false) (he : r.IsEntry = true) : domain ∉ r.Domains := by
  intro hm
  have : listsDomain domain r = true := by
    simp only [listsDomain, he, Bool.true_and, List.any_eq_true]
    exact ⟨domain, hm, by simpa using ht⟩
  rw [h] at this
  exact Bool.noConfusion this

theorem Exclusive_attachDomain (hf : HostsFile) (ip domain comment : Str)
    (h : Exclusive hf.Lines) (ht : TrimSpace domain = domain)
    (hno : ∀ r ∈ hf.Lines, listsDomain domain r = false) :
    Exclusive (attachDomain hf ip domain comment).Lines := by
  cases hfl : findLine (fun l => l.IsEntry && l.IP == ip) hf.Lines with
  | none =>
    rw [attachDomain_of_not_found hf ip domain comment hfl]
    unfold Exclusive at h ⊢
    rw [List.pairwise_append]
    refine ⟨h, List.pairwise_singleton _ _, ?_⟩
    intro a ha b hb
    have e : b = _ := List.mem_singleton.mp hb
    rw [e]
    intro hae _ d hda hdb
    have hd : d = domain := by simpa using hdb
    rw [hd] at hda
    exact not_mem_of_not_lists domain a ht (hno a ha) hae hda
  | some x =>
    obtain ⟨i, l⟩ := x
    rw [attachDomain_of_found hf ip domain comment i l hfl]
    obtain ⟨hat, _, _⟩ := (findLine_eq_some_iff _ _ i l).mp hfl
    apply Pairwise_set shareNoDomain hf.Lines i l _ h hat
    · intro a ha hR hae _ d hda hdl
      have hdl' : d ∈ l.Domains ++ [domain] := hdl
      rcases List.mem_append.mp hdl' with h1 | h1
      · exact hR hae (by assumption) d hda h1
      · have hd : d = domain := by simpa using h1
        rw [hd] at hda
        exact not_mem_of_not_lists domain a ht (hno a ha) hae hda
    · intro b hb hR _ hbe d hdl hdb
      have hdl' : d ∈ l.Domains ++ [domain] := hdl
      rcases List.mem_append.mp hdl' with h1 | h1
      · exact hR (by assumption) hbe d h1 hdb
      · have hd : d = domain := by simpa using h1
        rw [hd] at hdb
        exact not_mem_of_not_lists domain b ht (hno b hb) hbe hdb

theorem Exclusive_AddDomain (isIP : Str → Bool) (hf : HostsFile) (ip domain comment : Str)
    (h : Exclusive hf.Lines) : Exclusive (AddDomain isIP hf ip domain comment).1.Lines := by
  rcases AddDomain_cases isIP hf ip domain comment with h1 | ⟨i, l, hat, _, _, _, h1⟩ |
    ⟨_, _, hf1, hf1c, hno, h1⟩
  · rw [h1]; exact h
  · rw [h1]
    simp only [rebuildIndex_Lines]
    apply Pairwise_set shareNoDomain hf.Lines i l _ h hat
    · intro a _ hR; exact hR
    · intro b _ hR; exact hR
  · rw [h1]
    apply Exclusive_attachDomain hf1 ip _ comment _ (TrimSpace_idem domain) hno
    rcases hf1c with e | e
    · rw [e]; exact h
    · rw [e, RemoveDomain_Lines]
      exact Exclusive_filterMap_dropDomain _ _ h

/-- Every domain of an entry of the merged sequence comes from an entry of
the original sequence whose address, if it has one, was not seen. -/
theorem mergeFrom_domain_source (L : List HostLine) (seen : List Str) (b : HostLine)
    (hb : b ∈ mergeFrom seen L) (hbe : b.IsEntry = true) (d : Str) (hd : d ∈ b.Domains) :
    ∃ y ∈ L, y.IsEntry = true ∧ d ∈ y.Domains ∧ (unmerged y = false → y.IP ∉ seen) := by
  by_cases hbu : unmerged b = true
  · refine ⟨b, mem_mergeFrom_unmerged L seen b hb hbu, hbe, hd, ?_⟩
    intro hf
    rw [hbu] at hf
    exact Bool.noConfusion hf
  · have hbu' : unmerged b = false := by simpa using hbu
    obtain ⟨pre, x, rest, h1, h2, h3, h4, _⟩ := mem_mergeFrom L seen b hb hbu'
    rw [h2] at hd
    have hd' : d ∈ x.Domains ++
        ((rest.filter (hasIP x.IP)).map fun y => y.Domains).flatten := hd
    rcases List.mem_append.mp hd' with h5 | h5
    · exact ⟨x, by rw [h1]; simp, (unmerged_IP_ne_nil x h3).1, h5, fun _ => h4⟩
    · rw [List.mem_flatten] at h5
      obtain ⟨ds, hds, hdd⟩ := h5
      rw [List.mem_map] at hds
      obtain ⟨y, hy, hyd⟩ := hds
      rw [List.mem_filter] at hy
      have hyi := (hasIP_iff _ _).mp hy.2
      rw [← hyd] at hdd
      refine ⟨y, by rw [h1]; simp [hy.1], hyi.1, hdd, ?_⟩
      intro _
      rw [hyi.2]; exact h4

theorem Exclusive_mergeFrom (L : List HostLine) :
    ∀ seen : List Str, Exclusive L → Exclusive (mergeFrom seen L) := by
  induction L with
  | nil => intro seen _; simp [mergeFrom, Exclusive]
  | cons x xs ih =>
    intro seen h
    unfold Exclusive at h
    rw [List.pairwise_cons] at h
    obtain ⟨hx1, hx2⟩ := h
    by_cases hx : unmerged x = true
    · rw [mergeFrom_cons_unmerged _ _ _ hx]
      unfold Exclusive
      rw [List.pairwise_cons]
      refine ⟨?_, ih seen hx2⟩
      intro b hb hxe hbe d hdx hdb
      obtain ⟨y, hy, hye, hdy, _⟩ := mergeFrom_domain_source xs seen b hb hbe d hdb
      exact hx1 y hy hxe hye d hdx hdy
    · have hx' : unmerged x = false := by simpa using hx
      by_cases hs : x.IP ∈ seen
      · rw [mergeFrom_cons_seen _ _ _ hx' hs]
        exact ih seen hx2
      · rw [mergeFrom_cons_first _ _ _ hx' hs]
        unfold Exclusive
        rw [List.pairwise_cons]
        refine ⟨?_, ih _ hx2⟩
        intro b hb _ hbe d hda hdb
        obtain ⟨y, hy, hye, hdy, hyseen⟩ :=
          mergeFrom_domain_source xs (seen ++ [x.IP]) b hb hbe d hdb
        have hynot : hasIP x.IP y = false := by
          rw [Bool.eq_false_iff]
          intro hh
          have hyi := (hasIP_iff _ _).mp hh
          have hyu : unmerged y = false := by
            have := unmerged_IP_ne_nil x hx'
            unfold unmerged
            simp [hyi.1, hyi.2, this.2]
          exact hyseen hyu (by rw [hyi.2]; simp)
        have hda' : d ∈ x.Domains ++
            ((xs.filter (hasIP x.IP)).map fun y => y.Domains).flatten := hda
        rcases List.mem_append.mp hda' with h5 | h5
        · exact hx1 y hy (unmerged_IP_ne_nil x hx').1 hye d h5 hdy
        · rw [List.mem_flatten] at h5
          obtain ⟨ds, hds, hdd⟩ := h5
          rw [List.mem_map] at hds
          obtain ⟨z, hz, hzd⟩ := hds
          rw [List.mem_filter] at hz
          rw [← hzd] at hdd
          have hzy : z ≠ y := by
            intro e
            rw [e, hynot] at hz
            exact Bool.noConfusion hz.2
          have hsym : Symmetric shareNoDomain := fun a b hab => shareNoDomain_symm a b hab
          have := List.Pairwise.forall hsym hx2 hz.1 hy hzy
          exact this ((hasIP_iff _ _).mp hz.2).1 hye d hdd hdy

theorem Exclusive_MergeByIP (hf : HostsFile) (h : Exclusive hf.Lines) :
    Exclusive (MergeByIP hf).1.Lines := by
  rw [MergeByIP_Lines]
  exact Exclusive_mergeFrom hf.Lines [] h

/-! ## Re-parsing a mutated collection -/

theorem Printable_parseLine (isIP : Str → Bool) (raw : Str) (hnl : '\n' ∉ raw) :
    Printable isIP (parseLine isIP raw) := by
  refine ⟨fun _ => ⟨raw, hnl, rfl⟩, ?_⟩
  intro he
  obtain ⟨h1, h2, h3⟩ := parseLine_entry_cases isIP raw he
  have hfield : ∀ f ∈ Fields (textBeforeHash raw), fieldLike f := by
    intro f hf
    obtain ⟨h4, h5, h6⟩ := Fields_mem _ f hf
    exact ⟨h4, h5, fun hm => (textBeforeHash_mem raw _ (h6 _ hm)).1 rfl⟩
  rw [h3]
  refine ⟨rfl, hfield _ (Fields_headD_mem _ (by omega)), h2, ?_, ?_, Trimmed_TrimSpace _, ?_⟩
  · intro hd
    have : ((Fields (textBeforeHash raw)).drop 1).length = 0 := by
      rw [show (Fields (textBeforeHash raw)).drop 1 = [] from hd]; rfl
    rw [List.length_drop] at this
    omega
  · intro d hd
    exact hfield d (List.mem_of_mem_drop hd)
  · intro hm
    exact hnl (textAfterHash_subset raw _ hm)

theorem Printable_dropDomain (isIP : Str → Bool) (domain : Str) (r r' : HostLine)
    (hr : Printable isIP r) (h : dropDomain domain r = some r') : Printable isIP r' := by
  unfold dropDomain at h
  by_cases hre : r.IsEntry = true
  · rw [if_pos hre] at h
    by_cases h1 : r.Domains.filter (fun d => TrimSpace d != domain) = [] ∧ r.IP ≠ []
    · rw [if_pos h1] at h; cases h
    · rw [if_neg h1] at h
      have e : r' = { r with Domains := r.Domains.filter (fun d => TrimSpace d != domain) } := by
        simpa using h.symm
      obtain ⟨h2, h3, h4, _, h6, h7, h8⟩ := hr.2 hre
      rw [e]
      refine ⟨fun hne => ?_, fun _ => ⟨h2, h3, h4, ?_, ?_, h7, h8⟩⟩
      · rw [show ({ r with Domains := r.Domains.filter (fun d => TrimSpace d != domain) }
            : HostLine).IsEntry = r.IsEntry from rfl, hre] at hne
        exact Bool.noConfusion hne
      · intro hd
        exact h1 ⟨hd, h3.1⟩
      · intro d hd
        exact h6 d (List.mem_of_mem_filter hd)
  · rw [if_neg hre] at h
    have e : r' = r := by simpa using h.symm
    rw [e]; exact hr

theorem Printable_attachDomain (isIP : Str → Bool) (hf : HostsFile) (ip domain comment : Str)
    (h : ∀ r ∈ hf.Lines, Printable isIP r) (hip : isIP ip = true) (hipf : fieldLike ip)
    (hd : fieldLike domain) (hc : Trimmed comment) (hcn : '\n' ∉ comment) :
    ∀ r ∈ (attachDomain hf ip domain comment).Lines, Printable isIP r := by
  intro r hr
  cases hfl : findLine (fun l => l.IsEntry && l.IP == ip) hf.Lines with
  | none =>
    rw [attachDomain_of_not_found hf ip domain comment hfl] at hr
    rcases List.mem_append.mp hr with h1 | h1
    · exact h r h1
    · have e : r = _ := List.mem_singleton.mp h1
      rw [e]
      refine ⟨fun hne => Bool.noConfusion hne, fun _ => ⟨rfl, hipf, hip, by simp, ?_, hc, hcn⟩⟩
      intro d hdm
      have : d = domain := by simpa using hdm
      rw [this]; exact hd
  | some x =>
    obtain ⟨i, l⟩ := x
    rw [attachDomain_of_found hf ip domain comment i l hfl] at hr
    obtain ⟨hat, hp, _⟩ := (findLine_eq_some_iff _ _ i l).mp hfl
    have hp' : l.IsEntry = true ∧ l.IP = ip := by simpa using hp
    rcases List.mem_or_eq_of_mem_set hr with h1 | h1
    · exact h r h1
    · obtain ⟨h2, h3, h4, _, h6, h7, h8⟩ := (h l (List.getElem?_mem hat)).2 hp'.1
      rw [h1]
      refine ⟨fun hne => ?_, fun _ => ⟨h2, h3, h4, by simp, ?_, ?_, ?_⟩⟩
      · have hne' : l.IsEntry = false := hne
        rw [hp'.1] at hne'
        exact Bool.noConfusion hne'
      · intro d hdm
        rcases List.mem_append.mp hdm with h9 | h9
        · exact h6 d h9
        · have : d = domain := by simpa using h9
          rw [this]; exact hd
      · show Trimmed (if comment ≠ [] ∧ l.Comment ≠ comment then comment else l.Comment)
        split_ifs
        · exact hc
        · exact h7
      · show '\n' ∉ (if comment ≠ [] ∧ l.Comment ≠ comment then comment else l.Comment)
        split_ifs
        · exact hcn
        · exact h8

theorem Printable_AddDomain (isIP : Str → Bool) (hf : HostsFile) (ip domain comment : Str)
    (h : ∀ r ∈ hf.Lines, Printable isIP r) (hipf : fieldLike ip)
    (hd : ∀ c ∈ TrimSpace domain, isSpace c = false ∧ c ≠ '#')
    (hc : Trimmed comment) (hcn : '\n' ∉ comment) :
    ∀ r ∈ (AddDomain isIP hf ip domain comment).1.Lines, Printable isIP r := by
  rcases AddDomain_cases isIP hf ip domain comment with h1 | ⟨i, l, hat, hl, _, _, h1⟩ |
    ⟨hip, hdne, hf1, hf1c, _, h1⟩
  · rw [h1]; exact h
  · rw [h1]
    intro r hr
    simp only [rebuildIndex_Lines] at hr
    rcases List.mem_or_eq_of_mem_set hr with h2 | h2
    · exact h r h2
    · have hle : l.IsEntry = true := by
        unfold listsDomain at hl
        cases hle : l.IsEntry with
        | true => rfl
        | false => rw [hle] at hl; simp at hl
      obtain ⟨h3, h4, h5, h6, h7, _, _⟩ := (h l (List.getElem?_mem hat)).2 hle
      rw [h2]
      refine ⟨fun hne => ?_, fun _ => ⟨h3, h4, h5, h6, h7, hc, hcn⟩⟩
      have hne' : l.IsEntry = false := hne
      rw [hle] at hne'
      exact Bool.noConfusion hne'
  · rw [h1]
    have hdf : fieldLike (TrimSpace domain) :=
      ⟨hdne, fun c hcm => (hd c hcm).1, fun hm => (hd _ hm).2 rfl⟩
    apply Printable_attachDomain isIP hf1 ip _ comment _ hip hipf hdf hc hcn
    rcases hf1c with e | e
    · rw [e]; exact h
    · rw [e]
      intro r hr
      rw [RemoveDomain_Lines, List.mem_filterMap] at hr
      obtain ⟨r0, hr0, hdd⟩ := hr
      exact Printable_dropDomain isIP _ r0 r (h r0 hr0) hdd

theorem lineString_of_entry (r : HostLine) (hb : r.IsBlank = false) (he : r.IsEntry = true)
    (hd : r.Domains ≠ []) (hc : TrimSpace r.Comment = r.Comment) :
    lineString r =
      (Join (r.IP :: r.Domains) [' '] ++
        (if r.Comment ≠ [] then " # ".toList ++ r.Comment else [])) ++ ['\n'] := by
  have hsp : " ".toList = [' '] := rfl
  have hlen : r.Domains.length > 0 := List.length_pos.mpr hd
  unfold lineString
  rw [if_neg (by rw [hb]; exact Bool.false_ne_true), if_neg (by simp [he]), if_pos hlen,
    hc, Join_cons_of_ne_nil _ _ _ hd, hsp]
  simp only [List.append_assoc]

theorem Printable_reparse (isIP : Str → Bool) (r : HostLine) (h : Printable isIP r) :
    ∃ body : Str, lineString r = body ++ ['\n'] ∧ '\n' ∉ body ∧
      content (parseLine isIP body) = content r := by
  by_cases he : r.IsEntry = true
  · obtain ⟨h1, h2, h3, h4, h5, h6, h7⟩ := h.2 he
    have hfs : ∀ f ∈ r.IP :: r.Domains,
        f ≠ [] ∧ (∀ x ∈ f, isSpace x = false) ∧ '#' ∉ f := by
      intro f hf
      rcases List.mem_cons.mp hf with e | hm
      · rw [e]; exact h2
      · exact h5 f hm
    have hFJ : Fields (Join (r.IP :: r.Domains) [' ']) = r.IP :: r.Domains :=
      Fields_Join _ (fun f hf => ⟨(hfs f hf).1, (hfs f hf).2.1⟩)
    refine ⟨Join (r.IP :: r.Domains) [' '] ++
      (if r.Comment ≠ [] then " # ".toList ++ r.Comment else []), ?_, ?_, ?_⟩
    · exact lineString_of_entry r h1 he h4 (TrimSpace_of_Trimmed _ h6)
    · intro hm
      rcases List.mem_append.mp hm with h8 | h8
      · rcases mem_Join _ _ _ h8 with h9 | ⟨f, hf, h9⟩
        · simp at h9
        · have := (hfs f hf).2.1 _ h9
          rw [newline_is_space] at this
          exact Bool.noConfusion this
      · split_ifs at h8
        · rcases List.mem_append.mp h8 with h9 | h9
          · revert h9; decide
          · exact h7 h9
        · simp at h8
    · rw [parseLine_entry_text isIP _ _ (List.cons_ne_nil _ _) hfs h6]
      unfold fieldsRecord
      rw [hFJ]
      have hlen : 2 ≤ (r.IP :: r.Domains).length := by
        have : r.Domains.length > 0 := List.length_pos.mpr h4
        simp only [List.length_cons]; omega
      rw [if_pos ⟨hlen, by simpa using h3⟩]
      simp [content, h1, he]
  · have he' : r.IsEntry = false := by simpa using he
    obtain ⟨raw, hnl, e⟩ := h.1 he'
    rw [e]
    exact lineString_reparse isIP raw hnl

theorem Printable_lines_reparse (isIP : Str → Bool) (L : List HostLine)
    (h : ∀ r ∈ L, Printable isIP r) :
    ∃ bodies : List Str,
      (L.map lineString).flatten = (bodies.map fun b => b ++ ['\n']).flatten ∧
      (∀ b ∈ bodies, '\n' ∉ b) ∧
      (bodies.map (parseLine isIP)).map content = L.map content := by
  induction L with
  | nil => exact ⟨[], rfl, by simp, rfl⟩
  | cons r rest ih =>
    obtain ⟨bodies, h1, h2, h3⟩ := ih (fun x hx => h x (List.mem_cons_of_mem _ hx))
    obtain ⟨body, hb1, hb2, hb3⟩ := Printable_reparse isIP r (h r (List.mem_cons_self _ _))
    refine ⟨body :: bodies, ?_, ?_, ?_⟩
    · simp only [List.map_cons, List.flatten_cons, hb1, h1]
    · intro b hb
      rcases List.mem_cons.mp hb with e | hm
      · rw [e]; exact hb2
      · exact h2 b hm
    · simp only [List.map_cons, hb3, h3]

theorem Printable_load (isIP : Str → Bool) (t : Str) :
    ∀ r ∈ (load isIP t).Lines, Printable isIP r := by
  intro r hr
  rw [load_Lines, List.mem_map] at hr
  obtain ⟨raw, hraw, e⟩ := hr
  rw [← e]
  exact Printable_parseLine isIP raw (Split_mem t '\n' raw hraw)

theorem reparse_of_Printable (isIP : Str → Bool) (hf : HostsFile)
    (h : ∀ r ∈ hf.Lines, Printable isIP r) :
    (load isIP (ToHostsFileString hf)).Lines.map content
      = hf.Lines.map content ++ [(true, false, [], [], [])] := by
  obtain ⟨bodies, h1, h2, h3⟩ := Printable_lines_reparse isIP hf.Lines h
  rw [load_Lines, ToHostsFileString_eq, h1, Split_lines '\n' bodies h2,
    List.map_append, List.map_append, h3]
  simp only [List.map_cons, List.map_nil, parseLine_of_blank isIP [] rfl]
  rfl

/-! ## Claims -/

/-- C1: for every file text `t`, `LoadStringToHostsFile` returns no error and
a record sequence with one record per line of `t` split on the line
terminator, in input order: the `Raw` fields, read in sequence order, are
exactly the lines, and their number is the number of terminators plus one. -/
theorem load_one_record_per_line (isIP : Str → Bool) (t : Str) :
    ∃ hf, LoadStringToHostsFile isIP t = Except.ok hf ∧
      hf.Lines.map (fun r => r.Raw) = Split t '\n' ∧
      hf.Lines.length = t.count '\n' + 1 := by
  refine ⟨load isIP t, rfl, ?_, ?_⟩
  · rw [load_Lines, List.map_map]
    have : ((fun r : HostLine => r.Raw) ∘ parseLine isIP) = id := by
      funext raw; simp [parseLine_Raw]
    rw [this, List.map_id]
  · rw [load_Lines, List.length_map, Split_length]

/-- C2: for every line that is not whitespace-only and whose first
non-whitespace character is not `#`, with `p` the trimmed text before the
first `#` and `c` the trimmed text after it: the parsed record is an entry
if and only if `p` has at least two fields and the first passes the address
predicate; an entry has the first field as IP, the remaining fields in order
as Domains and `c` as Comment; a record that is no entry has no IP, no
domains and Comment `c`. -/
theorem parseLine_entry_iff (isIP : Str → Bool) (raw : Str)
    (hns : ¬ ∀ c ∈ raw, isSpace c = true)
    (hnc : (raw.dropWhile isSpace).head? ≠ some '#') :
    (((parseLine isIP raw).IsEntry = true ↔
        2 ≤ (Fields (textBeforeHash raw)).length ∧
          isIP ((Fields (textBeforeHash raw)).headD []) = true) ∧
      ((parseLine isIP raw).IsEntry = true →
        (parseLine isIP raw).IP = (Fields (textBeforeHash raw)).headD [] ∧
        (parseLine isIP raw).Domains = (Fields (textBeforeHash raw)).drop 1 ∧
        (parseLine isIP raw).Comment = textAfterHash raw) ∧
      ((parseLine isIP raw).IsEntry = false →
        (parseLine isIP raw).IP = [] ∧ (parseLine isIP raw).Domains = [] ∧
        (parseLine isIP raw).Comment = textAfterHash raw)) ∧
    (parseLine isIP raw).IsBlank = false ∧ (parseLine isIP raw).Raw = raw := by
  have hne : TrimSpace raw ≠ [] := fun h => hns ((TrimSpace_eq_nil_iff raw).mp h)
  have hc : HasPrefix (TrimSpace raw) '#' = false := by
    rw [HasPrefix_eq_false_iff, head_TrimSpace]; exact hnc
  rw [parseLine_of_fields isIP raw hne hc]
  unfold fieldsRecord
  split_ifs with h
  · exact ⟨⟨⟨fun _ => h, fun _ => rfl⟩, fun _ => ⟨rfl, rfl, rfl⟩,
      fun hf => False.elim hf⟩, rfl, rfl⟩
  · exact ⟨⟨⟨fun hf => False.elim hf, fun hh => absurd hh h⟩,
      fun hf => False.elim hf, fun _ => ⟨rfl, rfl, rfl⟩⟩, rfl, rfl⟩

/-- C2, witness: `127.0.0.1 a.local # dev` is parsed into an entry with IP
`127.0.0.1`, domains `[a.local]` and comment `dev`. -/
theorem parseLine_entry_iff_witness :
    (parseLine dottedQuad "127.0.0.1 a.local # dev".toList).IsEntry = true ∧
    (parseLine dottedQuad "127.0.0.1 a.local # dev".toList).IP = "127.0.0.1".toList ∧
    (parseLine dottedQuad "127.0.0.1 a.local # dev".toList).Domains = ["a.local".toList] ∧
    (parseLine dottedQuad "127.0.0.1 a.local # dev".toList).Comment = "dev".toList := by
  have h := parseLine_entry_iff dottedQuad "127.0.0.1 a.local # dev".toList
    (by decide) (by decide)
  have he : (parseLine dottedQuad "127.0.0.1 a.local # dev".toList).IsEntry = true :=
    h.1.1.mpr (by decide)
  obtain ⟨h1, h2, h3⟩ := h.1.2.1 he
  refine ⟨he, ?_, ?_, ?_⟩
  · rw [h1]; decide
  · rw [h2]; decide
  · rw [h3]; decide

/-- C3: for every file text `t`, re-parsing the serialization of the parsed
collection yields the records of the first parse, one for one and in order,
with the same category (`IsBlank`, `IsEntry`), IP, domains and comment,
followed by one final blank record that comes from the terminator the
serializer writes after the last line. -/
theorem reparse_serialized (isIP : Str → Bool) (t : Str) :
    (load isIP (ToHostsFileString (load isIP t))).Lines.map content
      = (load isIP t).Lines.map content ++ [(true, false, [], [], [])] := by
  obtain ⟨bodies, h1, h2, h3⟩ :=
    lineStrings_reparse isIP (Split t '\n') (Split_mem t '\n')
  rw [load_Lines, ToHostsFileString_eq, load_Lines, h1, Split_lines '\n' bodies h2,
    List.map_append, List.map_append, h3]
  simp only [List.map_cons, List.map_nil, parseLine_of_blank isIP [] rfl]
  rfl

/-- C4 (evaluation of the code): the collection parsed from the one-line text
`127.0.0.1 a.local` has one record, and `ToHostsFileString` writes that
record with a line terminator after it: one record, one terminator. -/
theorem serializer_terminates_last_line :
    (load dottedQuad "127.0.0.1 a.local".toList).Lines.length = 1 ∧
    ToHostsFileString (load dottedQuad "127.0.0.1 a.local".toList)
      = "127.0.0.1 a.local\n".toList ∧
    (ToHostsFileString (load dottedQuad "127.0.0.1 a.local".toList)).count '\n' = 1 := by
  decide

/-- C5 as stated fails: the line `foo # bar` is neither blank, nor a
full-line comment, nor an entry, and the serializer emits `# bar` for it. -/
theorem malformed_line_with_comment_rewritten :
    (parseLine dottedQuad "foo # bar".toList).IsBlank = false ∧
    HasPrefix (TrimSpace "foo # bar".toList) '#' = false ∧
    (parseLine dottedQuad "foo # bar".toList).IsEntry = false ∧
    lineString (parseLine dottedQuad "foo # bar".toList) = "# bar\n".toList ∧
    lineString (parseLine dottedQuad "foo # bar".toList) ≠ "foo # bar\n".toList ∧
    ToHostsFileString (load dottedQuad "foo # bar".toList) = "# bar\n".toList := by
  decide

/-- C5, amended: for every line the parser classifies as neither blank, nor a
full-line comment, nor an entry, and whose record carries no comment text
(the line has no `#`, or only white space after its first `#`), the
serializer emits the original line text, byte for byte. -/
theorem malformed_line_verbatim_without_comment (isIP : Str → Bool) (raw : Str)
    (hns : ¬ ∀ c ∈ raw, isSpace c = true)
    (hnc : (raw.dropWhile isSpace).head? ≠ some '#')
    (hne : (parseLine isIP raw).IsEntry = false)
    (hcm : (parseLine isIP raw).Comment = []) :
    lineString (parseLine isIP raw) = raw ++ ['\n'] := by
  have hnt : TrimSpace raw ≠ [] := fun h => hns ((TrimSpace_eq_nil_iff raw).mp h)
  have hc : HasPrefix (TrimSpace raw) '#' = false := by
    rw [HasPrefix_eq_false_iff, head_TrimSpace]; exact hnc
  have hraw : raw ≠ [] := by
    intro h; rw [h] at hnt; exact hnt rfl
  have hrec := parseLine_of_fields isIP raw hnt hc
  have hbl : (parseLine isIP raw).IsBlank = false := by
    rw [hrec]; unfold fieldsRecord; split_ifs <;> rfl
  have := lineString_of_unparsed (parseLine isIP raw) hbl hne hcm
    (by rw [parseLine_Raw]; exact hraw)
  rw [this, parseLine_Raw]

/-- C5, amended, witness: `10.0.0.999  host` has an invalid address and no
comment, and is emitted as it was read, its two spaces included. -/
theorem malformed_line_verbatim_without_comment_witness :
    lineString (parseLine dottedQuad "10.0.0.999  host".toList)
      = "10.0.0.999  host".toList ++ ['\n'] :=
  malformed_line_verbatim_without_comment dottedQuad "10.0.0.999  host".toList
    (by decide) (by decide) (by decide) (by decide)

/-- C6: `AddDomain` returns an error if and only if the domain is empty after
trimming or the address fails the predicate; with an error it reports
`changed = false` and returns the collection, indices included, as it was. -/
theorem AddDomain_error_iff (isIP : Str → Bool) (hf : HostsFile) (ip domain comment : Str) :
    ((AddDomain isIP hf ip domain comment).2.2 ≠ none ↔
      (TrimSpace domain = [] ∨ isIP ip = false)) ∧
    ((AddDomain isIP hf ip domain comment).2.2 ≠ none →
      (AddDomain isIP hf ip domain comment).2.1 = false ∧
      (AddDomain isIP hf ip domain comment).1 = hf) := by
  unfold AddDomain
  by_cases hd : TrimSpace domain = []
  · simp [hd]
  · by_cases hip : isIP ip = true
    · simp only [hd, hip, if_false, Bool.not_true, Bool.false_eq_true, or_self, iff_false,
        not_not]
      cases hfl : findLine (listsDomain (TrimSpace domain)) hf.Lines with
      | none => simp
      | some r =>
        obtain ⟨i, l⟩ := r
        simp only []
        split_ifs <;> simp
    · have hip' : isIP ip = false := by simpa using hip
      simp [hd, hip']

/-- C6, witness: `AddDomain("bad-ip", "x", "")` on the collection parsed from
`127.0.0.1 a.local # dev` fails, reports no change and returns the
collection as it was. -/
theorem AddDomain_error_iff_witness :
    (AddDomain dottedQuad (load dottedQuad "127.0.0.1 a.local # dev\n".toList)
        "bad-ip".toList "x".toList []).2.2 = some (AddError.invalidIP "bad-ip".toList) ∧
    (AddDomain dottedQuad (load dottedQuad "127.0.0.1 a.local # dev\n".toList)
        "bad-ip".toList "x".toList []).2.1 = false ∧
    (AddDomain dottedQuad (load dottedQuad "127.0.0.1 a.local # dev\n".toList)
        "bad-ip".toList "x".toList []).1
      = load dottedQuad "127.0.0.1 a.local # dev\n".toList :=
  ⟨by decide,
   (AddDomain_error_iff dottedQuad (load dottedQuad "127.0.0.1 a.local # dev\n".toList)
      "bad-ip".toList "x".toList []).2 (by decide)⟩

/-- C7: with valid inputs, when the first entry record listing the trimmed
domain (`l`, at position `i`) has an IP other than `ip`, `AddDomain` returns
`changed = true` without error and leaves the record sequence that
`RemoveDomain(domain)` followed by `AddDomain(ip, domain, comment)` leaves.
The removal keeps every record that is no entry, keeps in order the other
domains of every entry and deletes the entries left without domains (those
with a non-empty IP, as the removal rule has it); the domain is then appended
to the first entry record of `ip` or, when there is none, a new record of
`ip` is appended at the end.  No record with another IP lists the domain
afterwards. -/
theorem AddDomain_reassign (isIP : Str → Bool) (hf : HostsFile) (ip domain comment : Str)
    (i : Nat) (l : HostLine)
    (hd : TrimSpace domain ≠ []) (hip : isIP ip = true)
    (hat : hf.Lines[i]? = some l) (hlists : listsDomain (TrimSpace domain) l = true)
    (hfirst : ∀ j, j < i → ∀ r, hf.Lines[j]? = some r →
      listsDomain (TrimSpace domain) r = false)
    (hdiff : l.IP ≠ ip) :
    (AddDomain isIP hf ip domain comment).2.1 = true ∧
    (AddDomain isIP hf ip domain comment).2.2 = none ∧
    (AddDomain isIP hf ip domain comment).1.Lines
      = (AddDomain isIP (RemoveDomain hf domain).1 ip domain comment).1.Lines ∧
    (RemoveDomain hf domain).1.Lines
      = hf.Lines.filterMap (dropDomain (TrimSpace domain)) ∧
    (∀ r ∈ (AddDomain isIP hf ip domain comment).1.Lines,
      listsDomain (TrimSpace domain) r = true → r.IP = ip) ∧
    ((∃ (k : Nat) (t : HostLine),
        (hf.Lines.filterMap (dropDomain (TrimSpace domain)))[k]? = some t ∧
        t.IsEntry = true ∧ t.IP = ip ∧
        (∀ j, j < k → ∀ r, (hf.Lines.filterMap (dropDomain (TrimSpace domain)))[j]? = some r →
          ¬ (r.IsEntry = true ∧ r.IP = ip)) ∧
        (AddDomain isIP hf ip domain comment).1.Lines =
          (hf.Lines.filterMap (dropDomain (TrimSpace domain))).set k
            { t with Domains := t.Domains ++ [TrimSpace domain],
                     Comment := if comment ≠ [] ∧ t.Comment ≠ comment then comment
                                else t.Comment }) ∨
     ((∀ r ∈ hf.Lines.filterMap (dropDomain (TrimSpace domain)),
          ¬ (r.IsEntry = true ∧ r.IP = ip)) ∧
        (AddDomain isIP hf ip domain comment).1.Lines =
          hf.Lines.filterMap (dropDomain (TrimSpace domain)) ++
            [{ Raw := ip ++ " ".toList ++ TrimSpace domain, IsEntry := true, IP := ip,
               Domains := [TrimSpace domain], Comment := comment, IsBlank := false }])) := by
  have hfl : findLine (listsDomain (TrimSpace domain)) hf.Lines = some (i, l) :=
    (findLine_eq_some_iff _ _ i l).mpr ⟨hat, hlists, hfirst⟩
  have hres := AddDomain_of_other_IP isIP hf ip domain comment i l hd hip hfl hdiff
  have hrl : (RemoveDomain hf (TrimSpace domain)).1.Lines
      = hf.Lines.filterMap (dropDomain (TrimSpace domain)) := by
    rw [RemoveDomain_trimmed_Lines, RemoveDomain_Lines]
  have hnone : ∀ r ∈ (RemoveDomain hf (TrimSpace domain)).1.Lines,
      listsDomain (TrimSpace domain) r = false := by
    rw [hrl]; exact filterMap_dropDomain_not_lists _ _
  have hnone2 : findLine (listsDomain (TrimSpace domain)) (RemoveDomain hf domain).1.Lines
      = none := by
    rw [findLine_eq_none_iff, RemoveDomain_Lines]
    exact filterMap_dropDomain_not_lists _ _
  have hres2 := AddDomain_of_absent isIP (RemoveDomain hf domain).1 ip domain comment hd hip
    hnone2
  rw [hres, hres2]
  refine ⟨rfl, rfl, ?_, RemoveDomain_Lines hf domain, ?_, ?_⟩
  · exact attachDomain_congr _ _ _ _ _ (RemoveDomain_trimmed_Lines hf domain)
  · exact attachDomain_lists_only _ _ _ _ hnone
  · simp only []
    cases hfi : findLine (fun l => l.IsEntry && l.IP == ip)
        (RemoveDomain hf (TrimSpace domain)).1.Lines with
    | none =>
      right
      rw [attachDomain_of_not_found _ ip _ comment hfi, hrl]
      refine ⟨?_, rfl⟩
      rw [findLine_eq_none_iff, hrl] at hfi
      intro r hr hc
      have := hfi r hr
      simp [hc.1, hc.2] at this
    | some x =>
      obtain ⟨k, t⟩ := x
      left
      rw [attachDomain_of_found _ ip _ comment k t hfi, hrl]
      rw [findLine_eq_some_iff, hrl] at hfi
      obtain ⟨h1, h2, h3⟩ := hfi
      have h2' : t.IsEntry = true ∧ t.IP = ip := by simpa using h2
      refine ⟨k, t, h1, h2'.1, h2'.2, ?_, rfl⟩
      intro j hj r hr hc
      have := h3 j hj r hr
      simp [hc.1, hc.2] at this

/-- C7, witness (Scenario 3): on the Scenario-2 state,
`AddDomain("10.0.0.1", "a.local", "")` reports a change, leaves `[b.local]`
in the `127.0.0.1` record and appends a new `10.0.0.1` record. -/
theorem AddDomain_reassign_witness :
    (AddDomain dottedQuad scenario2 "10.0.0.1".toList "a.local".toList []).2.1 = true ∧
    (AddDomain dottedQuad scenario2 "10.0.0.1".toList "a.local".toList []).1.Lines =
      [{ Raw := "127.0.0.1 a.local # dev".toList, IsEntry := true, IP := "127.0.0.1".toList,
         Domains := ["b.local".toList], Comment := "dev".toList, IsBlank := false },
       { Raw := [], IsEntry := false, IP := [], Domains := [], Comment := [],
         IsBlank := true },
       { Raw := "10.0.0.1 a.local".toList, IsEntry := true, IP := "10.0.0.1".toList,
         Domains := ["a.local".toList], Comment := [], IsBlank := false }] :=
  ⟨(AddDomain_reassign dottedQuad scenario2 "10.0.0.1".toList "a.local".toList [] 0
      { Raw := "127.0.0.1 a.local # dev".toList, IsEntry := true, IP := "127.0.0.1".toList,
        Domains := ["a.local".toList, "b.local".toList], Comment := "dev".toList,
        IsBlank := false }
      (by decide) (by decide) (by decide) (by decide)
      (fun j hj => absurd hj (Nat.not_lt_zero j)) (by decide)).1,
   by decide⟩

/-- C8 as stated fails: the parser produces two entry records for
`1.1.1.1 a` and `2.2.2.2 a`; `AddDomain("1.1.1.1", "a", "")` returns without
error (and without change), and the record of `2.2.2.2` still lists `a`. -/
theorem AddDomain_keeps_later_record_of_other_IP :
    (AddDomain dottedQuad (load dottedQuad "1.1.1.1 a\n2.2.2.2 a".toList)
        "1.1.1.1".toList "a".toList []).2.2 = none ∧
    (AddDomain dottedQuad (load dottedQuad "1.1.1.1 a\n2.2.2.2 a".toList)
        "1.1.1.1".toList "a".toList []).2.1 = false ∧
    ∃ r ∈ (AddDomain dottedQuad (load dottedQuad "1.1.1.1 a\n2.2.2.2 a".toList)
        "1.1.1.1".toList "a".toList []).1.Lines,
      r.IsEntry = true ∧ "a".toList ∈ r.Domains ∧ r.IP ≠ "1.1.1.1".toList := by
  decide

/-- C8, amended: after any `AddDomain(ip, domain, comment)` that returns
without error, on any collection, at least one entry record with IP `ip`
lists the trimmed domain; and every entry record that lists it has IP `ip`
whenever the first entry record listing the domain before the call did not
already have IP `ip` (so whenever the domain was absent or was reassigned). -/
theorem AddDomain_attached_to_ip (isIP : Str → Bool) (hf : HostsFile)
    (ip domain comment : Str)
    (hok : (AddDomain isIP hf ip domain comment).2.2 = none) :
    (∃ r ∈ (AddDomain isIP hf ip domain comment).1.Lines,
      listsDomain (TrimSpace domain) r = true ∧ r.IP = ip) ∧
    ((∀ (i : Nat) (l : HostLine), hf.Lines[i]? = some l →
        listsDomain (TrimSpace domain) l = true →
        (∀ j, j < i → ∀ r, hf.Lines[j]? = some r →
          listsDomain (TrimSpace domain) r = false) → l.IP ≠ ip) →
      ∀ r ∈ (AddDomain isIP hf ip domain comment).1.Lines,
        listsDomain (TrimSpace domain) r = true → r.IP = ip) := by
  obtain ⟨hd, hip⟩ := AddDomain_ok_inputs isIP hf ip domain comment hok
  cases hfl : findLine (listsDomain (TrimSpace domain)) hf.Lines with
  | none =>
    rw [AddDomain_of_absent isIP hf ip domain comment hd hip hfl]
    exact ⟨attachDomain_exists _ _ _ _ (TrimSpace_idem domain),
      fun _ => attachDomain_lists_only _ _ _ _ ((findLine_eq_none_iff _ _).mp hfl)⟩
  | some x =>
    obtain ⟨i, l⟩ := x
    obtain ⟨hat, hl, hfirst⟩ := (findLine_eq_some_iff _ _ i l).mp hfl
    by_cases hsame : l.IP = ip
    · constructor
      · rw [AddDomain_of_same_IP isIP hf ip domain comment i l hd hip hfl hsame]
        have hi : i < hf.Lines.length := by
          by_contra hge
          rw [List.getElem?_eq_none (by omega)] at hat
          cases hat
        split_ifs with hc
        · refine ⟨{ l with Comment := comment }, ?_, ?_, hsame⟩
          · simp only [rebuildIndex_Lines]
            exact List.mem_iff_getElem?.mpr ⟨i, List.getElem?_set_self hi⟩
          · simpa [listsDomain] using hl
        · exact ⟨l, List.mem_iff_getElem?.mpr ⟨i, hat⟩, hl, hsame⟩
      · intro h
        exact absurd hsame (h i l hat hl hfirst)
    · rw [AddDomain_of_other_IP isIP hf ip domain comment i l hd hip hfl hsame]
      have hnone : ∀ r ∈ (RemoveDomain hf (TrimSpace domain)).1.Lines,
          listsDomain (TrimSpace domain) r = false := by
        rw [RemoveDomain_Lines, TrimSpace_idem]; exact filterMap_dropDomain_not_lists _ _
      exact ⟨attachDomain_exists _ _ _ _ (TrimSpace_idem domain),
        fun _ => attachDomain_lists_only _ _ _ _ hnone⟩

/-- C8, amended, witness: on the collection parsed from `1.1.1.1 a` and
`2.2.2.2 a`, `AddDomain("3.3.3.3", "a", "")` leaves `a` in a record of
`3.3.3.3`. -/
theorem AddDomain_attached_to_ip_witness :
    ∃ r ∈ (AddDomain dottedQuad (load dottedQuad "1.1.1.1 a\n2.2.2.2 a".toList)
        "3.3.3.3".toList "a".toList []).1.Lines,
      listsDomain (TrimSpace "a".toList) r = true ∧ r.IP = "3.3.3.3".toList :=
  (AddDomain_attached_to_ip dottedQuad (load dottedQuad "1.1.1.1 a\n2.2.2.2 a".toList)
    "3.3.3.3".toList "a".toList [] (by decide)).1

/-- C9: with valid inputs, when the first entry record listing the trimmed
domain (`l`, at position `i`) has IP `ip`, `AddDomain` returns no error and
reports `changed = true` exactly when `comment` is non-empty and differs from
`l.Comment`; then the sequence is the old one with the Comment of that one
record set to `comment`; otherwise the collection, indices included, is
returned as it was.  In both cases every record keeps its raw text, category,
IP and domains, and the sequence keeps its length and order. -/
theorem AddDomain_same_IP (isIP : Str → Bool) (hf : HostsFile) (ip domain comment : Str)
    (i : Nat) (l : HostLine)
    (hd : TrimSpace domain ≠ []) (hip : isIP ip = true)
    (hat : hf.Lines[i]? = some l) (hlists : listsDomain (TrimSpace domain) l = true)
    (hfirst : ∀ j, j < i → ∀ r, hf.Lines[j]? = some r →
      listsDomain (TrimSpace domain) r = false)
    (hsame : l.IP = ip) :
    (AddDomain isIP hf ip domain comment).2.2 = none ∧
    ((AddDomain isIP hf ip domain comment).2.1 = true ↔
      (comment ≠ [] ∧ l.Comment ≠ comment)) ∧
    ((AddDomain isIP hf ip domain comment).2.1 = true →
      (AddDomain isIP hf ip domain comment).1.Lines
        = hf.Lines.set i { l with Comment := comment }) ∧
    ((AddDomain isIP hf ip domain comment).2.1 = false →
      (AddDomain isIP hf ip domain comment).1 = hf) ∧
    (AddDomain isIP hf ip domain comment).1.Lines.map
        (fun r => (r.Raw, r.IsEntry, r.IP, r.Domains, r.IsBlank))
      = hf.Lines.map (fun r => (r.Raw, r.IsEntry, r.IP, r.Domains, r.IsBlank)) ∧
    (AddDomain isIP hf ip domain comment).1.Lines.length = hf.Lines.length := by
  have hfl : findLine (listsDomain (TrimSpace domain)) hf.Lines = some (i, l) :=
    (findLine_eq_some_iff _ _ i l).mpr ⟨hat, hlists, hfirst⟩
  unfold AddDomain
  simp only [hd, hip, hfl, hsame, if_false, Bool.not_true, Bool.false_eq_true, if_true]
  by_cases hc : comment ≠ [] ∧ l.Comment ≠ comment
  · simp only [hc, and_self, if_true, rebuildIndex_Lines, not_false_eq_true, ne_eq,
      true_iff, true_and, forall_true_left, List.length_set, Bool.true_eq_false,
      false_implies, and_true]
    rw [List.map_set]
    apply List.ext_getElem?
    intro n
    rw [List.getElem?_set]
    split_ifs with h1 h2
    · subst h1; simp [hat, hsame]
    · subst h1; simp at h2; rw [List.getElem?_eq_none (by omega)] at hat; cases hat
    · rfl
  · simp [hc]

/-- C9, witness: on the collection parsed from `127.0.0.1 a.local # dev`,
`AddDomain("127.0.0.1", "a.local", "prod")` reports a change and
`AddDomain("127.0.0.1", "a.local", "")` reports none. -/
theorem AddDomain_same_IP_witness :
    ((AddDomain dottedQuad (load dottedQuad "127.0.0.1 a.local # dev".toList)
        "127.0.0.1".toList "a.local".toList "prod".toList).2.1 = true ↔
      ("prod".toList ≠ [] ∧ "dev".toList ≠ "prod".toList)) ∧
    (AddDomain dottedQuad (load dottedQuad "127.0.0.1 a.local # dev".toList)
        "127.0.0.1".toList "a.local".toList []).1
      = load dottedQuad "127.0.0.1 a.local # dev".toList :=
  ⟨(AddDomain_same_IP dottedQuad (load dottedQuad "127.0.0.1 a.local # dev".toList)
      "127.0.0.1".toList "a.local".toList "prod".toList 0
      { Raw := "127.0.0.1 a.local # dev".toList, IsEntry := true, IP := "127.0.0.1".toList,
        Domains := ["a.local".toList], Comment := "dev".toList, IsBlank := false }
      (by decide) (by decide) (by decide) (by decide)
      (fun j hj => absurd hj (Nat.not_lt_zero j)) (by decide)).2.1,
   (AddDomain_same_IP dottedQuad (load dottedQuad "127.0.0.1 a.local # dev".toList)
      "127.0.0.1".toList "a.local".toList [] 0
      { Raw := "127.0.0.1 a.local # dev".toList, IsEntry := true, IP := "127.0.0.1".toList,
        Domains := ["a.local".toList], Comment := "dev".toList, IsBlank := false }
      (by decide) (by decide) (by decide) (by decide)
      (fun j hj => absurd hj (Nat.not_lt_zero j)) (by decide)).2.2.2.1 (by decide)⟩

/-- C10: with valid inputs, when no entry record lists the trimmed domain,
`AddDomain` returns `changed = true` without error and
(c) if the first entry record with IP `ip` is `l` at position `i`, the
sequence is the old one with that one record replaced by `l` with the domain
appended to the end of its Domains and with Comment `comment` when `comment`
is non-empty and differs (its old Comment otherwise);
(d) if no entry record has IP `ip`, the sequence is the old one followed by
one new entry record with IP `ip`, Domains `[domain]` and Comment
`comment`. -/
theorem AddDomain_new_domain (isIP : Str → Bool) (hf : HostsFile) (ip domain comment : Str)
    (hd : TrimSpace domain ≠ []) (hip : isIP ip = true)
    (hnew : ∀ r ∈ hf.Lines, listsDomain (TrimSpace domain) r = false) :
    (AddDomain isIP hf ip domain comment).2.1 = true ∧
    (AddDomain isIP hf ip domain comment).2.2 = none ∧
    (∀ (i : Nat) (l : HostLine), hf.Lines[i]? = some l → l.IsEntry = true → l.IP = ip →
      (∀ j, j < i → ∀ r, hf.Lines[j]? = some r → ¬ (r.IsEntry = true ∧ r.IP = ip)) →
      (AddDomain isIP hf ip domain comment).1.Lines =
        hf.Lines.set i
          { l with Domains := l.Domains ++ [TrimSpace domain],
                   Comment := if comment ≠ [] ∧ l.Comment ≠ comment then comment
                              else l.Comment }) ∧
    ((∀ r ∈ hf.Lines, ¬ (r.IsEntry = true ∧ r.IP = ip)) →
      (AddDomain isIP hf ip domain comment).1.Lines =
        hf.Lines ++ [{ Raw := ip ++ " ".toList ++ TrimSpace domain, IsEntry := true, IP := ip,
                       Domains := [TrimSpace domain], Comment := comment,
                       IsBlank := false }]) := by
  have hfl : findLine (listsDomain (TrimSpace domain)) hf.Lines = none :=
    (findLine_eq_none_iff _ _).mpr hnew
  have hres : AddDomain isIP hf ip domain comment
      = (attachDomain hf ip (TrimSpace domain) comment, true, none) := by
    unfold AddDomain
    simp [hd, hip, hfl]
  rw [hres]
  refine ⟨rfl, rfl, ?_, ?_⟩
  · intro i l hat he hl hfirst
    apply attachDomain_of_found
    rw [findLine_eq_some_iff]
    refine ⟨hat, by simp [he, hl], ?_⟩
    intro j hj r hr
    have := hfirst j hj r hr
    by_cases h1 : r.IsEntry = true
    · have h2 : r.IP ≠ ip := fun h => this ⟨h1, h⟩
      simp [h1, h2]
    · simp [h1]
  · intro hno
    apply attachDomain_of_not_found
    rw [findLine_eq_none_iff]
    intro r hr
    have := hno r hr
    by_cases h1 : r.IsEntry = true
    · have h2 : r.IP ≠ ip := fun h => this ⟨h1, h⟩
      simp [h1, h2]
    · simp [h1]

/-- C10, witness (Scenario 2): on the collection parsed from
`127.0.0.1 a.local # dev`, `AddDomain("127.0.0.1", "b.local", "")` reports a
change and leaves one record with domains `[a.local, b.local]` and comment
`dev`. -/
theorem AddDomain_new_domain_witness :
    (AddDomain dottedQuad (load dottedQuad "127.0.0.1 a.local # dev".toList)
        "127.0.0.1".toList "b.local".toList []).2.1 = true ∧
    (AddDomain dottedQuad (load dottedQuad "127.0.0.1 a.local # dev".toList)
        "127.0.0.1".toList "b.local".toList []).1.Lines =
      [{ Raw := "127.0.0.1 a.local # dev".toList, IsEntry := true, IP := "127.0.0.1".toList,
         Domains := ["a.local".toList, "b.local".toList], Comment := "dev".toList,
         IsBlank := false }] :=
  ⟨(AddDomain_new_domain dottedQuad (load dottedQuad "127.0.0.1 a.local # dev".toList)
      "127.0.0.1".toList "b.local".toList [] (by decide) (by decide) (by decide)).1,
   by decide⟩

/-- C11: for every collection, the record sequence `RemoveDomain(d)` leaves
by deleting lines in place equals the filtered sequence: records that are no
entries kept as they are, every entry with its domains that differ from the
trimmed `d` after trimming (order kept), entries left without domains and
with a non-empty IP dropped.  No entry of the result lists `d`, the flag is
true exactly when some entry record contained `d`, and allowing the loop
more iterations does not change what it returns. -/
theorem RemoveDomain_refines_filter (hf : HostsFile) (d : Str) :
    (RemoveDomain hf d).1.Lines = hf.Lines.filterMap (dropDomain (TrimSpace d)) ∧
    ((RemoveDomain hf d).2 = true ↔
      ∃ r ∈ hf.Lines, r.IsEntry = true ∧ ∃ x ∈ r.Domains, TrimSpace x = TrimSpace d) ∧
    (∀ r ∈ (RemoveDomain hf d).1.Lines, r.IsEntry = true →
      ∀ x ∈ r.Domains, TrimSpace x ≠ TrimSpace d) ∧
    (∀ fuel, hf.Lines.length ≤ fuel →
      removeLoop (TrimSpace d) fuel 0 hf.Lines false
        = removeLoop (TrimSpace d) (hf.Lines.length + 1) 0 hf.Lines false) := by
  refine ⟨RemoveDomain_Lines hf d, ?_, ?_, ?_⟩
  · rw [RemoveDomain_changed, List.any_eq_true]
    constructor
    · rintro ⟨r, hr, hl⟩
      have : r.IsEntry = true ∧ ∃ x ∈ r.Domains, TrimSpace x = TrimSpace d := by
        simpa [listsDomain] using hl
      exact ⟨r, hr, this⟩
    · rintro ⟨r, hr, he, x, hx, hxd⟩
      refine ⟨r, hr, ?_⟩
      simp only [listsDomain, he, Bool.true_and, List.any_eq_true]
      exact ⟨x, hx, by simpa using hxd⟩
  · intro r hr he x hx hxd
    rw [RemoveDomain_Lines] at hr
    have := filterMap_dropDomain_not_lists _ _ r hr
    have hl : listsDomain (TrimSpace d) r = true := by
      simp only [listsDomain, he, Bool.true_and, List.any_eq_true]
      exact ⟨x, hx, by simpa using hxd⟩
    rw [hl] at this
    exact Bool.noConfusion this
  · intro fuel hfuel
    have h1 := removeLoop_eq (TrimSpace d) fuel [] hf.Lines false hfuel
    have h2 := removeLoop_eq (TrimSpace d) (hf.Lines.length + 1) [] hf.Lines false
      (Nat.le_succ _)
    simp only [List.length_nil, List.nil_append] at h1 h2
    rw [h1, h2]

/-- C11, witness (Scenario 4): `RemoveDomain("b.local")` on the Scenario-3
state deletes the `127.0.0.1` record, and the serialized text has no line
for it. -/
theorem RemoveDomain_refines_filter_witness :
    (RemoveDomain scenario3 "b.local".toList).2 = true ∧
    (RemoveDomain scenario3 "b.local".toList).1.Lines =
      [{ Raw := [], IsEntry := false, IP := [], Domains := [], Comment := [],
         IsBlank := true },
       { Raw := "10.0.0.1 a.local".toList, IsEntry := true, IP := "10.0.0.1".toList,
         Domains := ["a.local".toList], Comment := [], IsBlank := false }] ∧
    ToHostsFileString (RemoveDomain scenario3 "b.local".toList).1
      = "\n10.0.0.1 a.local\n".toList :=
  ⟨(RemoveDomain_refines_filter scenario3 "b.local".toList).2.1.mpr (by decide),
   by decide, by decide⟩

/-- C12: for every collection and every domain `d`, a second
`RemoveDomain(d)` after a first one returns `false` and returns the
collection the first one left, record sequence and indices. -/
theorem RemoveDomain_idempotent (hf : HostsFile) (d : Str) :
    (RemoveDomain (RemoveDomain hf d).1 d).2 = false ∧
    (RemoveDomain (RemoveDomain hf d).1 d).1.Lines = (RemoveDomain hf d).1.Lines ∧
    (RemoveDomain (RemoveDomain hf d).1 d).1 = (RemoveDomain hf d).1 := by
  have hflag : (RemoveDomain (RemoveDomain hf d).1 d).2 = false := by
    rw [RemoveDomain_changed, RemoveDomain_Lines, List.any_eq_false]
    intro r hr
    rw [filterMap_dropDomain_not_lists _ _ r hr]
    exact Bool.false_ne_true
  have hlines : (RemoveDomain (RemoveDomain hf d).1 d).1.Lines = (RemoveDomain hf d).1.Lines := by
    rw [RemoveDomain_Lines, RemoveDomain_Lines, filterMap_dropDomain_twice]
  refine ⟨hflag, hlines, ?_⟩
  rw [RemoveDomain_of_unchanged _ _ hflag, hlines]

/-- C13: for every collection, the sequence `MergeByIP` leaves is the merged
sequence of the description: records the merge does not look at stay where
they are, the first entry of each address stays where it is and absorbs the
later entries of that address, which are dropped.  So the records that are
no entries are the same, in the same order; every address of an entry occurs
exactly once among the entries left; the entry left for an address lists the
domains of all entries of that address in sequence order, duplicates kept;
and the flag tells whether some entry had an address seen before.  (An entry
whose IP field is empty has no address and is left alone.) -/
theorem MergeByIP_collapses (hf : HostsFile) :
    (MergeByIP hf).1.Lines = mergeRef hf.Lines ∧
    (MergeByIP hf).1.Lines.filter (fun r => !r.IsEntry)
      = hf.Lines.filter (fun r => !r.IsEntry) ∧
    (entryIPs (MergeByIP hf).1.Lines).Nodup ∧
    (∀ ip ∈ entryIPs hf.Lines, ip ∈ entryIPs (MergeByIP hf).1.Lines) ∧
    (∀ r ∈ (MergeByIP hf).1.Lines, r.IsEntry = true → r.IP ≠ [] →
      r.Domains = ((hf.Lines.filter (hasIP r.IP)).map fun x => x.Domains).flatten) ∧
    (MergeByIP hf).2 = repeatsIP [] hf.Lines := by
  rw [MergeByIP_Lines]
  obtain ⟨h1, _, h3⟩ := entryIPs_mergeFrom hf.Lines []
  refine ⟨rfl, filter_not_entry_mergeFrom hf.Lines [], h1, ?_, ?_, MergeByIP_changed hf⟩
  · intro ip hip
    rcases h3 ip hip with h | h
    · simp at h
    · exact h
  · intro r hr he hip
    exact (mergeRef_retained hf.Lines r hr he hip).1

/-- C13, witness (Scenario 5): the two lines `1.1.1.1 x` and `1.1.1.1 y`
are merged into one entry with domains `[x, y]`, with `changed = true`. -/
theorem MergeByIP_collapses_witness :
    (MergeByIP (load dottedQuad "1.1.1.1 x\n1.1.1.1 y\n".toList)).2 = true ∧
    (MergeByIP (load dottedQuad "1.1.1.1 x\n1.1.1.1 y\n".toList)).1.Lines =
      [{ Raw := "1.1.1.1 x".toList, IsEntry := true, IP := "1.1.1.1".toList,
         Domains := ["x".toList, "y".toList], Comment := [], IsBlank := false },
       { Raw := [], IsEntry := false, IP := [], Domains := [], Comment := [],
         IsBlank := true }] :=
  ⟨((MergeByIP_collapses (load dottedQuad "1.1.1.1 x\n1.1.1.1 y\n".toList)).2.2.2.2.2).trans
      (by decide),
   by decide⟩

/-- C14: when the loop of `MergeByIP` merges a duplicate `x` into the
retained record `e`, the comment of `e` becomes that of `x` only if it is
empty and that of `x` is not.  Hence, for every collection, the entry left
for an address has the first non-empty comment, in sequence order, among all
entries of that address (the empty one if all are empty); a non-empty
comment of the first entry of an address stays. -/
theorem MergeByIP_comment (hf : HostsFile) :
    (∀ (nl : List HostLine) (m : Str → Option Nat) (ch : Bool) (x e : HostLine) (k : Nat),
      unmerged x = false → m x.IP = some k → nl[k]? = some e →
      (mergeStep (nl, m, ch) x).1 =
        nl.set k { e with Domains := e.Domains ++ x.Domains,
                          Comment := if e.Comment = [] ∧ x.Comment ≠ [] then x.Comment
                                     else e.Comment }) ∧
    (∀ r ∈ (MergeByIP hf).1.Lines, r.IsEntry = true → r.IP ≠ [] →
      r.Comment = firstNonEmpty ((hf.Lines.filter (hasIP r.IP)).map fun x => x.Comment)) ∧
    (∀ (pre rest : List HostLine) (x : HostLine), hf.Lines = pre ++ x :: rest →
      x.IsEntry = true → x.IP ≠ [] → (∀ y ∈ pre, hasIP x.IP y = false) →
      x.Comment ≠ [] →
      ∀ r ∈ (MergeByIP hf).1.Lines, r.IsEntry = true → r.IP = x.IP →
        r.Comment = x.Comment) := by
  refine ⟨?_, ?_, ?_⟩
  · intro nl m ch x e k hx hm he
    rw [mergeStep_found nl m ch x e k hx hm he]
    rfl
  · intro r hr he hip
    rw [MergeByIP_Lines] at hr
    exact (mergeRef_retained hf.Lines r hr he hip).2
  · intro pre rest x hL hxe hxip hpre hxc r hr hre hrip
    rw [MergeByIP_Lines] at hr
    have h := (mergeRef_retained hf.Lines r hr hre (by rw [hrip]; exact hxip)).2
    have hpre' : pre.filter (hasIP x.IP) = [] := by
      rw [List.filter_eq_nil_iff]
      intro y hy hh
      rw [hpre y hy] at hh
      exact Bool.noConfusion hh
    have hself : hasIP x.IP x = true := by
      rw [hasIP_iff]; exact ⟨hxe, rfl⟩
    rw [h, hrip, hL, List.filter_append, hpre', List.nil_append,
      List.filter_cons_of_pos hself]
    simp [firstNonEmpty, hxc]

/-- C14, witness: of the three lines `1.1.1.1 x`, `1.1.1.1 y # c` and
`1.1.1.1 z # d`, the merge leaves one entry, and its comment `c` is the first
non-empty comment of the three. -/
theorem MergeByIP_comment_witness :
    (MergeByIP
        (load dottedQuad "1.1.1.1 x\n1.1.1.1 y # c\n1.1.1.1 z # d".toList)).1.Lines =
      [{ Raw := "1.1.1.1 x".toList, IsEntry := true, IP := "1.1.1.1".toList,
         Domains := ["x".toList, "y".toList, "z".toList], Comment := "c".toList,
         IsBlank := false }] ∧
    "c".toList = firstNonEmpty
      (((load dottedQuad "1.1.1.1 x\n1.1.1.1 y # c\n1.1.1.1 z # d".toList).Lines.filter
        (hasIP "1.1.1.1".toList)).map fun x => x.Comment) :=
  ⟨by decide,
   (MergeByIP_comment
      (load dottedQuad "1.1.1.1 x\n1.1.1.1 y # c\n1.1.1.1 z # d".toList)).2.1
      { Raw := "1.1.1.1 x".toList, IsEntry := true, IP := "1.1.1.1".toList,
        Domains := ["x".toList, "y".toList, "z".toList], Comment := "c".toList,
        IsBlank := false }
      (by decide) (by decide) (by decide)⟩

/-- C15: for every collection, after one `MergeByIP` no two entries share an
address (the addresses of the entries left are pairwise different), and a
second `MergeByIP` returns `false` and returns the collection as the first
one left it. -/
theorem MergeByIP_idempotent (hf : HostsFile) :
    (entryIPs (MergeByIP hf).1.Lines).Nodup ∧
    (MergeByIP (MergeByIP hf).1).2 = false ∧
    (MergeByIP (MergeByIP hf).1).1 = (MergeByIP hf).1 := by
  have hn : (entryIPs (MergeByIP hf).1.Lines).Nodup := by
    rw [MergeByIP_Lines]
    exact (entryIPs_mergeFrom hf.Lines []).1
  have hflag : (MergeByIP (MergeByIP hf).1).2 = false := by
    rw [MergeByIP_changed]
    exact repeatsIP_of_nodup _ [] hn (fun ip _ => by simp)
  exact ⟨hn, hflag, MergeByIP_of_unchanged _ hflag⟩

/-- C16: for every collection reachable from the parser by `AddDomain`,
`RemoveDomain` and `MergeByIP` calls, each of `RemoveDomain`, `MergeByIP` and
`AddDomain` (when it returns no error) returns `true` if and only if the
record sequence after the call differs from the one before it; after a
`false` result the serialized text is the one from before the call. -/
theorem changed_flag_iff_sequence_differs (isIP : Str → Bool) (hf : HostsFile)
    (h : Reachable isIP hf) :
    (∀ d : Str,
      ((RemoveDomain hf d).2 = true ↔ (RemoveDomain hf d).1.Lines ≠ hf.Lines) ∧
      ((RemoveDomain hf d).2 = false →
        ToHostsFileString (RemoveDomain hf d).1 = ToHostsFileString hf)) ∧
    (((MergeByIP hf).2 = true ↔ (MergeByIP hf).1.Lines ≠ hf.Lines) ∧
      ((MergeByIP hf).2 = false →
        ToHostsFileString (MergeByIP hf).1 = ToHostsFileString hf)) ∧
    (∀ ip domain comment : Str, (AddDomain isIP hf ip domain comment).2.2 = none →
      ((AddDomain isIP hf ip domain comment).2.1 = true ↔
        (AddDomain isIP hf ip domain comment).1.Lines ≠ hf.Lines) ∧
      ((AddDomain isIP hf ip domain comment).2.1 = false →
        ToHostsFileString (AddDomain isIP hf ip domain comment).1
          = ToHostsFileString hf)) := by
  have hne : ∀ r ∈ hf.Lines, r.IsEntry = true → r.IP ≠ [] → r.Domains ≠ [] :=
    fun r hr he => (Reachable_EntryOK isIP hf h r hr he).2.2.1
  refine ⟨?_, ⟨MergeByIP_changed_iff hf, ?_⟩, ?_⟩
  · intro d
    have hiff := RemoveDomain_changed_iff hf d hne
    refine ⟨hiff, fun hfalse => ToHostsFileString_congr _ _ ?_⟩
    by_contra hdiff
    rw [hiff.mpr hdiff] at hfalse
    exact Bool.noConfusion hfalse
  · intro hfalse
    rw [MergeByIP_of_unchanged hf hfalse]
  · intro ip domain comment _
    have hiff := AddDomain_changed_iff isIP hf ip domain comment
    refine ⟨hiff, fun hfalse => ToHostsFileString_congr _ _ ?_⟩
    by_contra hdiff
    rw [hiff.mpr hdiff] at hfalse
    exact Bool.noConfusion hfalse

/-- C16, witness: on the Scenario-3 state, a collection reached from the
parser by two `AddDomain` calls, `RemoveDomain("b.local")` returns `true`
and changes the record sequence. -/
theorem changed_flag_iff_sequence_differs_witness :
    (RemoveDomain scenario3 "b.local".toList).2 = true ∧
    (RemoveDomain scenario3 "b.local".toList).1.Lines ≠ scenario3.Lines :=
  ⟨by decide,
   ((changed_flag_iff_sequence_differs dottedQuad scenario3
      (Reachable.added scenario2 _ _ _
        (Reachable.added scenario1 _ _ _ (Reachable.parsed _)))).1
      "b.local".toList).1.mp (by decide)⟩

/-- C17 as stated fails: on the collection parsed from `127.0.0.1 a.local`,
`AddDomain("10.0.0.1", "x y", "")` succeeds and appends a record with the one
domain `x y`; the serialized text is re-parsed into a record with the two
domains `x` and `y`. -/
theorem AddDomain_inner_space_splits_on_reparse :
    (AddDomain dottedQuad (load dottedQuad "127.0.0.1 a.local".toList)
        "10.0.0.1".toList "x y".toList []).2.2 = none ∧
    ((AddDomain dottedQuad (load dottedQuad "127.0.0.1 a.local".toList)
        "10.0.0.1".toList "x y".toList []).1.Lines.map fun r => r.Domains)
      = [["a.local".toList], ["x y".toList]] ∧
    ToHostsFileString (AddDomain dottedQuad (load dottedQuad "127.0.0.1 a.local".toList)
        "10.0.0.1".toList "x y".toList []).1
      = "127.0.0.1 a.local\n10.0.0.1 x y\n".toList ∧
    ((load dottedQuad (ToHostsFileString
        (AddDomain dottedQuad (load dottedQuad "127.0.0.1 a.local".toList)
          "10.0.0.1".toList "x y".toList []).1)).Lines.map fun r => r.Domains)
      = [["a.local".toList], ["x".toList, "y".toList], []] := by
  decide

/-- C17, amended: for every parsed collection and every
`AddDomain(ip, domain, comment)` whose `ip` is non-empty and has no white
space and no `#`, whose trimmed `domain` has no white space and no `#`, and
whose `comment` has no white space at its ends and no line terminator,
re-parsing the serialization of the collection after the call gives its
records one for one and in order, with the same category, IP, domains and
comment, followed by one final blank record. -/
theorem reparse_after_AddDomain (isIP : Str → Bool) (t ip domain comment : Str)
    (hipf : ip ≠ [] ∧ ∀ c ∈ ip, isSpace c = false ∧ c ≠ '#')
    (hd : ∀ c ∈ TrimSpace domain, isSpace c = false ∧ c ≠ '#')
    (hc : TrimSpace comment = comment) (hcn : '\n' ∉ comment) :
    (load isIP (ToHostsFileString
        (AddDomain isIP (load isIP t) ip domain comment).1)).Lines.map content
      = (AddDomain isIP (load isIP t) ip domain comment).1.Lines.map content
          ++ [(true, false, [], [], [])] := by
  apply reparse_of_Printable
  have hct : Trimmed comment := by rw [← hc]; exact Trimmed_TrimSpace comment
  exact Printable_AddDomain isIP (load isIP t) ip domain comment (Printable_load isIP t)
    ⟨hipf.1, fun c hcm => (hipf.2 c hcm).1, fun hm => (hipf.2 _ hm).2 rfl⟩ hd hct hcn

/-- C17, amended, witness (Scenario 3): the state after
`AddDomain("10.0.0.1", "a.local", "moved")` on the collection parsed from
`127.0.0.1 a.local b.local # dev` re-parses to itself and a final blank
record. -/
theorem reparse_after_AddDomain_witness :
    (load dottedQuad (ToHostsFileString
        (AddDomain dottedQuad (load dottedQuad "127.0.0.1 a.local b.local # dev".toList)
          "10.0.0.1".toList "a.local".toList "moved".toList).1)).Lines.map content
      = (AddDomain dottedQuad (load dottedQuad "127.0.0.1 a.local b.local # dev".toList)
          "10.0.0.1".toList "a.local".toList "moved".toList).1.Lines.map content
          ++ [(true, false, [], [], [])] :=
  reparse_after_AddDomain dottedQuad "127.0.0.1 a.local b.local # dev".toList
    "10.0.0.1".toList "a.local".toList "moved".toList (by decide) (by decide) (by decide)
    (by decide)

/-- C18: in every collection reachable from the parser by `AddDomain`,
`RemoveDomain` and `MergeByIP` calls, every entry record is non-blank, has an
IP that passes the address predicate, hence a non-empty one (the predicate
rejects the empty string, as `net.ParseIP` does), and lists at least one
domain; no record is both blank and an entry. -/
theorem Reachable_record_invariant (isIP : Str → Bool) (hempty : isIP [] = false)
    (hf : HostsFile) (h : Reachable isIP hf) :
    ∀ r ∈ hf.Lines,
      (r.IsEntry = true →
        r.IsBlank = false ∧ isIP r.IP = true ∧ r.IP ≠ [] ∧ r.Domains ≠ []) ∧
      ¬ (r.IsBlank = true ∧ r.IsEntry = true) := by
  intro r hr
  have hok := Reachable_EntryOK isIP hf h r hr
  have hmain : r.IsEntry = true →
      r.IsBlank = false ∧ isIP r.IP = true ∧ r.IP ≠ [] ∧ r.Domains ≠ [] := by
    intro he
    obtain ⟨h1, h2, h3, _⟩ := hok he
    have hip : r.IP ≠ [] := by
      intro e
      rw [e, hempty] at h2
      exact Bool.noConfusion h2
    exact ⟨h1, h2, hip, h3 hip⟩
  refine ⟨hmain, ?_⟩
  rintro ⟨hb, he⟩
  rw [(hmain he).1] at hb
  exact Bool.noConfusion hb

/-- C18, witness: the record of `10.0.0.1` in the Scenario-3 state, a
collection reached from the parser by two `AddDomain` calls, is not blank,
has a valid, non-empty IP and lists a domain. -/
theorem Reachable_record_invariant_witness :
    dottedQuad "10.0.0.1".toList = true ∧ "10.0.0.1".toList ≠ [] ∧
    ["a.local".toList] ≠ [] :=
  ((Reachable_record_invariant dottedQuad (by decide) scenario3
      (Reachable.added scenario2 _ _ _
        (Reachable.added scenario1 _ _ _ (Reachable.parsed _)))
      { Raw := "10.0.0.1 a.local".toList, IsEntry := true, IP := "10.0.0.1".toList,
        Domains := ["a.local".toList], Comment := [], IsBlank := false }
      (by decide)).1 rfl).2

/-- C19: for every collection in which no domain string appears in the
domains of two distinct entry records, the same holds after `AddDomain` with
any arguments, after `RemoveDomain` and after `MergeByIP`. -/
theorem exclusivity_preserved (isIP : Str → Bool) (hf : HostsFile)
    (h : Exclusive hf.Lines) :
    (∀ ip domain comment : Str, Exclusive (AddDomain isIP hf ip domain comment).1.Lines) ∧
    (∀ domain : Str, Exclusive (RemoveDomain hf domain).1.Lines) ∧
    Exclusive (MergeByIP hf).1.Lines := by
  refine ⟨fun ip domain comment => Exclusive_AddDomain isIP hf ip domain comment h, ?_,
    Exclusive_MergeByIP hf h⟩
  intro domain
  rw [RemoveDomain_Lines]
  exact Exclusive_filterMap_dropDomain _ _ h

/-- C19, witness: the Scenario-2 state lists `a.local` and `b.local` in one
record, so it is exclusive, and it stays so after
`AddDomain("10.0.0.1", "a.local", "")`. -/
theorem exclusivity_preserved_witness :
    Exclusive scenario2.Lines ∧
    Exclusive (AddDomain dottedQuad scenario2 "10.0.0.1".toList "a.local".toList []).1.Lines :=
  have h0 : Exclusive scenario2.Lines := by
    have e : scenario2.Lines =
        [{ Raw := "127.0.0.1 a.local # dev".toList, IsEntry := true,
           IP := "127.0.0.1".toList, Domains := ["a.local".toList, "b.local".toList],
           Comment := "dev".toList, IsBlank := false },
         { Raw := [], IsEntry := false, IP := [], Domains := [], Comment := [],
           IsBlank := true }] := by decide
    rw [e]
    unfold Exclusive
    rw [List.pairwise_cons]
    refine ⟨?_, List.pairwise_singleton _ _⟩
    intro b hb _ hbe
    have : b = _ := List.mem_singleton.mp hb
    rw [this] at hbe
    exact Bool.noConfusion hbe
  ⟨h0, (exclusivity_preserved dottedQuad scenario2 h0).1 _ _ _⟩

/-- C20: in every collection produced by the parser and after every
`AddDomain`, `RemoveDomain` or `MergeByIP` call, the two lookup maps are the
maps `rebuildIndex` makes of the record sequence: `ByIP` has exactly the IPs
of the entry records as keys and `ByDomain` exactly the domains entry records
list, so records that are no entries contribute nothing, and each key refers
to the last entry record of the sequence with that IP, respectively listing
that domain. -/
theorem index_consistent (isIP : Str → Bool) (hf : HostsFile) (h : Reachable isIP hf) :
    (hf.ByIP = (rebuildIndex hf).ByIP ∧ hf.ByDomain = (rebuildIndex hf).ByDomain) ∧
    (∀ ip : Str, (hf.ByIP ip ≠ none ↔ ∃ r ∈ hf.Lines, r.IsEntry = true ∧ r.IP = ip)) ∧
    (∀ d : Str, (hf.ByDomain d ≠ none ↔ ∃ r ∈ hf.Lines, r.IsEntry = true ∧ d ∈ r.Domains)) ∧
    (∀ (ip : Str) (i : Nat), hf.ByIP ip = some i →
      ∃ r, hf.Lines[i]? = some r ∧ r.IsEntry = true ∧ r.IP = ip ∧
        ∀ j r', i < j → hf.Lines[j]? = some r' → ¬ (r'.IsEntry = true ∧ r'.IP = ip)) ∧
    (∀ (d : Str) (i : Nat), hf.ByDomain d = some i →
      ∃ r, hf.Lines[i]? = some r ∧ r.IsEntry = true ∧ d ∈ r.Domains ∧
        ∀ j r', i < j → hf.Lines[j]? = some r' → ¬ (r'.IsEntry = true ∧ d ∈ r'.Domains)) := by
  have hidx := Reachable_Indexed isIP hf h
  have hok := Reachable_EntryOK isIP hf h
  have hlists : ∀ (d : Str) (r : HostLine), r ∈ hf.Lines →
      (listsDomain d r = true ↔ r.IsEntry = true ∧ d ∈ r.Domains) := by
    intro d r hr
    unfold listsDomain
    constructor
    · intro hl
      have hl' : r.IsEntry = true ∧ ∃ x ∈ r.Domains, TrimSpace x = d := by simpa using hl
      obtain ⟨he, x, hx, hxd⟩ := hl'
      rw [(hok r hr he).2.2.2 x hx] at hxd
      exact ⟨he, hxd ▸ hx⟩
    · rintro ⟨he, hd⟩
      have : ∃ x ∈ r.Domains, TrimSpace x = d := ⟨d, hd, (hok r hr he).2.2.2 d hd⟩
      simpa [he] using this
  obtain ⟨h1, h2⟩ := hidx
  refine ⟨(Indexed_iff_rebuild hf).mp ⟨h1, h2⟩, ?_, ?_, ?_, ?_⟩
  · intro ip
    rw [h1 ip, Ne, lastPos_eq_none_iff]
    constructor
    · intro hn
      by_contra hex
      apply hn
      intro r hr
      rw [Bool.eq_false_iff]
      intro hh
      exact hex ⟨r, hr, (hasIP_iff ip r).mp hh⟩
    · rintro ⟨r, hr, hh⟩ hall
      have := hall r hr
      rw [(hasIP_iff ip r).mpr hh] at this
      exact Bool.noConfusion this
  · intro d
    rw [h2 d, Ne, lastPos_eq_none_iff]
    constructor
    · intro hn
      by_contra hex
      apply hn
      intro r hr
      rw [Bool.eq_false_iff]
      intro hh
      exact hex ⟨r, hr, (hlists d r hr).mp hh⟩
    · rintro ⟨r, hr, hh⟩ hall
      have := hall r hr
      rw [(hlists d r hr).mpr hh] at this
      exact Bool.noConfusion this
  · intro ip i hi
    rw [h1 ip] at hi
    obtain ⟨r, h3, h4, h5⟩ := lastPos_eq_some _ _ i hi
    have h4' := (hasIP_iff ip r).mp h4
    refine ⟨r, h3, h4'.1, h4'.2, ?_⟩
    intro j r' hj hr' hc
    have := h5 j r' hj hr'
    rw [(hasIP_iff ip r').mpr hc] at this
    exact Bool.noConfusion this
  · intro d i hi
    rw [h2 d] at hi
    obtain ⟨r, h3, h4, h5⟩ := lastPos_eq_some _ _ i hi
    have h4' := (hlists d r (List.getElem?_mem h3)).mp h4
    refine ⟨r, h3, h4'.1, h4'.2, ?_⟩
    intro j r' hj hr' hc
    have := h5 j r' hj hr'
    rw [(hlists d r' (List.getElem?_mem hr')).mpr hc] at this
    exact Bool.noConfusion this

/-- C20, witness: in the collection parsed from `1.1.1.1 a`, `2.2.2.2 a` and
`1.1.1.1 b`, the maps are those rebuilt from the sequence; `1.1.1.1` refers to
the third record and `a` to the second. -/
theorem index_consistent_witness :
    (load dottedQuad "1.1.1.1 a\n2.2.2.2 a\n1.1.1.1 b".toList).ByIP
      = (rebuildIndex (load dottedQuad "1.1.1.1 a\n2.2.2.2 a\n1.1.1.1 b".toList)).ByIP ∧
    (load dottedQuad "1.1.1.1 a\n2.2.2.2 a\n1.1.1.1 b".toList).ByIP "1.1.1.1".toList
      = some 2 ∧
    (load dottedQuad "1.1.1.1 a\n2.2.2.2 a\n1.1.1.1 b".toList).ByDomain "a".toList
      = some 1 :=
  ⟨(index_consistent dottedQuad _ (Reachable.parsed _)).1.1, by decide, by decide⟩

end HostsControl
